import Mathlib

/-!
The netboot.c module: PXE discovery, DHCP acknowledgment parsing and TFTP fetch

A shallow embedding of `src/netboot.c`.  Bytes, characters and machine words
are natural numbers; a C buffer is a `List Nat` of bytes and a pointer into it
is an offset.  A NUL-terminated string is the run of bytes before the first
zero byte of its buffer.
-/

namespace Netboot

/-! ## Bytes, strings and 16-bit words -/

/-- The bytes of a string literal, without the terminating NUL. -/
def chars (s : String) : List Nat := s.toList.map Char.toNat

/-- The buffer holding a string literal: its bytes and the terminating NUL. -/
def cbuf (s : String) : List Nat := chars s ++ [0]

/-- The C string that starts at offset `off` of `mem`: the bytes before the
first NUL. -/
def cstr (mem : List Nat) (off : Nat) : List Nat :=
  (mem.drop off).takeWhile (fun c => c != 0)

/-- `strlen` on the string at the start of `mem`, defined only when a NUL is
found inside `mem`; `none` stands for a read that runs off the buffer. -/
def strlenAt : List Nat → Option Nat
  | [] => none
  | c :: rest => if c = 0 then some 0 else (strlenAt rest).map (fun n => n + 1)

/-- `__swap16` (lines 42-48): `xchgb` exchanges the low and high byte of a
16-bit value. -/
def __swap16 (x : Nat) : Nat := (x % 256) * 256 + (x / 256) % 256

/-- `ntohs` (line 50). -/
def ntohs (x : Nat) : Nat := __swap16 x

/-- `htons` (line 51). -/
def htons (x : Nat) : Nat := ntohs x

/-- A `UINT16` load from two consecutive bytes on the little-endian target. -/
def load16 (b0 b1 : Nat) : Nat := b0 + 256 * b1

/-- The two bytes a `UINT16` occupies in memory on the little-endian target. -/
def bytes16 (x : Nat) : List Nat := [x % 256, (x / 256) % 256]

/-! ## str2ns and str2ip6 (lines 191-242) -/

/-- The nibble value `v` that the body of `str2ns` computes for one character
(lines 196-203). -/
def nibble (c : Nat) : Nat :=
  if 48 ≤ c ∧ c ≤ 57 then c - 48
  else if 65 ≤ c ∧ c ≤ 70 then c - 65 + 10
  else if 97 ≤ c ∧ c ≤ 102 then c - 97 + 10
  else 0

/-- The loop of `str2ns` (lines 195-205) over the bytes from `str` onwards;
`ret` is a `CHAR16`, so the sum is reduced modulo `2^16`.  The end of the list
stops the loop like a NUL. -/
def str2ns_loop : List Nat → Nat → Nat
  | [], ret => ret
  | c :: rest, ret =>
    if c = 0 then ret else str2ns_loop rest ((ret * 16 + nibble c) % 65536)

/-- `str2ns(mem + off)` (lines 191-207). -/
def str2ns (mem : List Nat) (off : Nat) : Nat :=
  htons (str2ns_loop (mem.drop off) 0)

/-- The static array `ip[8]` of `str2ip6`, the indices of the stores made to
it, in order, and whether one of them fell outside the array.  Once `fault` is
set the run has stored outside `ip`: what the C code does from there on is
undefined, and `ip` no longer stands for anything. -/
structure Ip6 where
  ip : List Nat
  writes : List Nat
  fault : Bool
deriving DecidableEq, Repr

/-- The assignment `ip[p] = v`.  The code does not bound `p`; an index outside
`0..7` is a store outside the array and sets `fault`. -/
def Ip6.store (s : Ip6) (p v : Nat) : Ip6 :=
  { ip := s.ip.set p v, writes := s.writes ++ [p], fault := s.fault || decide (8 ≤ p) }

/-- The first loop of `str2ip6` (lines 221-230).  `b` always equals `str + i`,
so the offset `i` stands for both; `a` is an offset, `p` a `UINT8`.  The text
is restored after each `str2ns` call, so `str` itself never changes.  Returns
the value of `i` on leaving the loop and the array.  The fuel is `len`; the
only caller passes a text of at most 39 characters, so the `UINT8` counter `i`
does not wrap. -/
def str2ip6_front (str : List Nat) (len : Nat) : Nat → Nat → Nat → Nat → Ip6 → Nat × Ip6
  | 0, i, _, _, s => (i, s)
  | fuel + 1, i, p, a, s =>
    if i < len then
      if str.getD i 0 ≠ 58 then str2ip6_front str len fuel (i + 1) p a s
      else
        let s1 := s.store p (str2ns (str.set i 0) a)
        if str.getD (i + 1) 0 = 58 then (i, s1)
        else str2ip6_front str len fuel (i + 1) ((p + 1) % 256) (i + 1) s1
    else (i, s)

/-- The second loop of `str2ip6` (lines 232-240).  `a` always equals
`str + j`, so `j` stands for both; `b` is an offset and `p` a `UINT8` whose
decrement wraps. -/
def str2ip6_back (str : List Nat) (i : Nat) : Nat → Nat → Nat → Nat → Ip6 → Ip6
  | 0, _, _, _, s => s
  | fuel + 1, j, p, b, s =>
    if j > i then
      if str.getD j 0 ≠ 58 then str2ip6_back str i fuel (j - 1) p b s
      else
        let s1 := s.store p (str2ns (str.set b 0) (j + 1))
        str2ip6_back str i fuel (j - 1) ((p + 255) % 256) j s1
    else s

/-- `str2ip6(str)` (lines 209-242) on the buffer `str`. -/
def str2ip6 (str : List Nat) : Ip6 :=
  let len := (cstr str 0).length
  let r := str2ip6_front str len len 0 0 0 { ip := List.replicate 8 0, writes := [], fault := false }
  str2ip6_back str r.1 len len 7 len r.2

/-- The 16 bytes at the address `str2ip6` returns. -/
def ip6_bytes (s : Ip6) : List Nat := s.ip.flatMap bytes16

/-- A conventional reading of the eight groups: each stored `UINT16` converted
from network to host order. -/
def ip6_groups (s : Ip6) : List Nat := s.ip.map ntohs

/-! ## translate_slashes (lines 64-80) -/

/-- The loop of `translate_slashes` (lines 72-78) on the buffer `str`, which
is changed in place: only `str[j] = '/'` is ever written.  The fuel bounds the
number of iterations by the buffer length. -/
def translate_slashes_loop : Nat → Nat → Nat → List Nat → List Nat
  | 0, _, _, str => str
  | fuel + 1, i, j, str =>
    if str.getD i 0 = 0 then str
    else if str.getD i 0 = 92 then
      let str1 := str.set j 47
      if str1.getD (i + 1) 0 = 92 then translate_slashes_loop fuel (i + 2) (j + 1) str1
      else translate_slashes_loop fuel (i + 1) (j + 1) str1
    else translate_slashes_loop fuel (i + 1) (j + 1) str

/-- `translate_slashes(str)` for a non-NULL `str`: the buffer after the call
(the function returns its argument). -/
def translate_slashes (str : List Nat) : List Nat :=
  translate_slashes_loop str.length 0 0 str

/-! ## get_v6_bootfile_url (lines 161-189) -/

/-- Outcome of the option scan: `NULL`, a freshly allocated buffer, or a read
outside the option area. -/
inductive UrlResult where
  | null
  | url (buf : List Nat)
  | fault
deriving DecidableEq, Repr

/-- The `for(;;)` loop of `get_v6_bootfile_url` (lines 170-186) over the
option area `opts`, with `optr` an offset into it.  `allocOk` tells whether
`AllocateZeroPool` succeeds.  `none` means the fuel ran out. -/
def get_v6_bootfile_url_loop (opts : List Nat) (allocOk : Bool) : Nat → Nat → Option UrlResult
  | 0, _ => none
  | fuel + 1, optr =>
    match opts.get? optr, opts.get? (optr + 1) with
    | some b0, some b1 =>
      if ntohs (load16 b0 b1) = 0 then some .null
      else
        match opts.get? (optr + 2), opts.get? (optr + 3) with
        | some l0, some l1 =>
          let len := ntohs (load16 l0 l1)
          if ntohs (load16 b0 b1) = 59 then
            if allocOk then
              if optr + 4 + len ≤ opts.length then
                some (.url ((opts.drop (optr + 4)).take len ++ [0]))
              else some .fault
            else some .null
          else get_v6_bootfile_url_loop opts allocOk fuel (optr + 4 + len)
        | _, _ => some .fault
    | _, _ => some .fault

/-- `get_v6_bootfile_url(pkt)` with `opts` the bytes of `pkt->DhcpOptions`. -/
def get_v6_bootfile_url (opts : List Nat) (allocOk : Bool) : Option UrlResult :=
  get_v6_bootfile_url_loop opts allocOk (opts.length + 1) 0

/-! ## Global state -/

/-- The fields of `EFI_PXE_BASE_CODE_MODE` the code reads; the acknowledgment
packet is seen through the two views the code uses, `Dhcpv4.BootpSiAddr` and
the `DhcpOptions` of the DHCPv6 view. -/
structure EFI_PXE_BASE_CODE_MODE where
  Started : Bool
  DhcpAckReceived : Bool
  UsingIpv6 : Bool
  BootpSiAddr : List Nat
  DhcpOptions : List Nat
deriving DecidableEq, Repr

/-- The protocol interface; `Mode = none` is a NULL `Mode` pointer. -/
structure EFI_PXE_BASE_CODE where
  Mode : Option EFI_PXE_BASE_CODE_MODE
deriving DecidableEq, Repr

/-- The file-scope variables `pxe`, `tftp_addr` (16 bytes) and `full_path`
(`none` is NULL, otherwise the allocated buffer). -/
structure State where
  pxe : Option EFI_PXE_BASE_CODE
  tftp_addr : List Nat
  full_path : Option (List Nat)
deriving DecidableEq, Repr

/-- The state at program start: zero-initialised statics. -/
def State.fresh : State :=
  { pxe := none, tftp_addr := List.replicate 16 0, full_path := none }

def EFI_SUCCESS : Nat := 0
def EFIERR (a : Nat) : Nat := 2 ^ 63 + a
def EFI_BUFFER_TOO_SMALL : Nat := EFIERR 5
def EFI_NOT_READY : Nat := EFIERR 6
def EFI_OUT_OF_RESOURCES : Nat := EFIERR 9
def EFI_NOT_FOUND : Nat := EFIERR 14

/-! ## extract_tftp_info (lines 244-288) -/

/-- `strncmp(url, "tftp://", 7)` is non-zero.  None of the seven characters is
NUL, so the comparison is zero exactly when the first seven bytes agree. -/
def strncmp_tftp_ne (url : List Nat) : Bool :=
  url.take 7 != chars "tftp://"

/-- Outcome of the bracket scan of lines 262-268. -/
inductive BracketScan where
  | stop (n : Nat)
  | tooLong
  | fault
deriving DecidableEq, Repr

/-- The `while` loop of lines 262-268 over the bytes from `end` onwards; `n`
is `end - start`.  `stop n` leaves the loop with `*end` NUL or `]`. -/
def bracket_scan : List Nat → Nat → BracketScan
  | [], _ => .fault
  | c :: rest, n =>
    if c ≠ 0 ∧ c ≠ 93 then
      if n + 1 > 39 then .tooLong else bracket_scan rest (n + 1)
    else .stop n

/-- The scan of `strrchr(s, c)` for a non-NUL `c` over the bytes from offset
`i` on: `last` is the offset of the latest match so far, and the scan stops at
the NUL. -/
def strrchr_loop (c : Nat) : List Nat → Nat → Option Nat → Option Nat
  | [], _, last => last
  | x :: rest, i, last =>
    if x = 0 then last else strrchr_loop c rest (i + 1) (if x = c then some i else last)

/-- `strrchr(buf, c)` as an offset into `buf`; `none` is NULL. -/
def strrchr (buf : List Nat) (c : Nat) : Option Nat := strrchr_loop c buf 0 none

/-- `memcpy(dst + off, src, src.length)`. -/
def memcpy_at (dst : List Nat) (off : Nat) (src : List Nat) : List Nat :=
  dst.take off ++ src ++ dst.drop (off + src.length)

/-- The string the later reads through `template` find (line 248).
`translate_slashes` is handed the string literal `DEFAULT_LOADER_CHAR` and
stores into it, which C leaves undefined: a build may let the later reads see
the stores (`litStore` true: the translated string) or go on reading the bytes
of the literal as they were (`litStore` false).  The stores never change the
length of the string.  The stores themselves are taken to complete: a literal
placed in write-protected memory, where the first store would trap, is outside
this model. -/
def template_read (litStore : Bool) (loader : List Nat) : List Nat :=
  if litStore then cstr (translate_slashes loader) 0 else cstr loader 0

/-- `extract_tftp_info(url)` (lines 244-288).  `loader` is the buffer of the
string literal `DEFAULT_LOADER_CHAR` (declared in shim.h) as it stands when the
function is entered, `litStore` whether stores into that literal are seen by
later reads (see `template_read`), `url` the buffer the argument points to,
`allocOk` whether `AllocateZeroPool` succeeds.  `none` is a fault: a read
outside `url`, or a store of `str2ip6` outside its array.  The test
`end == '\0'` of line 269 compares the pointer itself with zero, which never
holds for a pointer into `url`, so it contributes no branch. -/
def extract_tftp_info (litStore : Bool) (loader : List Nat) (allocOk : Bool) (st : State)
    (url : List Nat) : Option (Bool × State) :=
  let template := template_read litStore loader
  if strncmp_tftp_ne url then some (false, st)
  else
    match url.get? 7 with
    | none => none
    | some c =>
      if c ≠ 91 then some (false, st)
      else
        match bracket_scan (url.drop 8) 0 with
        | .fault => none
        | .tooLong => some (false, st)
        | .stop n =>
          let ip6str := memcpy_at (List.replicate 40 0) 0 ((url.drop 8).take n)
          if (str2ip6 ip6str).fault then none
          else
            let st1 := { st with tftp_addr := ip6_bytes (str2ip6 ip6str) }
            match strlenAt (url.drop (8 + n + 1)) with
            | none => none
            | some plen =>
              if allocOk then
                let path := (url.drop (8 + n + 1)).take plen
                let buf0 := memcpy_at (List.replicate (plen + template.length + 1) 0) 0 path
                let e := (strrchr buf0 47).getD 0
                let buf1 := (memcpy_at buf0 e template).set (e + template.length) 0
                some (true, { st1 with full_path := some buf1 })
              else some (false, { st1 with full_path := none })

/-! ## findNetboot (lines 87-159) -/

/-- What `OpenProtocol` does for one handle: the status it returns and the
interface pointer it leaves in `pxe` (`none` is NULL). -/
structure Handle where
  status : Nat
  iface : Option EFI_PXE_BASE_CODE
deriving DecidableEq, Repr

/-- What one `LocateHandle` call does: the status it returns, the value it
leaves in `bs`, and the handle found in each slot of `buffer` afterwards. -/
structure LocateResp where
  status : Nat
  bs : Nat
  hbuf : Nat → Handle

/-- The environment of `findNetboot`: whether the n-th `AllocatePool` call
succeeds and what the n-th `LocateHandle` call does (both counted from 0). -/
structure FindEnv where
  alloc : Nat → Bool
  locate : Nat → LocateResp

/-- `sizeof(EFI_HANDLE)` on the 64-bit target. -/
def sizeof_EFI_HANDLE : Nat := 8

/-- What `findNetboot` returns, the state it leaves, how many times it called
`LocateHandle`, and the sizes it passed to `AllocatePool`, in order. -/
structure FindResult where
  rc : Bool
  st : State
  calls : Nat
  allocs : List Nat
deriving DecidableEq, Repr

/-- The `for` loop of lines 128-155 over the first `n` slots of the handle
buffer: the return value `rc` and the final `pxe`. -/
def findNetboot_scan (hbuf : Nat → Handle) (n : Nat) :
    Nat → Nat → Option EFI_PXE_BASE_CODE → Bool × Option EFI_PXE_BASE_CODE
  | 0, _, pxe => (false, pxe)
  | fuel + 1, i, pxe =>
    if i < n then
      if (hbuf i).status ≠ EFI_SUCCESS then findNetboot_scan hbuf n fuel (i + 1) none
      else
        match (hbuf i).iface with
        | none => findNetboot_scan hbuf n fuel (i + 1) none
        | some p =>
          match p.Mode with
          | none => findNetboot_scan hbuf n fuel (i + 1) none
          | some m =>
            if m.Started && m.DhcpAckReceived then (true, some p)
            else findNetboot_scan hbuf n fuel (i + 1) (some p)
    else (false, pxe)

/-- The part of `findNetboot` from the label `try_again` on (lines 101-158).
`calls` counts the `LocateHandle` calls made so far; one `AllocatePool` call
precedes each of them, and `allocs` lists the sizes those calls were given.
`none` means the fuel ran out. -/
def findNetboot_try (env : FindEnv) (st : State) :
    Nat → Nat → Nat → List Nat → Option FindResult
  | 0, _, _, _ => none
  | fuel + 1, errcnt, calls, allocs =>
    let r := env.locate calls
    if r.status = EFI_BUFFER_TOO_SMALL then
      if errcnt + 1 > 1 then some { rc := false, st := st, calls := calls + 1, allocs := allocs }
      else if env.alloc (calls + 1) then
        findNetboot_try env st fuel (errcnt + 1) (calls + 1) (allocs ++ [r.bs])
      else some { rc := false, st := st, calls := calls + 1, allocs := allocs ++ [r.bs] }
    else if r.status = EFI_NOT_FOUND then
      some { rc := false, st := st, calls := calls + 1, allocs := allocs }
    else
      let n := r.bs / sizeof_EFI_HANDLE
      let x := findNetboot_scan r.hbuf n n 0 none
      some { rc := x.1, st := { st with pxe := x.2 }, calls := calls + 1, allocs := allocs }

/-- `findNetboot(image_handle)` (lines 87-159).  Two passes through
`try_again` are all the counter `errcnt` allows, so the fuel is 2. -/
def findNetboot (env : FindEnv) (st : State) : Option FindResult :=
  if env.alloc 0 then findNetboot_try env st 2 0 0 [sizeof_EFI_HANDLE]
  else some { rc := false, st := st, calls := 0, allocs := [sizeof_EFI_HANDLE] }

/-! ## parseDhcp6, parseDhcp4, parseNetbootinfo (lines 290-343) -/

/-- Whether the allocation of the URL copy and of the path buffer succeed. -/
structure ParseEnv where
  allocUrl : Bool
  allocPath : Bool
deriving DecidableEq, Repr

/-- `parseDhcp6()` (lines 290-304) for a `pxe` whose mode is `m`.  `none` is a
fault: a read outside the option area or outside the URL buffer, or a store of
`str2ip6` outside its array. -/
def parseDhcp6 (litStore : Bool) (loader : List Nat) (env : ParseEnv)
    (m : EFI_PXE_BASE_CODE_MODE) (st : State) : Option (Nat × State) :=
  match get_v6_bootfile_url m.DhcpOptions env.allocUrl with
  | none => none
  | some .fault => none
  | some .null => some (EFI_NOT_FOUND, st)
  | some (.url bootfile_url) =>
    match extract_tftp_info litStore loader env.allocPath st bootfile_url with
    | none => none
    | some (false, st1) => some (EFI_NOT_FOUND, st1)
    | some (true, st1) => some (EFI_SUCCESS, st1)

/-- `parseDhcp4()` (lines 306-322): the path buffer has `strlen(template)+1`
zeroed bytes and receives the loader string as it is. -/
def parseDhcp4 (loader : List Nat) (env : ParseEnv) (m : EFI_PXE_BASE_CODE_MODE) (st : State) :
    Nat × State :=
  let template := cstr loader 0
  if env.allocPath then
    (EFI_SUCCESS,
      { st with
        tftp_addr := memcpy_at st.tftp_addr 0 ((List.range 4).map (fun k => m.BootpSiAddr.getD k 0))
        full_path := some (memcpy_at (List.replicate (template.length + 1) 0) 0 template) })
  else (EFI_OUT_OF_RESOURCES, { st with full_path := none })

/-- `parseNetbootinfo(image_handle)` (lines 324-343).  `none` is a fault: a
NULL `pxe->Mode`, or a fault of `parseDhcp6` on the IPv6 path. -/
def parseNetbootinfo (litStore : Bool) (loader : List Nat) (env : ParseEnv) (st : State) :
    Option (Nat × State) :=
  match st.pxe with
  | none => some (EFI_NOT_READY, st)
  | some p =>
    let st1 := { st with tftp_addr := List.replicate 16 0 }
    match p.Mode with
    | none => none
    | some m =>
      if m.UsingIpv6 then parseDhcp6 litStore loader env m st1
      else some (parseDhcp4 loader env m st1)

/-! ## FetchNetbootimage (lines 345-379) -/

/-- A buffer pointer: the one the caller supplied, or the result of the n-th
`AllocatePool` call of this `FetchNetbootimage` call. -/
inductive Buf where
  | caller
  | pool (n : Nat)
deriving DecidableEq, Repr

/-- The calls `FetchNetbootimage` makes into the environment. -/
inductive Event where
  | alloc (size : Nat) (ok : Bool)
  | free (b : Buf)
  | mtftp (b : Buf) (capacity : Nat)
deriving DecidableEq, Repr

/-- What one `Mtftp` call does: its status and the value it leaves in
`*bufsiz`. -/
structure MtftpResp where
  status : Nat
  bufsiz : Nat
deriving DecidableEq, Repr

/-- The environment of `FetchNetbootimage`: whether the n-th `AllocatePool`
call succeeds and what the n-th `Mtftp` call does (both counted from 0). -/
structure FetchEnv where
  alloc : Nat → Bool
  mtftp : Nat → MtftpResp

/-- The status returned, the final `*buffer` and `*bufsiz`, and the calls made
in order. -/
structure FetchResult where
  rc : Nat
  buffer : Option Buf
  bufsiz : Nat
  trace : List Event
deriving DecidableEq, Repr

/-- The part of `FetchNetbootimage` from the label `try_again` on (lines
361-378).  `ncall` and `nalloc` count the `Mtftp` and `AllocatePool` calls made
so far; `*bufsiz` is a `UINT64`.  `none` means the fuel ran out. -/
def FetchNetbootimage_try (env : FetchEnv) :
    Nat → Nat → Nat → Buf → Nat → List Event → Option FetchResult
  | 0, _, _, _, _, _ => none
  | fuel + 1, ncall, nalloc, buffer, bufsiz, tr =>
    let r := env.mtftp ncall
    let tr1 := tr ++ [Event.mtftp buffer bufsiz]
    if r.status = EFI_BUFFER_TOO_SMALL then
      let bufsiz1 := (r.bufsiz * 2) % 2 ^ 64
      if env.alloc nalloc then
        FetchNetbootimage_try env fuel (ncall + 1) (nalloc + 1) (Buf.pool nalloc) bufsiz1
          (tr1 ++ [Event.free buffer, Event.alloc bufsiz1 true])
      else
        some { rc := EFI_OUT_OF_RESOURCES, buffer := none, bufsiz := bufsiz1,
               trace := tr1 ++ [Event.free buffer, Event.alloc bufsiz1 false] }
    else if r.status ≠ EFI_SUCCESS then
      some { rc := r.status, buffer := some buffer, bufsiz := r.bufsiz,
             trace := tr1 ++ [Event.free buffer] }
    else some { rc := r.status, buffer := some buffer, bufsiz := r.bufsiz, trace := tr1 }

/-- `FetchNetbootimage(image_handle, buffer, bufsiz)` (lines 345-379).
`supplied` tells whether `*buffer` is non-NULL on entry (it is then the
caller's buffer) and `bufsiz` is the value of `*bufsiz` on entry. -/
def FetchNetbootimage (env : FetchEnv) (fuel : Nat) (supplied : Bool) (bufsiz : Nat) :
    Option FetchResult :=
  if supplied then FetchNetbootimage_try env fuel 0 0 Buf.caller bufsiz []
  else if env.alloc 0 then
    FetchNetbootimage_try env fuel 0 1 (Buf.pool 0) (4096 * 1024) [Event.alloc (4096 * 1024) true]
  else
    some { rc := EFI_OUT_OF_RESOURCES, buffer := none, bufsiz := bufsiz,
           trace := [Event.alloc (4096 * 1024) false] }

/-- The calls made from the label `try_again` on in the first `fuel` rounds of
the retry loop, whether or not the function has returned by then: the branches
of `FetchNetbootimage_try`, with the calls made so far kept where that function
runs out of fuel. -/
def FetchNetbootimage_try_events (env : FetchEnv) :
    Nat → Nat → Nat → Buf → Nat → List Event → List Event
  | 0, _, _, _, _, tr => tr
  | fuel + 1, ncall, nalloc, buffer, bufsiz, tr =>
    let r := env.mtftp ncall
    let tr1 := tr ++ [Event.mtftp buffer bufsiz]
    if r.status = EFI_BUFFER_TOO_SMALL then
      let bufsiz1 := (r.bufsiz * 2) % 2 ^ 64
      if env.alloc nalloc then
        FetchNetbootimage_try_events env fuel (ncall + 1) (nalloc + 1) (Buf.pool nalloc) bufsiz1
          (tr1 ++ [Event.free buffer, Event.alloc bufsiz1 true])
      else tr1 ++ [Event.free buffer, Event.alloc bufsiz1 false]
    else if r.status ≠ EFI_SUCCESS then tr1 ++ [Event.free buffer]
    else tr1

/-- The calls `FetchNetbootimage` makes up to the end of the first `fuel`
rounds of its retry loop (all its calls when it returns within them). -/
def FetchNetbootimage_events (env : FetchEnv) (fuel : Nat) (supplied : Bool) (bufsiz : Nat) :
    List Event :=
  if supplied then FetchNetbootimage_try_events env fuel 0 0 Buf.caller bufsiz []
  else if env.alloc 0 then
    FetchNetbootimage_try_events env fuel 0 1 (Buf.pool 0) (4096 * 1024)
      [Event.alloc (4096 * 1024) true]
  else [Event.alloc (4096 * 1024) false]

/-! ## Input formats and sample inputs -/

/-- A DHCPv6 option record: op code and data bytes. -/
structure Opt where
  op : Nat
  data : List Nat
deriving DecidableEq, Repr

/-- The wire form of a record: 2-byte big-endian op code, 2-byte big-endian
length, then the data. -/
def Opt.encode (o : Opt) : List Nat :=
  [o.op / 256, o.op % 256, o.data.length / 256, o.data.length % 256] ++ o.data

/-- The wire form of a list of records. -/
def encodeOpts (l : List Opt) : List Nat := l.flatMap Opt.encode

/-- Op code and length both fit their 16-bit fields. -/
def Opt.wf (o : Opt) : Prop := o.op < 65536 ∧ o.data.length < 65536

instance (o : Opt) : Decidable o.wf := by
  unfold Opt.wf
  infer_instance

/-- The local buffer `ip6str` of `extract_tftp_info` after the bracketed text
`a` has been copied into it (lines 273-274). -/
def ip6str (a : List Nat) : List Nat := memcpy_at (List.replicate 40 0) 0 a

/-- The path buffer `extract_tftp_info` builds for the URL path `P` and the
template `T` (lines 277-285). -/
def path_buffer (P T : List Nat) : List Nat :=
  (memcpy_at (memcpy_at (List.replicate (P.length + T.length + 1) 0) 0 P)
      ((strrchr (memcpy_at (List.replicate (P.length + T.length + 1) 0) 0 P) 47).getD 0) T).set
    ((strrchr (memcpy_at (List.replicate (P.length + T.length + 1) 0) 0 P) 47).getD 0 + T.length) 0

/-- A handle is selectable when its protocol opens with a non-NULL interface
and mode and the mode is started with an acknowledgment received. -/
def Handle.usable (h : Handle) : Bool :=
  h.status == EFI_SUCCESS &&
    match h.iface with
    | none => false
    | some p =>
      match p.Mode with
      | none => false
      | some m => m.Started && m.DhcpAckReceived

/-- The `Mtftp` calls of a trace, with the buffer and capacity passed. -/
def transfers : List Event → List (Buf × Nat)
  | [] => []
  | Event.mtftp b c :: tr => (b, c) :: transfers tr
  | _ :: tr => transfers tr

/-- The buffers released by `FreePool` in a trace, in order. -/
def frees : List Event → List Buf
  | [] => []
  | Event.free b :: tr => b :: frees tr
  | _ :: tr => frees tr

/-- The loader constant on x86-64 as shim.h defines it: a backslash followed
by the loader file name. -/
def loader_x64 : List Nat := cbuf "\\grubx64.efi"

/-- A mode with the given flags, server address 192.0.2.1 and an empty option
list (terminator only). -/
def sampleMode (started ack v6 : Bool) : EFI_PXE_BASE_CODE_MODE :=
  { Started := started, DhcpAckReceived := ack, UsingIpv6 := v6,
    BootpSiAddr := [192, 0, 2, 1], DhcpOptions := [0, 0] }

/-- A started, acknowledged IPv6 mode whose option list is one op-code-59
record carrying `url`, then the terminator. -/
def urlMode (url : List Nat) : EFI_PXE_BASE_CODE_MODE :=
  { Started := true, DhcpAckReceived := true, UsingIpv6 := true,
    BootpSiAddr := [0, 0, 0, 0],
    DhcpOptions := Opt.encode { op := 59, data := url } ++ [0, 0] }

/-- A handle whose protocol opens successfully with the given mode. -/
def openHandle (m : EFI_PXE_BASE_CODE_MODE) : Handle :=
  { status := EFI_SUCCESS, iface := some { Mode := some m } }

/-- An enumeration that succeeds at once with the handles `hs`; slots past
the list hold a handle that does not open. -/
def envOfHandles (hs : List Handle) : FindEnv :=
  { alloc := fun _ => true
    locate := fun _ =>
      { status := EFI_SUCCESS, bs := sizeof_EFI_HANDLE * hs.length
        hbuf := fun i => hs.getD i { status := EFI_NOT_FOUND, iface := none } } }

/-- A transfer environment in which every allocation succeeds and the `Mtftp`
calls answer with the listed responses, then with success and size 0. -/
def envOfResponses (rs : List MtftpResp) : FetchEnv :=
  { alloc := fun _ => true
    mtftp := fun n => rs.getD n { status := EFI_SUCCESS, bufsiz := 0 } }

/-- A transfer environment in which every allocation succeeds and every `Mtftp`
call answers buffer-too-small, leaving `size` in `*bufsiz`: the retry loop of
`FetchNetbootimage` never ends. -/
def fetchEnvTooSmall (size : Nat) : FetchEnv :=
  { alloc := fun _ => true
    mtftp := fun _ => { status := EFI_BUFFER_TOO_SMALL, bufsiz := size } }

/-- An enumeration that always answers buffer-too-small, leaving `bs` in the
size variable, with every allocation succeeding. -/
def envTooSmall (bs : Nat) : FindEnv :=
  { alloc := fun _ => true
    locate := fun _ =>
      { status := EFI_BUFFER_TOO_SMALL, bs := bs
        hbuf := fun _ => { status := EFI_NOT_FOUND, iface := none } } }

/-- Each capacity after the first in a list of transfer requests is twice the
size the preceding request left in `*bufsiz`, in 64-bit arithmetic. -/
def capacity_chain (env : FetchEnv) (L : List (Buf × Nat)) : Prop :=
  ∀ k b c b1 c1, L.get? k = some (b, c) → L.get? (k + 1) = some (b1, c1) →
    c1 = (env.mtftp k).bufsiz * 2 % 2 ^ 64

/-- Groups written one after the other with a single colon between them. -/
def join_colon : List (List Nat) → List Nat
  | [] => []
  | [g] => g
  | g :: h :: gs => g ++ 58 :: join_colon (h :: gs)

/-- The text of a literal with the groups `front` before its `::` and the
groups `back` after it. -/
def compressed_literal (front back : List (List Nat)) : List Nat :=
  join_colon front ++ 58 :: 58 :: join_colon back

/-- The `UINT16` that `str2ns` returns for the text `g` of one group. -/
def group_value (g : List Nat) : Nat := str2ns (g ++ [0]) 0

/-- The stores `ip[p++] = v` for the values `vs` in order. -/
def Ip6.storeUp (s : Ip6) : Nat → List Nat → Ip6
  | _, [] => s
  | p, v :: vs => (s.store p v).storeUp ((p + 1) % 256) vs

/-- The stores `ip[p--] = v` for the values `vs` in order. -/
def Ip6.storeDown (s : Ip6) : Nat → List Nat → Ip6
  | _, [] => s
  | p, v :: vs => (s.store p v).storeDown ((p + 255) % 256) vs

/-- The offset in a text of the first colon that is directly followed by
another colon; the length of the text when there is none. -/
def colon_stop : List Nat → Nat
  | [] => 0
  | c :: rest => if c = 58 ∧ rest.head? = some 58 then 0 else colon_stop rest + 1

/-- The value of a character as a base-16 digit, stated independently of the
code: with letters lowered, the position of the character in
`0123456789abcdef`; a character that is not there counts as 0. -/
def spec_hex_digit (c : Nat) : Nat :=
  if (chars "0123456789abcdef").indexOf (if 65 ≤ c ∧ c ≤ 90 then c + 32 else c) < 16 then
    (chars "0123456789abcdef").indexOf (if 65 ≤ c ∧ c ≤ 90 then c + 32 else c)
  else 0

/-- The base-16 number whose digits, most significant first, are the
characters of `s`. -/
def spec_hex_value (s : List Nat) : Nat := Nat.ofDigits 16 (s.reverse.map spec_hex_digit)

/-! ## Evaluations at concrete inputs -/

/-- C1: on the valid full-form literal `1:2:3:4:5:6:7:8` the parser stores the
first seven groups and leaves the eighth group zero, so the address produced is
`1:2:3:4:5:6:7:0` and not the one the literal denotes; through
`extract_tftp_info` the last two bytes of `tftp_addr` are zero. -/
theorem C1_full_literal_loses_last_group :
    ip6_groups (str2ip6 (ip6str (chars "1:2:3:4:5:6:7:8"))) = [1, 2, 3, 4, 5, 6, 7, 0] ∧
    (str2ip6 (ip6str (chars "1:2:3:4:5:6:7:8"))).writes = [0, 1, 2, 3, 4, 5, 6] ∧
    (∀ litStore : Bool,
      (extract_tftp_info litStore loader_x64 true State.fresh
          (cbuf "tftp://[1:2:3:4:5:6:7:8]/x")).map (fun r => (r.1, r.2.tftp_addr)) =
        some (true, [0, 1, 0, 2, 0, 3, 0, 4, 0, 5, 0, 6, 0, 7, 0, 0])) := by
  decide

/-- C4: from the fresh state, a handle set holding one handle that opens with
a mode that is not started makes `findNetboot` return FALSE and yet leaves
`pxe` set to that interface; the following `parseNetbootinfo` does not return
`EFI_NOT_READY` but resolves a target from the unstarted capability. -/
theorem C4_unstarted_capability_is_resolved :
    findNetboot (envOfHandles [openHandle (sampleMode false false false)]) State.fresh =
      some { rc := false
             st := { State.fresh with
                     pxe := some { Mode := some (sampleMode false false false) } }
             calls := 1
             allocs := [8] } ∧
    (∀ litStore : Bool,
      parseNetbootinfo litStore loader_x64 { allocUrl := true, allocPath := true }
          { State.fresh with pxe := some { Mode := some (sampleMode false false false) } } =
        some (EFI_SUCCESS,
          { pxe := some { Mode := some (sampleMode false false false) }
            tftp_addr := [192, 0, 2, 1, 0, 0, 0, 0, 0, 0, 0, 0, 0, 0, 0, 0]
            full_path := some loader_x64 })) ∧
    EFI_SUCCESS ≠ EFI_NOT_READY := by
  decide

/-- C5: the URL `tftp://[::1` ends without `]` after three characters; the
scan stops on the NUL, line 269 does not reject it, and the code goes on to
read the path from the byte after the NUL.  In a buffer that ends at the NUL
this is a read outside the buffer (also through `parseDhcp6`, whose URL copy
ends there); when more bytes follow, the call returns TRUE with the address
`::1` set and a path built from those bytes.  This is so whether or not the
stores into the loader literal are seen by later reads. -/
theorem C5_unclosed_bracket_not_rejected :
    (∀ litStore : Bool,
      extract_tftp_info litStore loader_x64 true State.fresh (cbuf "tftp://[::1") = none) ∧
    (∀ litStore : Bool,
      parseDhcp6 litStore loader_x64 { allocUrl := true, allocPath := true }
        (urlMode (chars "tftp://[::1")) State.fresh = none) ∧
    (extract_tftp_info true loader_x64 true State.fresh (cbuf "tftp://[::1" ++ cbuf "/d/f")).map
        (fun r => (r.1, r.2.tftp_addr, r.2.full_path.map (fun b => cstr b 0))) =
      some (true, [0, 0, 0, 0, 0, 0, 0, 0, 0, 0, 0, 0, 0, 0, 0, 1],
        some (chars "/d/grubx64.efi")) ∧
    (extract_tftp_info false loader_x64 true State.fresh (cbuf "tftp://[::1" ++ cbuf "/d/f")).map
        (fun r => (r.1, r.2.tftp_addr, r.2.full_path.map (fun b => cstr b 0))) =
      some (true, [0, 0, 0, 0, 0, 0, 0, 0, 0, 0, 0, 0, 0, 0, 0, 1],
        some (chars "/d\\grubx64.efi")) := by
  decide

/-- C9, counterexample: on the IPv6 path the directory part of the URL is
copied as it is, so the accepted URL `tftp://[::1]/a\b/x` resolves
successfully to the path `/a\b/grubx64.efi`, which contains a backslash; and
in a build whose later reads do not see the stores into the loader literal,
the URL `tftp://[::1]/path/old.efi` resolves to `/path\grubx64.efi`. -/
theorem C9_url_backslash_is_kept :
    (parseNetbootinfo true loader_x64 { allocUrl := true, allocPath := true }
        { State.fresh with
          pxe := some { Mode := some (urlMode (chars "tftp://[::1]/a\\b/x")) } }).map
        (fun r => (r.1, r.2.full_path.map (fun b => cstr b 0))) =
      some (EFI_SUCCESS, some (chars "/a\\b/grubx64.efi")) ∧
    92 ∈ chars "/a\\b/grubx64.efi" ∧
    (parseNetbootinfo false loader_x64 { allocUrl := true, allocPath := true }
        { State.fresh with
          pxe := some { Mode := some (urlMode (chars "tftp://[::1]/path/old.efi")) } }).map
        (fun r => (r.1, r.2.full_path.map (fun b => cstr b 0))) =
      some (EFI_SUCCESS, some (chars "/path\\grubx64.efi")) ∧
    92 ∈ chars "/path\\grubx64.efi" := by
  decide

/-- C10: for the six characters a, backslash, b, backslash, backslash, c the
buffer after `translate_slashes` holds `a/b/\c`: the second of the doubled
backslashes stays and nothing is moved down, so the result is not `a/b/c`. -/
theorem C10_doubled_backslash_not_collapsed :
    translate_slashes (cbuf "a\\b\\\\c") = cbuf "a/b/\\c" ∧
    cstr (translate_slashes (cbuf "a\\b\\\\c")) 0 ≠ chars "a/b/c" := by
  decide

/-- C7, counterexample: the first request (capacity 4 MiB) is answered
buffer-too-small with 5 MiB left in `*bufsiz`, the reallocation and the second
request succeed; the second capacity is 10 MiB, not twice the first. -/
theorem C7_second_capacity_not_twice_first :
    FetchNetbootimage
        (envOfResponses [{ status := EFI_BUFFER_TOO_SMALL, bufsiz := 5242880 },
                         { status := EFI_SUCCESS, bufsiz := 5000000 }]) 2 false 0 =
      some { rc := EFI_SUCCESS, buffer := some (Buf.pool 1), bufsiz := 5000000
             trace := [Event.alloc 4194304 true, Event.mtftp (Buf.pool 0) 4194304,
                       Event.free (Buf.pool 0), Event.alloc 10485760 true,
                       Event.mtftp (Buf.pool 1) 10485760] } ∧
    10485760 ≠ 2 * 4194304 := by
  decide

/-- C8, counterexample: the four-byte area holding one empty record with op
code 1 and no terminator makes the scan read its next op code outside the
area; it does not report not-found. -/
theorem C8_scan_leaves_area_without_terminator :
    get_v6_bootfile_url [0, 1, 0, 0] true = some UrlResult.fault ∧
    get_v6_bootfile_url [0, 1, 0, 0] true ≠ some UrlResult.null := by
  decide

/-! ## The option scan on well-formed lists -/

theorem get?_append_add (pre l : List Nat) (k : Nat) :
    (pre ++ l).get? (pre.length + k) = l.get? k := by
  induction pre with
  | nil => simp
  | cons x pre ih =>
    have : (x :: pre).length + k = (pre.length + k) + 1 := by simp; omega
    rw [List.cons_append, this, List.get?_cons_succ, ih]

theorem get?_append_length (pre l : List Nat) :
    (pre ++ l).get? pre.length = l.get? 0 := by
  simpa using get?_append_add pre l 0

theorem ntohs_load16_be (x : Nat) (h : x < 65536) :
    ntohs (load16 (x / 256) (x % 256)) = x := by
  unfold ntohs __swap16 load16
  have hx := Nat.div_add_mod x 256
  have hr : x % 256 < 256 := Nat.mod_lt _ (by norm_num)
  generalize x / 256 = q at *
  generalize x % 256 = r at *
  have hq : q < 256 := by omega
  have h1 : (q + 256 * r) / 256 = r := by omega
  have h2 : (q + 256 * r) % 256 = q := by omega
  rw [h1, h2, Nat.mod_eq_of_lt hr]
  omega

/-- One pass of the scan loop standing on a complete record with a non-zero
op code. -/
theorem loop_at_record (pre post : List Nat) (o : Opt) (a : Bool) (fuel : Nat)
    (hwf : o.wf) (h0 : o.op ≠ 0) :
    get_v6_bootfile_url_loop (pre ++ (o.encode ++ post)) a (fuel + 1) pre.length =
      if o.op = 59 then (if a then some (UrlResult.url (o.data ++ [0])) else some UrlResult.null)
      else get_v6_bootfile_url_loop (pre ++ (o.encode ++ post)) a fuel
        ((pre ++ o.encode).length) := by
  obtain ⟨hop, hlen⟩ := hwf
  have e0 : (pre ++ (o.encode ++ post)).get? pre.length = some (o.op / 256) := by
    rw [get?_append_length]; simp [Opt.encode]
  have e1 : (pre ++ (o.encode ++ post)).get? (pre.length + 1) = some (o.op % 256) := by
    rw [get?_append_add]; simp [Opt.encode]
  have e2 : (pre ++ (o.encode ++ post)).get? (pre.length + 2) = some (o.data.length / 256) := by
    rw [get?_append_add]; simp [Opt.encode]
  have e3 : (pre ++ (o.encode ++ post)).get? (pre.length + 3) = some (o.data.length % 256) := by
    rw [get?_append_add]; simp [Opt.encode]
  rw [get_v6_bootfile_url_loop, e0, e1, e2, e3]
  simp only [ntohs_load16_be _ hop, ntohs_load16_be _ hlen, if_neg h0]
  by_cases h59 : o.op = 59
  · have hd : ((pre ++ (o.encode ++ post)).drop (pre.length + 4)).take o.data.length = o.data := by
      have : pre.length + 4 = (pre ++ [o.op / 256, o.op % 256, o.data.length / 256,
          o.data.length % 256]).length := by simp
      have e : pre ++ (o.encode ++ post) =
          (pre ++ [o.op / 256, o.op % 256, o.data.length / 256, o.data.length % 256]) ++
            (o.data ++ post) := by simp [Opt.encode]
      rw [e, this, List.drop_left, List.take_left]
    have hl : pre.length + 4 + o.data.length ≤ (pre ++ (o.encode ++ post)).length := by
      simp [Opt.encode]; omega
    rw [if_pos h59, if_pos h59, if_pos hl, hd]
  · have : (pre ++ o.encode).length = pre.length + 4 + o.data.length := by
      simp [Opt.encode]; omega
    simp [h59, this]

/-- The scan over a well-formed list that ends in a terminator: the records
before the first op-code-59 record are stepped over. -/
theorem loop_wellformed (recs : List Opt) (pre rest : List Nat) (fuel : Nat)
    (hwf : ∀ o ∈ recs, o.wf ∧ o.op ≠ 0) (hfuel : recs.length < fuel) :
    get_v6_bootfile_url_loop (pre ++ (encodeOpts recs ++ ([0, 0] ++ rest))) true fuel pre.length =
      some (match recs.find? (fun o => o.op = 59) with
            | some o => UrlResult.url (o.data ++ [0])
            | none => UrlResult.null) := by
  induction recs generalizing pre fuel with
  | nil =>
    obtain ⟨f, rfl⟩ : ∃ f, fuel = f + 1 := ⟨fuel - 1, by simp at hfuel; omega⟩
    have e0 : (pre ++ (encodeOpts [] ++ ([0, 0] ++ rest))).get? pre.length = some 0 := by
      rw [get?_append_length]; simp [encodeOpts]
    have e1 : (pre ++ (encodeOpts [] ++ ([0, 0] ++ rest))).get? (pre.length + 1) = some 0 := by
      rw [get?_append_add]; simp [encodeOpts]
    rw [get_v6_bootfile_url_loop, e0, e1]
    simp [ntohs, __swap16, load16]
  | cons o recs ih =>
    obtain ⟨f, rfl⟩ : ∃ f, fuel = f + 1 := ⟨fuel - 1, by simp at hfuel; omega⟩
    have ho := hwf o (by simp)
    have e : pre ++ (encodeOpts (o :: recs) ++ ([0, 0] ++ rest)) =
        pre ++ (o.encode ++ (encodeOpts recs ++ ([0, 0] ++ rest))) := by
      simp [encodeOpts]
    rw [e, loop_at_record pre _ o true f ho.1 ho.2]
    by_cases h59 : o.op = 59
    · simp [h59]
    · have e2 : pre ++ (o.encode ++ (encodeOpts recs ++ ([0, 0] ++ rest))) =
          (pre ++ o.encode) ++ (encodeOpts recs ++ ([0, 0] ++ rest)) := by simp
      rw [if_neg h59, e2, ih (pre ++ o.encode) f (fun x hx => hwf x (by simp [hx]))
        (by simp at hfuel; omega)]
      simp [h59]

theorem encodeOpts_length_ge (recs : List Opt) : recs.length ≤ (encodeOpts recs).length := by
  induction recs with
  | nil => simp [encodeOpts]
  | cons o recs ih =>
    simp only [encodeOpts, List.flatMap_cons, List.length_append, List.length_cons] at ih ⊢
    simp only [Opt.encode, List.length_append, List.length_cons, List.length_nil]
    omega

/-- The scan of a well-formed list that ends in a terminator, whatever
follows the terminator op code. -/
theorem get_v6_bootfile_url_wellformed (recs : List Opt) (rest : List Nat)
    (hwf : ∀ o ∈ recs, o.wf ∧ o.op ≠ 0) :
    get_v6_bootfile_url (encodeOpts recs ++ [0, 0] ++ rest) true =
      some (match recs.find? (fun o => o.op = 59) with
            | some o => UrlResult.url (o.data ++ [0])
            | none => UrlResult.null) := by
  have h := loop_wellformed recs [] rest ((encodeOpts recs ++ [0, 0] ++ rest).length + 1) hwf
    (by have := encodeOpts_length_ge recs; simp; omega)
  simpa [get_v6_bootfile_url] using h

/-- C2: on the wire form of well-formed records with non-zero op codes,
followed by the two bytes of an op-code-0 terminator and by any bytes at all
(none included), with allocation succeeding, `get_v6_bootfile_url` returns —
within its fuel, so it terminates — a buffer holding exactly the data bytes of
the first op-code-59 record followed by the NUL of the zeroed allocation, or
NULL when no record has op code 59.  The result is the same when nothing
follows the terminator op code, where any further read would leave the area. -/
theorem C2_scan_wellformed_terminated (recs : List Opt) (rest : List Nat)
    (hwf : ∀ o ∈ recs, o.wf ∧ o.op ≠ 0) :
    get_v6_bootfile_url (encodeOpts recs ++ [0, 0] ++ rest) true =
      some (match recs.find? (fun o => o.op = 59) with
            | some o => UrlResult.url (o.data ++ [0])
            | none => UrlResult.null) ∧
    get_v6_bootfile_url (encodeOpts recs ++ [0, 0]) true =
      get_v6_bootfile_url (encodeOpts recs ++ [0, 0] ++ rest) true := by
  refine ⟨get_v6_bootfile_url_wellformed recs rest hwf, ?_⟩
  have h := get_v6_bootfile_url_wellformed recs [] hwf
  simp only [List.append_nil] at h
  rw [h, get_v6_bootfile_url_wellformed recs rest hwf]

/-- C2 at a concrete list: a record with op code 1, the boot-file record with
data `AB`, and the terminator. -/
theorem C2_scan_wellformed_terminated_witness :
    get_v6_bootfile_url
        (encodeOpts [{ op := 1, data := [7] }, { op := 59, data := [65, 66] }] ++ [0, 0] ++ [9]) true =
      some (match [({ op := 1, data := [7] } : Opt), { op := 59, data := [65, 66] }].find?
              (fun o => o.op = 59) with
            | some o => UrlResult.url (o.data ++ [0])
            | none => UrlResult.null) ∧
    get_v6_bootfile_url
        (encodeOpts [{ op := 1, data := [7] }, { op := 59, data := [65, 66] }] ++ [0, 0]) true =
      get_v6_bootfile_url
        (encodeOpts [{ op := 1, data := [7] }, { op := 59, data := [65, 66] }] ++ [0, 0] ++ [9]) true :=
  C2_scan_wellformed_terminated [{ op := 1, data := [7] }, { op := 59, data := [65, 66] }] [9]
    (by decide)

/-! ## The URL decomposer on bracketed URLs -/

theorem bracket_scan_closed (A X : List Nat) (n : Nat)
    (hA : ∀ c ∈ A, c ≠ 0 ∧ c ≠ 93) (hn : n + A.length ≤ 39) :
    bracket_scan (A ++ 93 :: X) n = BracketScan.stop (n + A.length) := by
  induction A generalizing n with
  | nil => simp [bracket_scan]
  | cons c A ih =>
    have hc := hA c (by simp)
    have hlen : n + 1 + A.length ≤ 39 := by simp at hn; omega
    have hn1 : ¬ n + 1 > 39 := by omega
    rw [List.cons_append, bracket_scan, if_pos hc, if_neg hn1,
      ih (n + 1) (fun x hx => hA x (by simp [hx])) hlen]
    simp; omega

theorem strlenAt_string (P rest : List Nat) (hP : ∀ c ∈ P, c ≠ 0) :
    strlenAt (P ++ 0 :: rest) = some P.length := by
  induction P with
  | nil => simp [strlenAt]
  | cons c P ih =>
    have hc := hP c (by simp)
    rw [List.cons_append, strlenAt, if_neg hc, ih (fun x hx => hP x (by simp [hx]))]
    simp

theorem cstr_string (s rest : List Nat) (hs : ∀ c ∈ s, c ≠ 0) :
    cstr (s ++ 0 :: rest) 0 = s := by
  unfold cstr
  induction s with
  | nil => simp
  | cons c s ih =>
    have hc := hs c (by simp)
    have := ih (fun x hx => hs x (by simp [hx]))
    simp only [List.drop_zero] at this ⊢
    rw [List.cons_append, List.takeWhile_cons]
    simp [hc, this]

theorem cstr_nonzero (mem : List Nat) (off : Nat) : ∀ c ∈ cstr mem off, c ≠ 0 := by
  intro c hc
  have := List.mem_takeWhile_imp hc
  simpa using this

theorem strrchr_loop_absent (c : Nat) (s rest : List Nat) (i : Nat) (last : Option Nat)
    (hs : ∀ x ∈ s, x ≠ 0 ∧ x ≠ c) :
    strrchr_loop c (s ++ 0 :: rest) i last = last := by
  induction s generalizing i with
  | nil => simp [strrchr_loop]
  | cons x s ih =>
    have hx := hs x (by simp)
    rw [List.cons_append, strrchr_loop, if_neg hx.1, if_neg hx.2,
      ih (i + 1) (fun y hy => hs y (by simp [hy]))]

theorem strrchr_loop_last (c : Nat) (dir file rest : List Nat) (i : Nat) (last : Option Nat)
    (hc : c ≠ 0) (hd : ∀ x ∈ dir, x ≠ 0) (hf : ∀ x ∈ file, x ≠ 0 ∧ x ≠ c) :
    strrchr_loop c (dir ++ c :: file ++ 0 :: rest) i last = some (i + dir.length) := by
  induction dir generalizing i last with
  | nil =>
    simp only [List.nil_append, List.cons_append, List.length_nil, Nat.add_zero]
    rw [strrchr_loop, if_neg hc, if_pos rfl, strrchr_loop_absent c file rest (i + 1) _ hf]
  | cons x dir ih =>
    have hx := hd x (by simp)
    simp only [List.cons_append] at ih ⊢
    rw [strrchr_loop, if_neg hx, ih (i + 1) _ (fun y hy => hd y (by simp [hy]))]
    simp; omega

/-- The path buffer after lines 277-285 read as a string: the first `e`
bytes of the URL path followed by the template. -/
theorem path_buffer_string (P T : List Nat) (e : Nat) (he : e ≤ P.length)
    (hP : ∀ c ∈ P, c ≠ 0) (hT : ∀ c ∈ T, c ≠ 0) :
    cstr ((memcpy_at (memcpy_at (List.replicate (P.length + T.length + 1) 0) 0 P) e T).set
      (e + T.length) 0) 0 = P.take e ++ T := by
  have hb0 : memcpy_at (List.replicate (P.length + T.length + 1) 0) 0 P =
      P ++ List.replicate (T.length + 1) 0 := by
    simp [memcpy_at, List.drop_replicate]
    omega
  rw [hb0]
  unfold memcpy_at
  have ht : (P ++ List.replicate (T.length + 1) 0).take e = P.take e := by
    rw [List.take_append_of_le_length he]
  rw [ht]
  obtain ⟨x, X, hX⟩ : ∃ x X, (P ++ List.replicate (T.length + 1) 0).drop (e + T.length) = x :: X := by
    have hl : ((P ++ List.replicate (T.length + 1) 0).drop (e + T.length)).length
        = P.length + 1 - e := by simp; omega
    cases h : (P ++ List.replicate (T.length + 1) 0).drop (e + T.length) with
    | nil => rw [h] at hl; simp at hl; omega
    | cons x X => exact ⟨x, X, rfl⟩
  rw [hX]
  have hlen : e + T.length = (P.take e ++ T).length := by
    simp [Nat.min_eq_left he]
  have hset : (P.take e ++ T ++ x :: X).set (e + T.length) 0 = (P.take e ++ T) ++ 0 :: X := by
    rw [hlen, List.set_append_right _ _ (le_refl _)]
    simp
  rw [hset]
  apply cstr_string
  intro c hc
  rcases List.mem_append.mp hc with h | h
  · exact hP c (List.mem_of_mem_take h)
  · exact hT c h

theorem getD_ne_of_forall (l : List Nat) (k : Nat) (h : ∀ c ∈ l, c ≠ 92) : l.getD k 0 ≠ 92 := by
  rw [List.getD_eq_getElem?_getD]
  cases hk : l[k]? with
  | none => simp
  | some v =>
    have := List.getElem?_mem hk
    simpa using h v this

theorem translate_slashes_loop_clean (fuel i j : Nat) (str : List Nat)
    (h : ∀ k, i ≤ k → str.getD k 0 ≠ 92) :
    translate_slashes_loop fuel i j str = str := by
  induction fuel generalizing i j with
  | zero => rfl
  | succ f ih =>
    rw [translate_slashes_loop]
    by_cases h0 : str.getD i 0 = 0
    · rw [if_pos h0]
    · rw [if_neg h0, if_neg (h i (le_refl _))]
      exact ih (i + 1) (j + 1) (fun k hk => h k (by omega))

/-- A loader constant made of one backslash and a name free of backslashes is
translated to a slash followed by the name. -/
theorem translate_slashes_separator_name (name : List Nat) (hname : ∀ c ∈ name, c ≠ 0 ∧ c ≠ 92) :
    cstr (translate_slashes (92 :: name ++ [0])) 0 = 47 :: name := by
  have hall : ∀ c ∈ name ++ [0], c ≠ 92 := by
    intro c hc
    rcases List.mem_append.mp hc with h | h
    · exact (hname c h).2
    · simp at h; omega
  have hclean : ∀ k, 1 ≤ k → (47 :: (name ++ [0])).getD k 0 ≠ 92 := by
    intro k hk
    obtain ⟨m, rfl⟩ : ∃ m, k = m + 1 := ⟨k - 1, by omega⟩
    simpa using getD_ne_of_forall (name ++ [0]) m hall
  have h1 : (47 :: (name ++ [0])).getD (0 + 1) 0 ≠ 92 := hclean 1 (le_refl _)
  have e : translate_slashes (92 :: name ++ [0]) = 47 :: (name ++ [0]) := by
    unfold translate_slashes
    simp only [List.cons_append, List.length_cons]
    rw [translate_slashes_loop]
    simp only [List.getD_cons_zero, List.set_cons_zero]
    rw [if_neg (by norm_num), if_pos trivial, if_neg h1]
    exact translate_slashes_loop_clean _ 1 1 _ hclean
  rw [e]
  have := cstr_string (47 :: name) [] (by
    intro c hc
    rcases List.mem_cons.mp hc with h | h
    · omega
    · exact (hname c h).1)
  simpa using this

theorem chars_tftp_bracket : chars "tftp://[" = [116, 102, 116, 112, 58, 47, 47, 91] := by
  decide

theorem chars_tftp : chars "tftp://" = [116, 102, 116, 112, 58, 47, 47] := by
  decide

/-- A store keeps the flag in step with the indices written. -/
theorem store_fault (s : Ip6) (p v : Nat)
    (h : s.fault = true ↔ ∃ w ∈ s.writes, 8 ≤ w) :
    (s.store p v).fault = true ↔ ∃ w ∈ (s.store p v).writes, 8 ≤ w := by
  simp only [Ip6.store, Bool.or_eq_true, decide_eq_true_eq, List.mem_append,
    List.mem_singleton, h]
  constructor
  · rintro (⟨w, hw, h8⟩ | h8)
    · exact ⟨w, Or.inl hw, h8⟩
    · exact ⟨p, Or.inr rfl, h8⟩
  · rintro ⟨w, hw | hw, h8⟩
    · exact Or.inl ⟨w, hw, h8⟩
    · exact Or.inr (hw ▸ h8)

theorem front_fault (str : List Nat) (len : Nat) :
    ∀ (fuel i p a : Nat) (s : Ip6), (s.fault = true ↔ ∃ w ∈ s.writes, 8 ≤ w) →
      ((str2ip6_front str len fuel i p a s).2.fault = true ↔
        ∃ w ∈ (str2ip6_front str len fuel i p a s).2.writes, 8 ≤ w) := by
  intro fuel
  induction fuel with
  | zero => intro i p a s h; exact h
  | succ f ih =>
    intro i p a s h
    rw [str2ip6_front]
    split
    · split
      · exact ih _ _ _ _ h
      · simp only []
        split
        · exact store_fault _ _ _ h
        · exact ih _ _ _ _ (store_fault _ _ _ h)
    · exact h

theorem back_fault (str : List Nat) (i0 : Nat) :
    ∀ (fuel j p b : Nat) (s : Ip6), (s.fault = true ↔ ∃ w ∈ s.writes, 8 ≤ w) →
      ((str2ip6_back str i0 fuel j p b s).fault = true ↔
        ∃ w ∈ (str2ip6_back str i0 fuel j p b s).writes, 8 ≤ w) := by
  intro fuel
  induction fuel with
  | zero => intro j p b s h; exact h
  | succ f ih =>
    intro j p b s h
    rw [str2ip6_back]
    split
    · split
      · exact ih _ _ _ _ h
      · simp only []
        exact ih _ _ _ _ (store_fault _ _ _ h)
    · exact h

/-- The flag `fault` of `str2ip6` is set exactly when one of its stores used an
index outside `0..7`. -/
theorem str2ip6_fault (str : List Nat) :
    (str2ip6 str).fault = true ↔ ∃ w ∈ (str2ip6 str).writes, 8 ≤ w := by
  unfold str2ip6
  simp only []
  apply back_fault
  apply front_fault
  simp

theorem str2ip6_no_fault (str : List Nat) (h : ∀ w ∈ (str2ip6 str).writes, w < 8) :
    (str2ip6 str).fault = false := by
  cases hf : (str2ip6 str).fault with
  | false => rfl
  | true =>
    obtain ⟨w, hw, h8⟩ := (str2ip6_fault str).mp hf
    have := h w hw
    omega

/-- The run of `extract_tftp_info` on a URL with a closed bracket. -/
theorem extract_tftp_info_run (litStore : Bool) (loader : List Nat) (allocOk : Bool)
    (st : State) (A P rest : List Nat)
    (hlen : A.length ≤ 39) (hA : ∀ c ∈ A, c ≠ 0 ∧ c ≠ 93) (hP : ∀ c ∈ P, c ≠ 0) :
    extract_tftp_info litStore loader allocOk st (chars "tftp://[" ++ A ++ 93 :: P ++ 0 :: rest) =
      if (str2ip6 (ip6str A)).fault then none
      else if allocOk then
        some (true, { st with
          tftp_addr := ip6_bytes (str2ip6 (ip6str A))
          full_path := some (path_buffer P (template_read litStore loader)) })
      else
        some (false, { st with
          tftp_addr := ip6_bytes (str2ip6 (ip6str A)), full_path := none }) := by
  have hurl : chars "tftp://[" ++ A ++ 93 :: P ++ 0 :: rest =
      116 :: 102 :: 116 :: 112 :: 58 :: 47 :: 47 :: 91 :: (A ++ 93 :: (P ++ 0 :: rest)) := by
    simp [chars_tftp_bracket]
  rw [hurl]
  unfold extract_tftp_info
  have h1 : strncmp_tftp_ne
      (116 :: 102 :: 116 :: 112 :: 58 :: 47 :: 47 :: 91 :: (A ++ 93 :: (P ++ 0 :: rest))) = false := by
    simp [strncmp_tftp_ne, chars_tftp]
  have h2 : (116 :: 102 :: 116 :: 112 :: 58 :: 47 :: 47 :: 91 :: (A ++ 93 :: (P ++ 0 :: rest))).get? 7
      = some 91 := rfl
  have h3 : (116 :: 102 :: 116 :: 112 :: 58 :: 47 :: 47 :: 91 :: (A ++ 93 :: (P ++ 0 :: rest))).drop 8
      = A ++ 93 :: (P ++ 0 :: rest) := rfl
  have h4 : bracket_scan (A ++ 93 :: (P ++ 0 :: rest)) 0 = BracketScan.stop A.length := by
    have := bracket_scan_closed A (P ++ 0 :: rest) 0 hA (by omega)
    simpa using this
  have h5 : (A ++ 93 :: (P ++ 0 :: rest)).take A.length = A := List.take_left _ _
  have h6 : (116 :: 102 :: 116 :: 112 :: 58 :: 47 :: 47 :: 91 :: (A ++ 93 :: (P ++ 0 :: rest))).drop
      (8 + A.length + 1) = P ++ 0 :: rest := by
    have e : 8 + A.length + 1 = 8 + (A.length + 1) := by omega
    rw [e, ← List.drop_drop, h3]
    have e2 : A ++ 93 :: (P ++ 0 :: rest) = (A ++ [93]) ++ (P ++ 0 :: rest) := by simp
    have e3 : A.length + 1 = (A ++ [93]).length := by simp
    rw [e2, e3, List.drop_left]
  have h7 : strlenAt (P ++ 0 :: rest) = some P.length := strlenAt_string P rest hP
  have h8 : (P ++ 0 :: rest).take P.length = P := List.take_left _ _
  simp only [h1, h2, h3, h4, h5, h6, h7, h8]
  cases hf : (str2ip6 (ip6str A)).fault with
  | true =>
    simp only [ip6str] at hf
    simp only [hf]
    simp
  | false =>
    simp only [ip6str] at hf
    simp only [hf]
    cases allocOk <;> simp [ip6str, path_buffer]

/-- The run of `extract_tftp_info` on a URL with a closed bracket when the
stores of `str2ip6` stay inside its array and the allocation succeeds. -/
theorem extract_tftp_info_bracketed (litStore : Bool) (loader : List Nat) (st : State)
    (A P rest : List Nat)
    (hlen : A.length ≤ 39) (hA : ∀ c ∈ A, c ≠ 0 ∧ c ≠ 93) (hP : ∀ c ∈ P, c ≠ 0)
    (hin : ∀ w ∈ (str2ip6 (ip6str A)).writes, w < 8) :
    extract_tftp_info litStore loader true st (chars "tftp://[" ++ A ++ 93 :: P ++ 0 :: rest) =
      some (true, { st with
        tftp_addr := ip6_bytes (str2ip6 (ip6str A))
        full_path := some (path_buffer P (template_read litStore loader)) }) := by
  rw [extract_tftp_info_run litStore loader true st A P rest hlen hA hP,
    str2ip6_no_fault (ip6str A) hin]
  simp

theorem path_buffer_zeroed (P T : List Nat) :
    memcpy_at (List.replicate (P.length + T.length + 1) 0) 0 P =
      P ++ 0 :: List.replicate T.length 0 := by
  rw [← List.replicate_succ]
  simp [memcpy_at, List.drop_replicate]
  omega

/-- The path buffer read as a string when the URL path has a last `/`. -/
theorem path_buffer_slash (P T dir file : List Nat) (hP : ∀ c ∈ P, c ≠ 0) (hT : ∀ c ∈ T, c ≠ 0)
    (hPe : P = dir ++ 47 :: file) (hfile : 47 ∉ file) :
    cstr (path_buffer P T) 0 = dir ++ T := by
  have he : strrchr (memcpy_at (List.replicate (P.length + T.length + 1) 0) 0 P) 47 =
      some dir.length := by
    rw [path_buffer_zeroed, hPe]
    have := strrchr_loop_last 47 dir file (List.replicate T.length 0) 0 none (by norm_num)
      (fun x hx => hP x (by simp [hPe, hx]))
      (fun x hx => ⟨hP x (by simp [hPe, hx]), fun h => hfile (h ▸ hx)⟩)
    simpa [strrchr] using this
  unfold path_buffer
  rw [he]
  simp only [Option.getD_some]
  rw [path_buffer_string P _ dir.length (by simp [hPe]) hP hT]
  simp [hPe]

/-- The path buffer read as a string when the URL path has no `/`. -/
theorem path_buffer_noslash (P T : List Nat) (hP : ∀ c ∈ P, c ≠ 0) (hT : ∀ c ∈ T, c ≠ 0)
    (hno : 47 ∉ P) :
    cstr (path_buffer P T) 0 = T := by
  have he : strrchr (memcpy_at (List.replicate (P.length + T.length + 1) 0) 0 P) 47 = none := by
    rw [path_buffer_zeroed]
    exact strrchr_loop_absent 47 P _ 0 none (fun x hx => ⟨hP x hx, fun h => hno (h ▸ hx)⟩)
  unfold path_buffer
  rw [he]
  simp only [Option.getD_none]
  rw [path_buffer_string P _ 0 (Nat.zero_le _) hP hT]
  simp

/-- A string containing `/` splits at its last `/`. -/
theorem last_slash_split (P : List Nat) (h : 47 ∈ P) :
    ∃ dir file, P = dir ++ 47 :: file ∧ 47 ∉ file := by
  obtain ⟨s, t, hst, hs⟩ := List.eq_append_cons_of_mem (List.mem_reverse.mpr h)
  refine ⟨t.reverse, s.reverse, ?_, by simpa using hs⟩
  have := congrArg List.reverse hst
  simpa using this

theorem template_read_nonzero (litStore : Bool) (loader : List Nat) :
    ∀ c ∈ template_read litStore loader, c ≠ 0 := by
  cases litStore
  · exact cstr_nonzero loader 0
  · exact cstr_nonzero (translate_slashes loader) 0

theorem findNetboot_scan_list (hbuf : Nat → Handle) (hs : List Handle) (n i : Nat)
    (pxe : Option EFI_PXE_BASE_CODE) (hn : n = i + hs.length)
    (hget : ∀ j, j < hs.length → hs.get? j = some (hbuf (i + j))) :
    (findNetboot_scan hbuf n hs.length i pxe).1 = (hs.find? Handle.usable).isSome ∧
    ∀ h, hs.find? Handle.usable = some h →
      (findNetboot_scan hbuf n hs.length i pxe).2 = h.iface := by
  induction hs generalizing i pxe with
  | nil => simp [findNetboot_scan]
  | cons h hs ih =>
    have hi : i < n := by simp at hn; omega
    have hh : hbuf i = h := by
      have := hget 0 (by simp)
      simpa using this.symm
    have hrec : ∀ q, (findNetboot_scan hbuf n hs.length (i + 1) q).1
          = (hs.find? Handle.usable).isSome ∧
        ∀ x, hs.find? Handle.usable = some x →
          (findNetboot_scan hbuf n hs.length (i + 1) q).2 = x.iface := by
      intro q
      apply ih (i + 1) q (by simp at hn; omega)
      intro j hj
      have := hget (j + 1) (by simp; omega)
      have e : i + (j + 1) = i + 1 + j := by omega
      simpa [e] using this
    simp only [List.length_cons]
    rw [findNetboot_scan, if_pos hi, hh]
    obtain ⟨status, iface⟩ := h
    by_cases hst : status = EFI_SUCCESS
    · cases iface with
      | none => simpa [Handle.usable, hst] using hrec none
      | some p =>
        obtain ⟨mode⟩ := p
        cases mode with
        | none => simpa [Handle.usable, hst] using hrec none
        | some m =>
          by_cases hm : (m.Started && m.DhcpAckReceived) = true
          · simp [Handle.usable, hst, hm]
          · simpa [Handle.usable, hst, hm] using hrec (some { Mode := some m })
    · simpa [Handle.usable, hst] using hrec none

/-- C6: when the enumeration succeeds — at the first `LocateHandle` call, or
at the second after one buffer-too-small answer and a successful reallocation —
and returns the handle list `hs`, `findNetboot` returns TRUE exactly when some
handle of `hs` is usable (opens with a non-NULL interface and mode, started
and acknowledged), and `pxe` is then the interface of the first usable handle
of `hs`; the handles before it are passed over. -/
theorem C6_findNetboot_selects_first_usable (env : FindEnv) (st : State) (hs : List Handle)
    (k : Nat) (halloc : env.alloc 0 = true)
    (hk : k = 0 ∨
      (k = 1 ∧ (env.locate 0).status = EFI_BUFFER_TOO_SMALL ∧ env.alloc 1 = true))
    (hstatus : (env.locate k).status = EFI_SUCCESS)
    (hbs : (env.locate k).bs = sizeof_EFI_HANDLE * hs.length)
    (hbuf : ∀ j, j < hs.length → hs.get? j = some ((env.locate k).hbuf j)) :
    ∃ res, findNetboot env st = some res ∧
      (res.rc = true ↔ ∃ h ∈ hs, h.usable = true) ∧
      (∀ h, hs.find? Handle.usable = some h → res.rc = true ∧ res.st.pxe = h.iface) := by
  have hn : (env.locate k).bs / sizeof_EFI_HANDLE = hs.length := by
    rw [hbs]; simp [sizeof_EFI_HANDLE]
  have hscan := findNetboot_scan_list (env.locate k).hbuf hs hs.length 0 none (by simp)
    (by intro j hj; simpa using hbuf j hj)
  have hne1 : EFI_SUCCESS ≠ EFI_BUFFER_TOO_SMALL := by decide
  have hne2 : EFI_SUCCESS ≠ EFI_NOT_FOUND := by decide
  obtain ⟨al, hres⟩ : ∃ al, findNetboot env st = some
      { rc := (findNetboot_scan (env.locate k).hbuf hs.length hs.length 0 none).1
        st := { st with pxe := (findNetboot_scan (env.locate k).hbuf hs.length hs.length 0 none).2 }
        calls := k + 1
        allocs := al } := by
    rcases hk with rfl | ⟨rfl, htoo, hal1⟩
    · exact ⟨_, by simp [findNetboot, findNetboot_try, halloc, hstatus, hne1, hne2, hn]; rfl⟩
    · exact ⟨_, by
        simp [findNetboot, findNetboot_try, halloc, htoo, hal1, hstatus, hne1, hne2, hn]; rfl⟩
  refine ⟨_, hres, ?_, ?_⟩
  · simp only [hscan.1]
    constructor
    · intro h
      obtain ⟨x, hx⟩ := Option.isSome_iff_exists.mp h
      exact ⟨x, List.mem_of_find?_eq_some hx, by simpa using List.find?_some hx⟩
    · rintro ⟨x, hx, hu⟩
      rw [List.find?_isSome]
      exact ⟨x, hx, hu⟩
  · intro h hf
    refine ⟨?_, hscan.2 h hf⟩
    simp [hscan.1, hf]

/-- C6 at the two orders of a set with one unstarted handle and one started,
acknowledged handle: the latter is selected both times. -/
theorem C6_findNetboot_selects_first_usable_witness :
    (∃ res, findNetboot
        (envOfHandles [openHandle (sampleMode false false false),
                       openHandle (sampleMode true true false)]) State.fresh = some res ∧
      (res.rc = true ↔ ∃ h ∈ [openHandle (sampleMode false false false),
                              openHandle (sampleMode true true false)], h.usable = true) ∧
      (∀ h, [openHandle (sampleMode false false false),
             openHandle (sampleMode true true false)].find? Handle.usable = some h →
        res.rc = true ∧ res.st.pxe = h.iface)) ∧
    (∃ res, findNetboot
        (envOfHandles [openHandle (sampleMode true true false),
                       openHandle (sampleMode false false false)]) State.fresh = some res ∧
      (res.rc = true ↔ ∃ h ∈ [openHandle (sampleMode true true false),
                              openHandle (sampleMode false false false)], h.usable = true) ∧
      (∀ h, [openHandle (sampleMode true true false),
             openHandle (sampleMode false false false)].find? Handle.usable = some h →
        res.rc = true ∧ res.st.pxe = h.iface)) ∧
    (findNetboot (envOfHandles [openHandle (sampleMode false false false),
        openHandle (sampleMode true true false)]) State.fresh).map (fun r => (r.rc, r.st.pxe)) =
      some (true, some { Mode := some (sampleMode true true false) }) ∧
    (findNetboot (envOfHandles [openHandle (sampleMode true true false),
        openHandle (sampleMode false false false)]) State.fresh).map (fun r => (r.rc, r.st.pxe)) =
      some (true, some { Mode := some (sampleMode true true false) }) := by
  refine ⟨C6_findNetboot_selects_first_usable _ State.fresh
      [openHandle (sampleMode false false false), openHandle (sampleMode true true false)] 0
      rfl (Or.inl rfl) rfl rfl (by decide),
    C6_findNetboot_selects_first_usable _ State.fresh
      [openHandle (sampleMode true true false), openHandle (sampleMode false false false)] 0
      rfl (Or.inl rfl) rfl rfl (by decide), by decide, by decide⟩

/-! ## One buffer-too-small answer followed by success -/

/-- C7 (amended): when the first `Mtftp` request answers buffer-too-small, the
reallocation succeeds and the second request succeeds, the call returns (any
fuel of at least 2 suffices) having issued exactly two requests; the second
capacity is twice the size the first request left in `*bufsiz`, modulo `2^64`
— twice the first capacity when that size was left unchanged and the double
fits 64 bits; the first buffer is the only one released, once; and the call
returns success with the second buffer and the size the second request
reported. -/
theorem C7_one_retry_doubles_reported_size (env : FetchEnv) (fuel : Nat) (supplied : Bool)
    (bufsiz : Nat) (hfuel : 2 ≤ fuel)
    (hinit : supplied = false → env.alloc 0 = true)
    (h1 : (env.mtftp 0).status = EFI_BUFFER_TOO_SMALL)
    (hre : env.alloc (if supplied then 0 else 1) = true)
    (h2 : (env.mtftp 1).status = EFI_SUCCESS) :
    ∃ res, FetchNetbootimage env fuel supplied bufsiz = some res ∧
      res.rc = EFI_SUCCESS ∧
      transfers res.trace =
        [(if supplied then Buf.caller else Buf.pool 0, if supplied then bufsiz else 4096 * 1024),
         (Buf.pool (if supplied then 0 else 1), ((env.mtftp 0).bufsiz * 2) % 2 ^ 64)] ∧
      frees res.trace = [if supplied then Buf.caller else Buf.pool 0] ∧
      res.buffer = some (Buf.pool (if supplied then 0 else 1)) ∧
      res.bufsiz = (env.mtftp 1).bufsiz ∧
      Buf.pool (if supplied then 0 else 1) ≠ (if supplied then Buf.caller else Buf.pool 0) ∧
      ((env.mtftp 0).bufsiz = (if supplied then bufsiz else 4096 * 1024) →
        (env.mtftp 0).bufsiz * 2 < 2 ^ 64 →
        ((env.mtftp 0).bufsiz * 2) % 2 ^ 64 = 2 * (if supplied then bufsiz else 4096 * 1024)) := by
  obtain ⟨f, rfl⟩ : ∃ f, fuel = f + 2 := ⟨fuel - 2, by omega⟩
  have hne : EFI_SUCCESS ≠ EFI_BUFFER_TOO_SMALL := by decide
  have hlast : ∀ a b : Nat, a = b → a * 2 < 2 ^ 64 → a * 2 % 2 ^ 64 = 2 * b := by
    intro a b hab hlt
    rw [Nat.mod_eq_of_lt hlt]; omega
  cases supplied with
  | true =>
    simp only [if_true] at hre
    refine ⟨_, by simp [FetchNetbootimage, FetchNetbootimage_try, h1, hre, h2, hne]; rfl, ?_⟩
    simp [transfers, frees, h2]
    exact hlast _ _
  | false =>
    have ha := hinit rfl
    simp only [Bool.false_eq_true, if_false] at hre
    refine ⟨_, by simp [FetchNetbootimage, FetchNetbootimage_try, ha, h1, hre, h2, hne]; rfl, ?_⟩
    simp [transfers, frees, h2]
    exact hlast _ _

/-- C7 (amended) at the default buffer with the size left unchanged by the
first request: capacities 4 MiB then 8 MiB. -/
theorem C7_one_retry_doubles_reported_size_witness :
    ∃ res, FetchNetbootimage
        (envOfResponses [{ status := EFI_BUFFER_TOO_SMALL, bufsiz := 4194304 },
                         { status := EFI_SUCCESS, bufsiz := 5000000 }]) 2 false 0 = some res ∧
      res.rc = EFI_SUCCESS ∧
      transfers res.trace =
        [(if false then Buf.caller else Buf.pool 0, if false then 0 else 4096 * 1024),
         (Buf.pool (if false then 0 else 1),
          ((envOfResponses [{ status := EFI_BUFFER_TOO_SMALL, bufsiz := 4194304 },
              { status := EFI_SUCCESS, bufsiz := 5000000 }]).mtftp 0).bufsiz * 2 % 2 ^ 64)] ∧
      frees res.trace = [if false then Buf.caller else Buf.pool 0] ∧
      res.buffer = some (Buf.pool (if false then 0 else 1)) ∧
      res.bufsiz = ((envOfResponses [{ status := EFI_BUFFER_TOO_SMALL, bufsiz := 4194304 },
              { status := EFI_SUCCESS, bufsiz := 5000000 }]).mtftp 1).bufsiz ∧
      Buf.pool (if false then 0 else 1) ≠ (if false then Buf.caller else Buf.pool 0) ∧
      (((envOfResponses [{ status := EFI_BUFFER_TOO_SMALL, bufsiz := 4194304 },
              { status := EFI_SUCCESS, bufsiz := 5000000 }]).mtftp 0).bufsiz =
          (if false then 0 else 4096 * 1024) →
        ((envOfResponses [{ status := EFI_BUFFER_TOO_SMALL, bufsiz := 4194304 },
              { status := EFI_SUCCESS, bufsiz := 5000000 }]).mtftp 0).bufsiz * 2 < 2 ^ 64 →
        ((envOfResponses [{ status := EFI_BUFFER_TOO_SMALL, bufsiz := 4194304 },
              { status := EFI_SUCCESS, bufsiz := 5000000 }]).mtftp 0).bufsiz * 2 % 2 ^ 64 =
          2 * (if false then 0 else 4096 * 1024)) :=
  C7_one_retry_doubles_reported_size
    (envOfResponses [{ status := EFI_BUFFER_TOO_SMALL, bufsiz := 4194304 },
                     { status := EFI_SUCCESS, bufsiz := 5000000 }]) 2 false 0
    (by decide) (fun _ => rfl) rfl rfl rfl

/-! ## The option scan on an arbitrary bounded area -/

/-- With fuel beyond the bytes left in the area the scan loop always ends: in
a result or in a read outside the area. -/
theorem loop_total (opts : List Nat) (a : Bool) (fuel optr : Nat)
    (h1 : 1 ≤ fuel) (h2 : opts.length < optr + fuel) :
    (get_v6_bootfile_url_loop opts a fuel optr).isSome = true := by
  induction fuel generalizing optr with
  | zero => omega
  | succ f ih =>
    rw [get_v6_bootfile_url_loop]
    split
    · rename_i b0 b1 hb0 hb1
      split
      · rfl
      · split
        · rename_i l0 l1 hl0 hl1
          have hlt : optr + 3 < opts.length := by
            rcases Nat.lt_or_ge (optr + 3) opts.length with h | h
            · exact h
            · rw [List.get?_eq_none.mpr h] at hl1; simp at hl1
          simp only []
          split
          · split
            · split <;> rfl
            · rfl
          · exact ih _ (by omega) (by omega)
        · rfl
    · rfl

/-- The scan steps over a prefix of complete records whose op codes are
neither 0 nor 59. -/
theorem loop_skip_records (recs : List Opt) (pre tail : List Nat) (a : Bool) (fuel : Nat)
    (hwf : ∀ o ∈ recs, o.wf ∧ o.op ≠ 0 ∧ o.op ≠ 59) :
    get_v6_bootfile_url_loop (pre ++ (encodeOpts recs ++ tail)) a (fuel + recs.length) pre.length =
      get_v6_bootfile_url_loop (pre ++ (encodeOpts recs ++ tail)) a fuel
        (pre ++ encodeOpts recs).length := by
  induction recs generalizing pre with
  | nil => simp [encodeOpts]
  | cons o recs ih =>
    have ho := hwf o (by simp)
    have e : pre ++ (encodeOpts (o :: recs) ++ tail) =
        pre ++ (o.encode ++ (encodeOpts recs ++ tail)) := by
      simp [encodeOpts]
    have e2 : pre ++ (o.encode ++ (encodeOpts recs ++ tail)) =
        (pre ++ o.encode) ++ (encodeOpts recs ++ tail) := by simp
    have e3 : (pre ++ encodeOpts (o :: recs)).length = (pre ++ o.encode ++ encodeOpts recs).length := by
      simp [encodeOpts]
    have e4 : fuel + (o :: recs).length = (fuel + recs.length) + 1 := by simp; omega
    rw [e, e3, e4, loop_at_record pre _ o a _ ho.1 ho.2.1, if_neg ho.2.2, e2,
      ih (pre ++ o.encode) (fun x hx => hwf x (by simp [hx]))]

/-- The whole scan started on a prefix of such records continues at the first
byte after them with fuel to spare. -/
theorem scan_skip_records (recs : List Opt) (tail : List Nat) (a : Bool)
    (hwf : ∀ o ∈ recs, o.wf ∧ o.op ≠ 0 ∧ o.op ≠ 59) :
    get_v6_bootfile_url (encodeOpts recs ++ tail) a =
      get_v6_bootfile_url_loop (encodeOpts recs ++ tail) a
        ((encodeOpts recs ++ tail).length + 1 - recs.length) (encodeOpts recs).length := by
  have hle := encodeOpts_length_ge recs
  have hf : (encodeOpts recs ++ tail).length + 1 =
      ((encodeOpts recs ++ tail).length + 1 - recs.length) + recs.length := by
    simp; omega
  have := loop_skip_records recs [] tail a ((encodeOpts recs ++ tail).length + 1 - recs.length) hwf
  simp only [List.nil_append, List.length_nil] at this
  unfold get_v6_bootfile_url
  rw [hf, this]
  simp

/-- C8 (amended): on every bounded area the scan ends, with a result or with
a read outside the area.  For an area that is a run of complete records with
op codes other than 0 and 59 followed by `tail`:
if `tail` begins with an op-code-0 record the scan reads only bytes of the area
and reports NULL; if `tail` has fewer than two bytes (no terminator), or a
non-zero op code with fewer than two length bytes, or a record with non-zero op
code whose length field exceeds the bytes left in the area (for op code 59:
when the allocation succeeds), the scan reads outside the area instead of
reporting not-found. -/
theorem C8_scan_bounded_area (area : List Nat) (recs : List Opt) (tail : List Nat) (a : Bool)
    (hwf : ∀ o ∈ recs, o.wf ∧ o.op ≠ 0 ∧ o.op ≠ 59) :
    (get_v6_bootfile_url area a).isSome = true ∧
    (∀ rest, tail = 0 :: 0 :: rest →
      get_v6_bootfile_url (encodeOpts recs ++ tail) a = some UrlResult.null) ∧
    (tail.length < 2 →
      get_v6_bootfile_url (encodeOpts recs ++ tail) a = some UrlResult.fault) ∧
    (∀ b0 b1 tl, tail = b0 :: b1 :: tl → ntohs (load16 b0 b1) ≠ 0 → tl.length < 2 →
      get_v6_bootfile_url (encodeOpts recs ++ tail) a = some UrlResult.fault) ∧
    (∀ op len body, tail = [op / 256, op % 256, len / 256, len % 256] ++ body →
      op < 65536 → len < 65536 → op ≠ 0 → (op = 59 → a = true) → body.length < len →
      get_v6_bootfile_url (encodeOpts recs ++ tail) a = some UrlResult.fault) := by
  have hle := encodeOpts_length_ge recs
  refine ⟨loop_total area a _ 0 (by omega) (by omega), ?_, ?_, ?_, ?_⟩
  · rintro rest rfl
    rw [scan_skip_records recs _ a hwf]
    obtain ⟨f, hf⟩ : ∃ f, (encodeOpts recs ++ 0 :: 0 :: rest).length + 1 - recs.length = f + 1 :=
      ⟨(encodeOpts recs ++ 0 :: 0 :: rest).length - recs.length, by simp; omega⟩
    rw [hf, get_v6_bootfile_url_loop, get?_append_length, get?_append_add]
    simp [ntohs, __swap16, load16]
  · intro hlt
    rw [scan_skip_records recs _ a hwf]
    obtain ⟨f, hf⟩ : ∃ f, (encodeOpts recs ++ tail).length + 1 - recs.length = f + 1 :=
      ⟨(encodeOpts recs ++ tail).length - recs.length, by simp; omega⟩
    rw [hf, get_v6_bootfile_url_loop, get?_append_length, get?_append_add]
    match tail, hlt with
    | [], _ => simp
    | [x], _ => simp
  · rintro b0 b1 tl rfl hop htl
    rw [scan_skip_records recs _ a hwf]
    obtain ⟨f, hf⟩ : ∃ f, (encodeOpts recs ++ b0 :: b1 :: tl).length + 1 - recs.length = f + 1 :=
      ⟨(encodeOpts recs ++ b0 :: b1 :: tl).length - recs.length, by simp; omega⟩
    rw [hf, get_v6_bootfile_url_loop, get?_append_length, get?_append_add, get?_append_add,
      get?_append_add]
    match tl, htl with
    | [], _ => simp [hop]
    | [x], _ => simp [hop]
  · rintro op len body rfl hop hlen hop0 h59 hbody
    rw [scan_skip_records recs _ a hwf]
    obtain ⟨f, hf⟩ : ∃ f, (encodeOpts recs ++
        ([op / 256, op % 256, len / 256, len % 256] ++ body)).length + 1 - recs.length = f + 2 :=
      ⟨(encodeOpts recs ++ ([op / 256, op % 256, len / 256, len % 256] ++ body)).length
        - recs.length - 1, by simp; omega⟩
    rw [hf, get_v6_bootfile_url_loop, get?_append_length, get?_append_add, get?_append_add,
      get?_append_add]
    simp only [List.cons_append, List.nil_append, List.get?_cons_zero, List.get?_cons_succ,
      ntohs_load16_be _ hop, ntohs_load16_be _ hlen, if_neg hop0]
    by_cases hop59 : op = 59
    · have hno : ¬ (encodeOpts recs).length + 4 + len ≤
          (encodeOpts recs ++ op / 256 :: op % 256 :: len / 256 :: len % 256 :: body).length := by
        simp; omega
      rw [if_pos hop59, if_pos (h59 hop59), if_neg hno]
    · rw [if_neg hop59, get_v6_bootfile_url_loop]
      have hnone : (encodeOpts recs ++ op / 256 :: op % 256 :: len / 256 :: len % 256 :: body).get?
          ((encodeOpts recs).length + 4 + len) = none := by
        apply List.get?_eq_none.mpr
        simp; omega
      rw [hnone]

/-- C8 (amended) at an empty record with op code 1: alone it makes the scan
leave the area, followed by a terminator it yields NULL. -/
theorem C8_scan_bounded_area_witness :
    (∀ o ∈ [({ op := 1, data := [] } : Opt)], o.wf ∧ o.op ≠ 0 ∧ o.op ≠ 59) ∧
    (get_v6_bootfile_url [0, 1, 0, 0] true).isSome = true ∧
    get_v6_bootfile_url (encodeOpts [{ op := 1, data := [] }] ++ []) true =
      some UrlResult.fault ∧
    get_v6_bootfile_url (encodeOpts [{ op := 1, data := [] }] ++ [0, 0, 7]) true =
      some UrlResult.null :=
  ⟨by decide,
   (C8_scan_bounded_area [0, 1, 0, 0] [{ op := 1, data := [] }] [] true (by decide)).1,
   (C8_scan_bounded_area [0, 1, 0, 0] [{ op := 1, data := [] }] [] true (by decide)).2.2.1
     (by decide),
   (C8_scan_bounded_area [0, 1, 0, 0] [{ op := 1, data := [] }] [0, 0, 7] true (by decide)).2.1
     [7] rfl⟩

/-! ## Resolution on the IPv6 path -/

/-- C9 (amended): on the IPv6 path, when the option scan yields a URL
`tftp://[A]P` (A of at most 39 characters without `]`) in which the part of P
before its last `/` has no backslash, the loader constant is a backslash
followed by a file name free of backslashes and the stores `translate_slashes`
makes into that literal are seen by the later reads, every return of
`parseNetbootinfo` with `EFI_SUCCESS` leaves in `full_path` a string that
contains no backslash; and it does return `EFI_SUCCESS` when the path
allocation succeeds and every store of `str2ip6` for A uses an index in
0..7. -/
theorem C9_ipv6_path_without_backslash (name : List Nat) (env : ParseEnv) (st : State)
    (p : EFI_PXE_BASE_CODE) (m : EFI_PXE_BASE_CODE_MODE) (A P rest : List Nat)
    (hpxe : st.pxe = some p) (hmode : p.Mode = some m) (hv6 : m.UsingIpv6 = true)
    (hscan : get_v6_bootfile_url m.DhcpOptions env.allocUrl =
      some (UrlResult.url (chars "tftp://[" ++ A ++ 93 :: P ++ 0 :: rest)))
    (hlen : A.length ≤ 39) (hA : ∀ c ∈ A, c ≠ 0 ∧ c ≠ 93) (hP : ∀ c ∈ P, c ≠ 0)
    (hname : ∀ c ∈ name, c ≠ 0 ∧ c ≠ 92)
    (hdir : ∀ dir file, P = dir ++ 47 :: file → 47 ∉ file → 92 ∉ dir) :
    (∀ st1, parseNetbootinfo true (92 :: name ++ [0]) env st = some (EFI_SUCCESS, st1) →
      ∃ buf, st1.full_path = some buf ∧ 92 ∉ cstr buf 0) ∧
    (env.allocPath = true → (∀ w ∈ (str2ip6 (ip6str A)).writes, w < 8) →
      ∃ st1, parseNetbootinfo true (92 :: name ++ [0]) env st = some (EFI_SUCCESS, st1)) := by
  have hT := template_read_nonzero true (92 :: name ++ [0])
  have ht : template_read true (92 :: name ++ [0]) = 47 :: name :=
    translate_slashes_separator_name name hname
  have hclean : 92 ∉ cstr (path_buffer P (template_read true (92 :: name ++ [0]))) 0 := by
    rw [ht] at hT ⊢
    by_cases hs : 47 ∈ P
    · obtain ⟨dir, file, hPe, hfile⟩ := last_slash_split P hs
      rw [path_buffer_slash P _ dir file hP hT hPe hfile]
      intro hmem
      rcases List.mem_append.mp hmem with h | h
      · exact hdir dir file hPe hfile h
      · rcases List.mem_cons.mp h with h | h
        · omega
        · exact (hname 92 h).2 rfl
    · rw [path_buffer_noslash P _ hP hT hs]
      intro hmem
      rcases List.mem_cons.mp hmem with h | h
      · omega
      · exact (hname 92 h).2 rfl
  have hrun := extract_tftp_info_run true (92 :: name ++ [0]) env.allocPath
    { st with tftp_addr := List.replicate 16 0 } A P rest hlen hA hP
  have hpar : parseNetbootinfo true (92 :: name ++ [0]) env st =
      if (str2ip6 (ip6str A)).fault then none
      else if env.allocPath then
        some (EFI_SUCCESS, State.mk st.pxe (ip6_bytes (str2ip6 (ip6str A)))
          (some (path_buffer P (template_read true (92 :: name ++ [0])))))
      else some (EFI_NOT_FOUND, State.mk st.pxe (ip6_bytes (str2ip6 (ip6str A))) none) := by
    simp only [hpxe] at hrun
    simp only [parseNetbootinfo, hpxe, hmode, hv6, if_true, parseDhcp6, hscan, hrun]
    cases (str2ip6 (ip6str A)).fault <;> cases env.allocPath <;> simp
  have hne : EFI_NOT_FOUND ≠ EFI_SUCCESS := by decide
  constructor
  · intro st1 hres
    rw [hpar] at hres
    cases hf : (str2ip6 (ip6str A)).fault with
    | true => simp [hf] at hres
    | false =>
      cases ha : env.allocPath with
      | false =>
        simp [hf, ha] at hres
        exact absurd hres.1 hne
      | true =>
        simp [hf, ha] at hres
        rw [← hres]
        exact ⟨_, rfl, hclean⟩
  · intro ha hin
    rw [hpar, str2ip6_no_fault (ip6str A) hin, ha]
    exact ⟨_, rfl⟩

/-- C9 (amended) at the URL `tftp://[::1]/path/old.efi` with the loader file
name `grubx64.efi`: the call returns `EFI_SUCCESS` and the path it leaves has
no backslash. -/
theorem C9_ipv6_path_without_backslash_witness :
    (∃ st1, parseNetbootinfo true (92 :: chars "grubx64.efi" ++ [0])
        { allocUrl := true, allocPath := true }
        { State.fresh with
          pxe := some { Mode := some (urlMode (chars "tftp://[::1]/path/old.efi")) } } =
          some (EFI_SUCCESS, st1)) ∧
    (∃ buf, (State.mk (some { Mode := some (urlMode (chars "tftp://[::1]/path/old.efi")) })
        [0, 0, 0, 0, 0, 0, 0, 0, 0, 0, 0, 0, 0, 0, 0, 1]
        (some (path_buffer (chars "/path/old.efi")
          (chars "/grubx64.efi")))).full_path = some buf ∧ 92 ∉ cstr buf 0) :=
  ⟨(C9_ipv6_path_without_backslash (chars "grubx64.efi") { allocUrl := true, allocPath := true }
      { State.fresh with
        pxe := some { Mode := some (urlMode (chars "tftp://[::1]/path/old.efi")) } }
      { Mode := some (urlMode (chars "tftp://[::1]/path/old.efi")) }
      (urlMode (chars "tftp://[::1]/path/old.efi"))
      (chars "::1") (chars "/path/old.efi") []
      rfl rfl rfl (by decide) (by decide) (by decide) (by decide) (by decide)
      (by
        intro dir file h _ hmem
        have h92 : 92 ∈ chars "/path/old.efi" := by rw [h]; simp [hmem]
        revert h92
        decide)).2 rfl (by decide),
   (C9_ipv6_path_without_backslash (chars "grubx64.efi") { allocUrl := true, allocPath := true }
      { State.fresh with
        pxe := some { Mode := some (urlMode (chars "tftp://[::1]/path/old.efi")) } }
      { Mode := some (urlMode (chars "tftp://[::1]/path/old.efi")) }
      (urlMode (chars "tftp://[::1]/path/old.efi"))
      (chars "::1") (chars "/path/old.efi") []
      rfl rfl rfl (by decide) (by decide) (by decide) (by decide) (by decide)
      (by
        intro dir file h _ hmem
        have h92 : 92 ∈ chars "/path/old.efi" := by rw [h]; simp [hmem]
        revert h92
        decide)).1 _ (by decide)⟩

/-! ## Rejected URLs and the bracket bound -/

/-- When the first seven bytes of a NUL-terminated buffer are seven non-NUL
characters, they are the first seven characters of its string. -/
theorem take7_of_string (s rest T : List Nat) (hT : ∀ c ∈ T, c ≠ 0)
    (h : (s ++ 0 :: rest).take 7 = T) : 7 ≤ s.length ∧ s.take 7 = T := by
  rcases Nat.lt_or_ge s.length 7 with hlt | hge
  · exfalso
    have hmem : (0 : Nat) ∈ (s ++ 0 :: rest).take 7 := by
      rw [List.take_append_eq_append_take]
      apply List.mem_append_right
      obtain ⟨d, hd⟩ : ∃ d, 7 - s.length = d + 1 := ⟨7 - s.length - 1, by omega⟩
      rw [hd, List.take_succ_cons]
      exact List.mem_cons_self _ _
    rw [h] at hmem
    exact hT 0 hmem rfl
  · refine ⟨hge, ?_⟩
    rw [← h, List.take_append_of_le_length hge]

/-- C12: for a URL `s` followed by its NUL whose first seven characters are
not `tftp://`, or whose character after them is not `[` (the end of the string
included), `extract_tftp_info` returns FALSE and leaves the state, so
`tftp_addr` and `full_path`, as it was. -/
theorem C12_rejects_bad_scheme_or_bracket (litStore : Bool) (loader : List Nat)
    (allocOk : Bool) (st : State) (s rest : List Nat)
    (h : s.take 7 ≠ chars "tftp://" ∨ s.get? 7 ≠ some 91) :
    extract_tftp_info litStore loader allocOk st (s ++ 0 :: rest) = some (false, st) := by
  unfold extract_tftp_info
  by_cases hcmp : strncmp_tftp_ne (s ++ 0 :: rest) = true
  · simp [hcmp]
  · have htake : (s ++ 0 :: rest).take 7 = chars "tftp://" := by
      simpa [strncmp_tftp_ne] using hcmp
    obtain ⟨hge, hs7⟩ := take7_of_string s rest (chars "tftp://") (by decide) htake
    have h7 : s.get? 7 ≠ some 91 := by
      rcases h with h | h
      · exact absurd hs7 h
      · exact h
    have hget : ∃ c, (s ++ 0 :: rest).get? 7 = some c ∧ c ≠ 91 := by
      rcases Nat.lt_or_ge 7 s.length with hlt | hle
      · have e : (s ++ 0 :: rest).get? 7 = s.get? 7 := by
          simp [List.getElem?_append_left hlt]
        obtain ⟨c, hc⟩ : ∃ c, s.get? 7 = some c := by
          cases hg : s.get? 7 with
          | none => rw [List.get?_eq_none] at hg; omega
          | some c => exact ⟨c, rfl⟩
        exact ⟨c, by rw [e, hc], fun hc91 => h7 (by rw [hc, hc91])⟩
      · have hl : s.length = 7 := by omega
        have e : (s ++ 0 :: rest).get? 7 = some 0 := by
          rw [← hl, get?_append_length]; rfl
        exact ⟨0, e, by norm_num⟩
    obtain ⟨c, hc, hne⟩ := hget
    have hc2 : (s ++ 0 :: rest)[7]? = some c := by simpa using hc
    simp [hcmp, hc2, hne]

/-- C12 at `http://[::1]/x`. -/
theorem C12_rejects_bad_scheme_or_bracket_witness :
    extract_tftp_info true loader_x64 true State.fresh (chars "http://[::1]/x" ++ 0 :: []) =
      some (false, State.fresh) :=
  C12_rejects_bad_scheme_or_bracket true loader_x64 true State.fresh (chars "http://[::1]/x") []
    (Or.inl (by decide))

theorem bracket_scan_stop_le (l : List Nat) (n0 n : Nat)
    (h : bracket_scan l n0 = BracketScan.stop n) (h0 : n0 ≤ 39) : n ≤ 39 := by
  induction l generalizing n0 with
  | nil => simp [bracket_scan] at h
  | cons c l ih =>
    rw [bracket_scan] at h
    by_cases hc : c ≠ 0 ∧ c ≠ 93
    · rw [if_pos hc] at h
      by_cases hn : n0 + 1 > 39
      · rw [if_pos hn] at h; cases h
      · rw [if_neg hn] at h
        exact ih (n0 + 1) h (by omega)
    · rw [if_neg hc] at h
      cases h
      exact h0

theorem bracket_scan_long (A rest : List Nat) (n0 : Nat)
    (hA : ∀ c ∈ A, c ≠ 0 ∧ c ≠ 93) (hlen : n0 + A.length = 40) (h0 : n0 ≤ 39) :
    bracket_scan (A ++ rest) n0 = BracketScan.tooLong := by
  induction A generalizing n0 with
  | nil => simp at hlen; omega
  | cons c A ih =>
    have hc := hA c (by simp)
    rw [List.cons_append, bracket_scan, if_pos hc]
    by_cases hn : n0 + 1 > 39
    · rw [if_pos hn]
    · rw [if_neg hn]
      exact ih (n0 + 1) (fun x hx => hA x (by simp [hx])) (by simp at hlen; omega) (by omega)

/-- C13, counterexample: thirty-nine colons followed by `]` pass the length
check, but `str2ip6` then stores below `ip[0]` (the `UINT8` index wraps to 255),
outside its array: the run is undefined and the call does not return TRUE. -/
theorem C13_length_39_stores_outside_array :
    (List.replicate 39 58).length = 39 ∧
    bracket_scan (List.replicate 39 58 ++ 93 :: (chars "/x" ++ [0])) 0 = BracketScan.stop 39 ∧
    255 ∈ (str2ip6 (ip6str (List.replicate 39 58))).writes ∧
    (∀ litStore : Bool,
      extract_tftp_info litStore loader_x64 true State.fresh
        (chars "tftp://[" ++ List.replicate 39 58 ++ 93 :: chars "/x" ++ 0 :: []) = none) := by
  decide

/-- C13 (amended): after `tftp://[`, forty characters none of which is NUL or
`]` make `extract_tftp_info` return FALSE with the state untouched; thirty-nine
such characters followed by `]` pass the length check, and are accepted (TRUE
when the allocation succeeds) when every store `str2ip6` makes for them uses an
index in 0..7; and whenever the bracket scan leaves its loop, the length `n`
copied into the 40-byte `ip6str` is at most 39, so the buffer keeps its 40
bytes with a NUL in the last one. -/
theorem C13_bracket_bound (litStore : Bool) (loader : List Nat) (allocOk : Bool) (st : State)
    (A P rest l : List Nat) (n : Nat) (hA : ∀ c ∈ A, c ≠ 0 ∧ c ≠ 93) :
    (A.length = 40 →
      extract_tftp_info litStore loader allocOk st (chars "tftp://[" ++ A ++ rest) =
        some (false, st)) ∧
    (A.length = 39 →
      bracket_scan (A ++ 93 :: rest) 0 = BracketScan.stop 39 ∧
      ((∀ c ∈ P, c ≠ 0) → (∀ w ∈ (str2ip6 (ip6str A)).writes, w < 8) →
        (extract_tftp_info litStore loader true st
          (chars "tftp://[" ++ A ++ 93 :: P ++ 0 :: rest)).map Prod.fst = some true)) ∧
    (bracket_scan l 0 = BracketScan.stop n →
      n ≤ 39 ∧ (l.take n).length ≤ 39 ∧ (ip6str (l.take n)).length = 40 ∧
      (ip6str (l.take n)).get? 39 = some 0) := by
  refine ⟨fun h40 => ?_, fun h39 => ⟨?_, fun hP hin => ?_⟩, fun hstop => ?_⟩
  · have hurl : chars "tftp://[" ++ A ++ rest =
        116 :: 102 :: 116 :: 112 :: 58 :: 47 :: 47 :: 91 :: (A ++ rest) := by
      simp [chars_tftp_bracket]
    have h1 : strncmp_tftp_ne
        (116 :: 102 :: 116 :: 112 :: 58 :: 47 :: 47 :: 91 :: (A ++ rest)) = false := by
      simp [strncmp_tftp_ne, chars_tftp]
    have h2 : (116 :: 102 :: 116 :: 112 :: 58 :: 47 :: 47 :: 91 :: (A ++ rest)).get? 7
        = some 91 := rfl
    have h3 : (116 :: 102 :: 116 :: 112 :: 58 :: 47 :: 47 :: 91 :: (A ++ rest)).drop 8
        = A ++ rest := rfl
    have h4 := bracket_scan_long A rest 0 hA (by omega) (by omega)
    rw [hurl]
    unfold extract_tftp_info
    simp only [h1, h2, h3, h4]
    simp
  · have := bracket_scan_closed A rest 0 hA (by omega)
    simpa [h39] using this
  · rw [extract_tftp_info_bracketed litStore loader st A P rest (by omega) hA hP hin]
    rfl
  · have hn := bracket_scan_stop_le l 0 n hstop (by omega)
    have hl : (l.take n).length ≤ 39 := by
      rw [List.length_take]; omega
    refine ⟨hn, hl, ?_, ?_⟩
    · simp only [ip6str, memcpy_at, List.take_zero, List.nil_append, List.length_append,
        List.length_drop, List.length_replicate, Nat.zero_add]
      omega
    · simp only [ip6str, memcpy_at, List.take_zero, List.nil_append, Nat.zero_add,
        List.drop_replicate]
      have e : 39 = (l.take n).length + (39 - (l.take n).length) := by omega
      rw [e, get?_append_add]
      simp [List.getElem?_replicate]
      omega

/-- C13 (amended) at forty and at thirty-nine characters `1`. -/
theorem C13_bracket_bound_witness :
    extract_tftp_info true loader_x64 true State.fresh
        (chars "tftp://[" ++ List.replicate 40 49 ++ (chars "]/x" ++ [0])) =
      some (false, State.fresh) ∧
    (bracket_scan (List.replicate 39 49 ++ 93 :: []) 0 = BracketScan.stop 39 ∧
      ((∀ c ∈ chars "/x", c ≠ 0) →
        (∀ w ∈ (str2ip6 (ip6str (List.replicate 39 49))).writes, w < 8) →
        (extract_tftp_info true loader_x64 true State.fresh
          (chars "tftp://[" ++ List.replicate 39 49 ++ 93 :: chars "/x" ++ 0 :: [])).map
          Prod.fst = some true)) ∧
    (extract_tftp_info true loader_x64 true State.fresh
        (chars "tftp://[" ++ List.replicate 39 49 ++ 93 :: chars "/x" ++ 0 :: [])).map
        Prod.fst = some true ∧
    (39 ≤ 39 ∧ ((List.replicate 39 49 ++ [93]).take 39).length ≤ 39 ∧
      (ip6str ((List.replicate 39 49 ++ [93]).take 39)).length = 40 ∧
      (ip6str ((List.replicate 39 49 ++ [93]).take 39)).get? 39 = some 0) :=
  ⟨(C13_bracket_bound true loader_x64 true State.fresh (List.replicate 40 49) []
      (chars "]/x" ++ [0]) [] 0 (by decide)).1 (by decide),
   (C13_bracket_bound true loader_x64 true State.fresh (List.replicate 39 49) (chars "/x")
      [] [] 0 (by decide)).2.1 (by decide),
   ((C13_bracket_bound true loader_x64 true State.fresh (List.replicate 39 49) (chars "/x")
      [] [] 0 (by decide)).2.1 (by decide)).2 (by decide) (by decide),
   (C13_bracket_bound true loader_x64 true State.fresh [] [] []
      (List.replicate 39 49 ++ [93]) 39 (by decide)).2.2 (by decide)⟩

/-! ## Resolution on the IPv4 path -/

/-- C14: for a stored capability whose mode has `UsingIpv6` false and a
four-byte `BootpSiAddr`, whatever the prior state: when the path allocation
succeeds `parseNetbootinfo` returns `EFI_SUCCESS`, `tftp_addr` is the four
bytes of `BootpSiAddr` followed by twelve zero bytes, and `full_path` holds
the loader constant unchanged; when it fails the call returns
`EFI_OUT_OF_RESOURCES`. -/
theorem C14_ipv4_resolution (litStore : Bool) (loader : List Nat) (env : ParseEnv) (st : State)
    (p : EFI_PXE_BASE_CODE) (m : EFI_PXE_BASE_CODE_MODE)
    (hpxe : st.pxe = some p) (hmode : p.Mode = some m) (hv4 : m.UsingIpv6 = false)
    (hsi : m.BootpSiAddr.length = 4) :
    (env.allocPath = true →
      ∃ buf, parseNetbootinfo litStore loader env st =
          some (EFI_SUCCESS,
            { pxe := st.pxe, tftp_addr := m.BootpSiAddr ++ List.replicate 12 0,
              full_path := some buf }) ∧
        cstr buf 0 = cstr loader 0) ∧
    (env.allocPath = false →
      (parseNetbootinfo litStore loader env st).map Prod.fst = some EFI_OUT_OF_RESOURCES) := by
  have haddr : memcpy_at (List.replicate 16 0) 0
      ((List.range 4).map (fun k => m.BootpSiAddr.getD k 0)) =
      m.BootpSiAddr ++ List.replicate 12 0 := by
    match h : m.BootpSiAddr, hsi with
    | [a, b, c, d], _ => rfl
  constructor
  · intro ha
    refine ⟨memcpy_at (List.replicate ((cstr loader 0).length + 1) 0) 0 (cstr loader 0), ?_, ?_⟩
    · simp only [parseNetbootinfo, hpxe, hmode, hv4, parseDhcp4, ha, if_true, haddr]
      simp
    · have e : memcpy_at (List.replicate ((cstr loader 0).length + 1) 0) 0 (cstr loader 0) =
          cstr loader 0 ++ 0 :: [] := by
        simp [memcpy_at, List.drop_replicate]
      rw [e]
      exact cstr_string _ _ (cstr_nonzero loader 0)
  · intro ha
    simp [parseNetbootinfo, hpxe, hmode, hv4, parseDhcp4, ha]

/-- C14 at the sample IPv4 mode, with a prior state left by an earlier IPv6
resolution. -/
theorem C14_ipv4_resolution_witness :
    ∃ buf, parseNetbootinfo true loader_x64 { allocUrl := true, allocPath := true }
        { pxe := some { Mode := some (sampleMode true true false) }
          tftp_addr := [32, 1, 13, 184, 0, 0, 0, 0, 0, 0, 0, 0, 0, 0, 0, 1]
          full_path := some (chars "/old") } =
        some (EFI_SUCCESS,
          { pxe := some { Mode := some (sampleMode true true false) }
            tftp_addr := [192, 0, 2, 1] ++ List.replicate 12 0,
            full_path := some buf }) ∧
      cstr buf 0 = cstr loader_x64 0 :=
  (C14_ipv4_resolution true loader_x64 { allocUrl := true, allocPath := true }
    { pxe := some { Mode := some (sampleMode true true false) }
      tftp_addr := [32, 1, 13, 184, 0, 0, 0, 0, 0, 0, 0, 0, 0, 0, 0, 1]
      full_path := some (chars "/old") }
    { Mode := some (sampleMode true true false) } (sampleMode true true false)
    rfl rfl rfl rfl).1 rfl

/-! ## str2ns as a base-16 reading -/

theorem hex_chars : chars "0123456789abcdef" =
    [48, 49, 50, 51, 52, 53, 54, 55, 56, 57, 97, 98, 99, 100, 101, 102] := by
  decide

theorem nibble_eq_spec (c : Nat) : nibble c = spec_hex_digit c := by
  rcases Nat.lt_or_ge c 128 with h | h
  · revert c
    decide
  · have hn : nibble c = 0 := by
      unfold nibble
      rw [if_neg (by omega), if_neg (by omega), if_neg (by omega)]
    have hnot : c ∉ chars "0123456789abcdef" := by
      rw [hex_chars]
      simp
      omega
    have hidx : (chars "0123456789abcdef").indexOf c = 16 := by
      rw [List.indexOf_eq_length.mpr hnot, hex_chars]
      rfl
    have hlow : (if 65 ≤ c ∧ c ≤ 90 then c + 32 else c) = c := if_neg (by omega)
    unfold spec_hex_digit
    rw [hn, hlow, hidx]
    simp

theorem spec_hex_digit_lt (c : Nat) : spec_hex_digit c < 16 := by
  unfold spec_hex_digit
  generalize (chars "0123456789abcdef").indexOf (if 65 ≤ c ∧ c ≤ 90 then c + 32 else c) = k
  split <;> omega

theorem spec_hex_value_cons (c : Nat) (s : List Nat) :
    spec_hex_value (c :: s) = spec_hex_digit c * 16 ^ s.length + spec_hex_value s := by
  unfold spec_hex_value
  rw [List.reverse_cons, List.map_append, Nat.ofDigits_append]
  simp [Nat.ofDigits_singleton]
  ring

theorem spec_hex_value_append (pre t : List Nat) :
    spec_hex_value (pre ++ t) = spec_hex_value pre * 16 ^ t.length + spec_hex_value t := by
  induction pre with
  | nil => simp [spec_hex_value]
  | cons c pre ih =>
    rw [List.cons_append, spec_hex_value_cons, spec_hex_value_cons, ih]
    simp only [List.length_append, pow_add]
    ring

theorem spec_hex_value_lt (s : List Nat) : spec_hex_value s < 16 ^ s.length := by
  have := Nat.ofDigits_lt_base_pow_length (b := 16) (l := s.reverse.map spec_hex_digit)
    (by norm_num) (by
      intro x hx
      obtain ⟨c, _, rfl⟩ := List.mem_map.mp hx
      exact spec_hex_digit_lt c)
  simpa [spec_hex_value] using this

/-- The loop of `str2ns` started with any accumulator on a string followed by
its NUL. -/
theorem str2ns_loop_value (s rest : List Nat) (r : Nat) (hs : ∀ c ∈ s, c ≠ 0) :
    str2ns_loop (s ++ 0 :: rest) (r % 65536) =
      (r * 16 ^ s.length + spec_hex_value s) % 65536 := by
  induction s generalizing r with
  | nil => simp [str2ns_loop, spec_hex_value]
  | cons c s ih =>
    have hc := hs c (by simp)
    rw [List.cons_append, str2ns_loop, if_neg hc,
      ih (r % 65536 * 16 + nibble c) (fun x hx => hs x (by simp [hx])),
      spec_hex_value_cons, nibble_eq_spec]
    have e : r * 16 ^ (c :: s).length + (spec_hex_digit c * 16 ^ s.length + spec_hex_value s) =
        (r * 16 + spec_hex_digit c) * 16 ^ s.length + spec_hex_value s := by
      simp only [List.length_cons, pow_succ]
      ring
    rw [e]
    apply Nat.ModEq.add_right
    apply Nat.ModEq.mul_right
    apply Nat.ModEq.add_right
    apply Nat.ModEq.mul_right
    exact Nat.mod_modEq r 65536

theorem bytes16_swap16 (v : Nat) (h : v < 65536) :
    bytes16 (__swap16 v) = [v / 256, v % 256] := by
  unfold bytes16 __swap16
  have hx := Nat.div_add_mod v 256
  have hr : v % 256 < 256 := Nat.mod_lt _ (by norm_num)
  generalize v / 256 = q at *
  generalize v % 256 = r at *
  have hq : q < 256 := by omega
  have h0 : q % 256 = q := Nat.mod_eq_of_lt hq
  have h1 : (r * 256 + q) % 256 = q := by omega
  have h2 : (r * 256 + q) / 256 = r := by omega
  rw [h0, h1, h2, Nat.mod_eq_of_lt hr]

theorem str2ns_string (s rest : List Nat) (hs : ∀ c ∈ s, c ≠ 0) :
    str2ns (s ++ 0 :: rest) 0 = __swap16 (spec_hex_value s % 65536) := by
  have := str2ns_loop_value s rest 0 hs
  simp only [Nat.zero_mod, Nat.zero_mul, Nat.zero_add] at this
  simp [str2ns, htons, ntohs, this]

/-- C18: for a string `s` followed by its NUL, `str2ns` is the byte swap of
the base-16 value of `s` reduced modulo `2^16`, digits read with both letter
cases and every other character as 0.  For a string of at most four characters
the value is not reduced and the two bytes stored are its high byte then its
low byte; and a string ending in the four characters `t` gives the same result
as `t` alone. -/
theorem C18_str2ns_value (s rest : List Nat) (hs : ∀ c ∈ s, c ≠ 0) :
    str2ns (s ++ 0 :: rest) 0 = __swap16 (spec_hex_value s % 65536) ∧
    (s.length ≤ 4 →
      str2ns (s ++ 0 :: rest) 0 = __swap16 (spec_hex_value s) ∧
      bytes16 (str2ns (s ++ 0 :: rest) 0) = [spec_hex_value s / 256, spec_hex_value s % 256]) ∧
    (∀ pre t, s = pre ++ t → t.length = 4 →
      str2ns (s ++ 0 :: rest) 0 = str2ns (t ++ 0 :: rest) 0) := by
  refine ⟨str2ns_string s rest hs, fun h4 => ?_, fun pre t hst ht => ?_⟩
  · have hlt : spec_hex_value s < 65536 := by
      have h1 := spec_hex_value_lt s
      have h2 : 16 ^ s.length ≤ 16 ^ 4 := Nat.pow_le_pow_right (by norm_num) h4
      have h3 : (16 : Nat) ^ 4 = 65536 := by norm_num
      omega
    rw [str2ns_string s rest hs, Nat.mod_eq_of_lt hlt]
    exact ⟨rfl, bytes16_swap16 _ hlt⟩
  · have hsub : ∀ c ∈ t, c ≠ 0 := fun c hc => hs c (by rw [hst]; simp [hc])
    rw [str2ns_string s rest hs, str2ns_string t rest hsub, hst, spec_hex_value_append, ht]
    have h3 : (16 : Nat) ^ 4 = 65536 := by norm_num
    rw [h3]
    have e : (spec_hex_value pre * 65536 + spec_hex_value t) % 65536 =
        spec_hex_value t % 65536 := by omega
    rw [e]

/-- C18 at the group `dB8` and at the long string `12345678`. -/
theorem C18_str2ns_value_witness :
    (str2ns (chars "dB8" ++ 0 :: []) 0 = __swap16 (spec_hex_value (chars "dB8") % 65536) ∧
      ((chars "dB8").length ≤ 4 →
        str2ns (chars "dB8" ++ 0 :: []) 0 = __swap16 (spec_hex_value (chars "dB8")) ∧
        bytes16 (str2ns (chars "dB8" ++ 0 :: []) 0) =
          [spec_hex_value (chars "dB8") / 256, spec_hex_value (chars "dB8") % 256]) ∧
      (∀ pre t, chars "dB8" = pre ++ t → t.length = 4 →
        str2ns (chars "dB8" ++ 0 :: []) 0 = str2ns (t ++ 0 :: []) 0)) ∧
    spec_hex_value (chars "dB8") = 3512 ∧
    bytes16 (str2ns (chars "dB8" ++ 0 :: []) 0) = [13, 184] ∧
    str2ns (chars "12345678" ++ 0 :: []) 0 = str2ns (chars "5678" ++ 0 :: []) 0 :=
  ⟨C18_str2ns_value (chars "dB8") [] (by decide), by decide, by decide,
   (C18_str2ns_value (chars "12345678") [] (by decide)).2.2 (chars "1234") (chars "5678")
     (by decide) (by decide)⟩

/-! ## The enumeration retry of findNetboot -/

/-- C19: whatever the allocator and `LocateHandle` do, `findNetboot` returns,
having called `LocateHandle` at most twice.  After a first buffer-too-small
answer it asks `AllocatePool` for the size that answer left in `bs` and, when
that succeeds, calls `LocateHandle` once more; a second buffer-too-small answer
makes it return FALSE with the state unchanged. -/
theorem C19_findNetboot_bounded_retry (env : FindEnv) (st : State) :
    ∃ res, findNetboot env st = some res ∧ res.calls ≤ 2 ∧
      (env.alloc 0 = true → (env.locate 0).status ≠ EFI_BUFFER_TOO_SMALL →
        res.calls = 1 ∧ res.allocs = [sizeof_EFI_HANDLE]) ∧
      (env.alloc 0 = true → (env.locate 0).status = EFI_BUFFER_TOO_SMALL →
        res.allocs = [sizeof_EFI_HANDLE, (env.locate 0).bs] ∧
        (env.alloc 1 = false → res.calls = 1 ∧ res.rc = false) ∧
        (env.alloc 1 = true → res.calls = 2) ∧
        (env.alloc 1 = true → (env.locate 1).status = EFI_BUFFER_TOO_SMALL →
          res.rc = false ∧ res.st = st)) := by
  unfold findNetboot
  by_cases ha : env.alloc 0 = true
  · by_cases h0 : (env.locate 0).status = EFI_BUFFER_TOO_SMALL
    · by_cases ha1 : env.alloc 1 = true
      · by_cases h1 : (env.locate 1).status = EFI_BUFFER_TOO_SMALL
        · exact ⟨_, by simp [findNetboot_try, ha, h0, ha1, h1]; rfl, by simp [ha, h0, ha1, h1]⟩
        · by_cases h1n : (env.locate 1).status = EFI_NOT_FOUND
          · exact ⟨_, by simp [findNetboot_try, ha, h0, ha1, h1, h1n]; rfl,
              by simp [ha, h0, ha1, h1]⟩
          · exact ⟨_, by simp [findNetboot_try, ha, h0, ha1, h1, h1n]; rfl,
              by simp [ha, h0, ha1, h1]⟩
      · exact ⟨_, by simp [findNetboot_try, ha, h0, ha1]; rfl, by simp [ha, h0, ha1]⟩
    · by_cases h0n : (env.locate 0).status = EFI_NOT_FOUND
      · exact ⟨_, by simp [findNetboot_try, ha, h0, h0n]; rfl, by simp [ha, h0]⟩
      · exact ⟨_, by simp [findNetboot_try, ha, h0, h0n]; rfl, by simp [ha, h0]⟩
  · exact ⟨_, by simp [ha]; rfl, by simp [ha]⟩

/-- C19 at an enumeration that keeps answering buffer-too-small with size 64:
two calls, allocations of 8 then 64 bytes, FALSE. -/
theorem C19_findNetboot_bounded_retry_witness :
    ∃ res, findNetboot (envTooSmall 64) State.fresh = some res ∧ res.calls = 2 ∧
      res.allocs = [8, 64] ∧ res.rc = false ∧ res.st = State.fresh := by
  obtain ⟨res, h, _, _, h2⟩ := C19_findNetboot_bounded_retry (envTooSmall 64) State.fresh
  have h3 := h2 rfl rfl
  exact ⟨res, h, h3.2.2.1 rfl, h3.1, (h3.2.2.2 rfl rfl).1, (h3.2.2.2 rfl rfl).2⟩

/-! ## Traces of FetchNetbootimage -/

theorem transfers_append (a b : List Event) : transfers (a ++ b) = transfers a ++ transfers b := by
  induction a with
  | nil => rfl
  | cons e a ih => cases e <;> simp [transfers, ih]

theorem frees_append (a b : List Event) : frees (a ++ b) = frees a ++ frees b := by
  induction a with
  | nil => rfl
  | cons e a ih => cases e <;> simp [frees, ih]

theorem capacity_chain_snoc (env : FetchEnv) (L : List (Buf × Nat)) (n : Nat) (b1 : Buf)
    (h : capacity_chain env L) (hlen : L.length = n + 1) :
    capacity_chain env (L ++ [(b1, (env.mtftp n).bufsiz * 2 % 2 ^ 64)]) := by
  intro k b c b2 c2 hk hk1
  rcases Nat.lt_or_ge (k + 1) L.length with hlt | hge
  · have e1 : (L ++ [(b1, (env.mtftp n).bufsiz * 2 % 2 ^ 64)]).get? k = L.get? k := by
      simp [List.getElem?_append_left (show k < L.length by omega)]
    have e2 : (L ++ [(b1, (env.mtftp n).bufsiz * 2 % 2 ^ 64)]).get? (k + 1) = L.get? (k + 1) := by
      simp [List.getElem?_append_left hlt]
    rw [e1] at hk
    rw [e2] at hk1
    exact h k b c b2 c2 hk hk1
  · have hk1lt : k + 1 < (L ++ [(b1, (env.mtftp n).bufsiz * 2 % 2 ^ 64)]).length := by
      rcases Nat.lt_or_ge (k + 1) (L ++ [(b1, (env.mtftp n).bufsiz * 2 % 2 ^ 64)]).length with
        h1 | h1
      · exact h1
      · rw [List.get?_eq_none.mpr h1] at hk1; cases hk1
    have hkn : k = n := by simp at hk1lt; omega
    subst hkn
    have e : (L ++ [(b1, (env.mtftp k).bufsiz * 2 % 2 ^ 64)]).get? (k + 1) =
        some (b1, (env.mtftp k).bufsiz * 2 % 2 ^ 64) := by
      rw [← hlen]
      simp
    rw [e] at hk1
    cases hk1
    rfl

theorem capacity_chain_single (env : FetchEnv) (x : Buf × Nat) : capacity_chain env [x] := by
  intro k b c b1 c1 _ hk1
  simp at hk1

theorem capacity_chain_init (env : FetchEnv) (L : List (Buf × Nat)) (x : Buf × Nat)
    (h : capacity_chain env (L ++ [x])) : capacity_chain env L := by
  intro k b c b1 c1 hk hk1
  have hlt1 : k + 1 < L.length := by
    rcases Nat.lt_or_ge (k + 1) L.length with h1 | h1
    · exact h1
    · rw [List.get?_eq_none.mpr h1] at hk1; cases hk1
  have e1 : (L ++ [x]).get? k = L.get? k := by
    simp [List.getElem?_append_left (show k < L.length by omega)]
  have e2 : (L ++ [x]).get? (k + 1) = L.get? (k + 1) := by
    simp [List.getElem?_append_left hlt1]
  exact h k b c b1 c1 (by rw [e1]; exact hk) (by rw [e2]; exact hk1)

/-- A run that returns has made exactly the calls listed for it. -/
theorem fetch_try_agree (env : FetchEnv) (fuel ncall nalloc : Nat) (buf : Buf) (bufsiz : Nat)
    (tr : List Event) (res : FetchResult)
    (h : FetchNetbootimage_try env fuel ncall nalloc buf bufsiz tr = some res) :
    res.trace = FetchNetbootimage_try_events env fuel ncall nalloc buf bufsiz tr := by
  induction fuel generalizing ncall nalloc buf bufsiz tr with
  | zero => simp [FetchNetbootimage_try] at h
  | succ f ih =>
    rw [FetchNetbootimage_try] at h
    rw [FetchNetbootimage_try_events]
    simp only [] at h ⊢
    by_cases hs : (env.mtftp ncall).status = EFI_BUFFER_TOO_SMALL
    · rw [if_pos hs] at h
      rw [if_pos hs]
      by_cases ha : env.alloc nalloc = true
      · rw [if_pos ha] at h
        rw [if_pos ha]
        exact ih _ _ _ _ _ h
      · rw [if_neg ha] at h
        rw [if_neg ha]
        cases h
        rfl
    · rw [if_neg hs] at h
      rw [if_neg hs]
      by_cases hok : (env.mtftp ncall).status ≠ EFI_SUCCESS
      · rw [if_pos hok] at h
        rw [if_pos hok]
        cases h
        rfl
      · rw [if_neg hok] at h
        rw [if_neg hok]
        cases h
        rfl

/-- The requests made from `try_again` on continue the chain of those already
made, however many rounds are run. -/
theorem fetch_events_chain (env : FetchEnv) (fuel ncall nalloc : Nat) (buf : Buf) (bufsiz : Nat)
    (tr : List Event)
    (hlen : (transfers tr).length = ncall)
    (hch : capacity_chain env (transfers tr ++ [(buf, bufsiz)])) :
    capacity_chain env
      (transfers (FetchNetbootimage_try_events env fuel ncall nalloc buf bufsiz tr)) := by
  induction fuel generalizing ncall nalloc buf bufsiz tr with
  | zero => exact capacity_chain_init env _ _ hch
  | succ f ih =>
    rw [FetchNetbootimage_try_events]
    simp only []
    have ht1 : transfers (tr ++ [Event.mtftp buf bufsiz]) = transfers tr ++ [(buf, bufsiz)] := by
      rw [transfers_append]; rfl
    by_cases hs : (env.mtftp ncall).status = EFI_BUFFER_TOO_SMALL
    · rw [if_pos hs]
      by_cases ha : env.alloc nalloc = true
      · rw [if_pos ha]
        have ht2 : transfers (tr ++ [Event.mtftp buf bufsiz] ++
            [Event.free buf, Event.alloc ((env.mtftp ncall).bufsiz * 2 % 2 ^ 64) true]) =
            transfers tr ++ [(buf, bufsiz)] := by
          rw [transfers_append, ht1]; simp [transfers]
        apply ih (ncall + 1) (nalloc + 1)
        · rw [ht2]; simp [hlen]
        · rw [ht2]
          exact capacity_chain_snoc env _ ncall _ hch (by simp [hlen])
      · rw [if_neg ha, transfers_append, ht1]
        simpa [transfers] using hch
    · rw [if_neg hs]
      by_cases hok : (env.mtftp ncall).status ≠ EFI_SUCCESS
      · rw [if_pos hok, transfers_append, ht1]
        simpa [transfers] using hch
      · rw [if_neg hok, ht1]
        exact hch

/-- The first request made from `try_again` on, if any, uses the buffer and
capacity the run starts with. -/
theorem fetch_events_first (env : FetchEnv) (fuel ncall nalloc : Nat) (buf : Buf) (bufsiz : Nat)
    (tr : List Event) :
    transfers (FetchNetbootimage_try_events env fuel ncall nalloc buf bufsiz tr) = transfers tr ∨
    ∃ L, transfers (FetchNetbootimage_try_events env fuel ncall nalloc buf bufsiz tr) =
      transfers tr ++ (buf, bufsiz) :: L := by
  induction fuel generalizing ncall nalloc buf bufsiz tr with
  | zero => exact Or.inl rfl
  | succ f ih =>
    right
    rw [FetchNetbootimage_try_events]
    simp only []
    have ht1 : transfers (tr ++ [Event.mtftp buf bufsiz]) = transfers tr ++ [(buf, bufsiz)] := by
      rw [transfers_append]; rfl
    by_cases hs : (env.mtftp ncall).status = EFI_BUFFER_TOO_SMALL
    · rw [if_pos hs]
      by_cases ha : env.alloc nalloc = true
      · rw [if_pos ha]
        have ht2 : transfers (tr ++ [Event.mtftp buf bufsiz] ++
            [Event.free buf, Event.alloc ((env.mtftp ncall).bufsiz * 2 % 2 ^ 64) true]) =
            transfers tr ++ [(buf, bufsiz)] := by
          rw [transfers_append, ht1]; simp [transfers]
        rcases ih (ncall + 1) (nalloc + 1) (Buf.pool nalloc)
          ((env.mtftp ncall).bufsiz * 2 % 2 ^ 64)
          (tr ++ [Event.mtftp buf bufsiz] ++
            [Event.free buf, Event.alloc ((env.mtftp ncall).bufsiz * 2 % 2 ^ 64) true])
          with h | ⟨L, h⟩
        · exact ⟨[], by rw [h, ht2]⟩
        · exact ⟨(Buf.pool nalloc, (env.mtftp ncall).bufsiz * 2 % 2 ^ 64) :: L, by
            rw [h, ht2]; simp⟩
      · rw [if_neg ha]
        exact ⟨[], by rw [transfers_append, ht1]; simp [transfers]⟩
    · rw [if_neg hs]
      by_cases hok : (env.mtftp ncall).status ≠ EFI_SUCCESS
      · rw [if_pos hok]
        exact ⟨[], by rw [transfers_append, ht1]; simp [transfers]⟩
      · rw [if_neg hok]
        exact ⟨[], by rw [ht1]⟩

/-- A run still going after `fuel` rounds has made `fuel` requests in them. -/
theorem fetch_events_running (env : FetchEnv) (fuel ncall nalloc : Nat) (buf : Buf)
    (bufsiz : Nat) (tr : List Event)
    (h : FetchNetbootimage_try env fuel ncall nalloc buf bufsiz tr = none) :
    (transfers (FetchNetbootimage_try_events env fuel ncall nalloc buf bufsiz tr)).length =
      (transfers tr).length + fuel := by
  induction fuel generalizing ncall nalloc buf bufsiz tr with
  | zero => rfl
  | succ f ih =>
    rw [FetchNetbootimage_try] at h
    rw [FetchNetbootimage_try_events]
    simp only [] at h ⊢
    by_cases hs : (env.mtftp ncall).status = EFI_BUFFER_TOO_SMALL
    · rw [if_pos hs] at h
      rw [if_pos hs]
      by_cases ha : env.alloc nalloc = true
      · rw [if_pos ha] at h
        rw [if_pos ha, ih _ _ _ _ _ h]
        simp [transfers_append, transfers]
        omega
      · rw [if_neg ha] at h
        cases h
    · rw [if_neg hs] at h
      by_cases hok : (env.mtftp ncall).status ≠ EFI_SUCCESS
      · rw [if_pos hok] at h
        cases h
      · rw [if_neg hok] at h
        cases h

/-- The calls already made are kept. -/
theorem fetch_events_grow (env : FetchEnv) (fuel ncall nalloc : Nat) (buf : Buf)
    (bufsiz : Nat) (tr : List Event) :
    tr <+: FetchNetbootimage_try_events env fuel ncall nalloc buf bufsiz tr := by
  induction fuel generalizing ncall nalloc buf bufsiz tr with
  | zero => exact List.prefix_refl _
  | succ f ih =>
    rw [FetchNetbootimage_try_events]
    simp only []
    by_cases hs : (env.mtftp ncall).status = EFI_BUFFER_TOO_SMALL
    · rw [if_pos hs]
      by_cases ha : env.alloc nalloc = true
      · rw [if_pos ha]
        refine List.IsPrefix.trans ?_ (ih _ _ _ _ _)
        rw [List.append_assoc]
        exact List.prefix_append _ _
      · rw [if_neg ha, List.append_assoc]
        exact List.prefix_append _ _
    · rw [if_neg hs]
      by_cases hok : (env.mtftp ncall).status ≠ EFI_SUCCESS
      · rw [if_pos hok, List.append_assoc]
        exact List.prefix_append _ _
      · rw [if_neg hok]
        exact List.prefix_append _ _

/-- One more round only adds calls after those of the rounds before. -/
theorem fetch_events_step (env : FetchEnv) (fuel ncall nalloc : Nat) (buf : Buf)
    (bufsiz : Nat) (tr : List Event) :
    FetchNetbootimage_try_events env fuel ncall nalloc buf bufsiz tr <+:
      FetchNetbootimage_try_events env (fuel + 1) ncall nalloc buf bufsiz tr := by
  induction fuel generalizing ncall nalloc buf bufsiz tr with
  | zero => exact fetch_events_grow env 1 ncall nalloc buf bufsiz tr
  | succ f ih =>
    rw [FetchNetbootimage_try_events, FetchNetbootimage_try_events]
    simp only []
    by_cases hs : (env.mtftp ncall).status = EFI_BUFFER_TOO_SMALL
    · rw [if_pos hs, if_pos hs]
      by_cases ha : env.alloc nalloc = true
      · rw [if_pos ha, if_pos ha]
        exact ih _ _ _ _ _
      · simp only [if_neg ha]
        exact List.prefix_refl _
    · simp only [if_neg hs]
      exact List.prefix_refl _

/-- While every answer is buffer-too-small and every allocation succeeds, the
run does not return. -/
theorem fetch_try_running (env : FetchEnv) (fuel ncall nalloc : Nat) (buf : Buf)
    (bufsiz : Nat) (tr : List Event)
    (hs : ∀ k, k < fuel → (env.mtftp (ncall + k)).status = EFI_BUFFER_TOO_SMALL)
    (ha : ∀ k, env.alloc k = true) :
    FetchNetbootimage_try env fuel ncall nalloc buf bufsiz tr = none := by
  induction fuel generalizing ncall nalloc buf bufsiz tr with
  | zero => rfl
  | succ f ih =>
    rw [FetchNetbootimage_try]
    simp only []
    rw [if_pos (by simpa using hs 0 (by omega)), if_pos (ha nalloc)]
    apply ih
    intro k hk
    have := hs (k + 1) (by omega)
    have e : ncall + (k + 1) = ncall + 1 + k := by omega
    rwa [e] at this

/-- C11, counterexample: with the default 4 MiB buffer and a first answer
buffer-too-small that leaves 1 MiB in `*bufsiz`, the second request is made
with 2 MiB, a smaller capacity; and with a caller-supplied size of `2^63` left
unchanged by the answer, the doubled size wraps to a capacity of 0. -/
theorem C11_capacity_can_shrink :
    (FetchNetbootimage
        (envOfResponses [{ status := EFI_BUFFER_TOO_SMALL, bufsiz := 1048576 },
                         { status := EFI_SUCCESS, bufsiz := 1000000 }]) 2 false 0).map
        (fun r => transfers r.trace) =
      some [(Buf.pool 0, 4194304), (Buf.pool 1, 2097152)] ∧
    2097152 < 4194304 ∧
    (FetchNetbootimage
        (envOfResponses [{ status := EFI_BUFFER_TOO_SMALL, bufsiz := 2 ^ 63 },
                         { status := EFI_SUCCESS, bufsiz := 0 }]) 2 true (2 ^ 63)).map
        (fun r => transfers r.trace) =
      some [(Buf.caller, 2 ^ 63), (Buf.pool 0, 0)] := by
  decide

/-- C11 (amended): whether or not the call ever returns, its first transfer
request is made with the initial capacity (4 MiB, or the size the caller
supplied) and every later request with exactly twice the size the request
before it left in `*bufsiz`, modulo `2^64`; when that size equals the capacity
the request was given, and the capacity is non-zero and below `2^63`, the next
capacity is exactly double and strictly larger.  The requests are those of the
first `fuel` rounds of the retry loop, for every `fuel`: a call that returns
within them made exactly these calls, a call that has not returned made `fuel`
requests, a further round leaves the earlier calls as they are, and the call
does not return as long as every answer is buffer-too-small and every
allocation succeeds. -/
theorem C11_retry_capacity (env : FetchEnv) (fuel : Nat) (supplied : Bool) (bufsiz : Nat) :
    (∀ b c, (transfers (FetchNetbootimage_events env fuel supplied bufsiz)).get? 0 = some (b, c) →
      c = if supplied then bufsiz else 4096 * 1024) ∧
    (∀ k b c b1 c1,
      (transfers (FetchNetbootimage_events env fuel supplied bufsiz)).get? k = some (b, c) →
      (transfers (FetchNetbootimage_events env fuel supplied bufsiz)).get? (k + 1) =
        some (b1, c1) →
      c1 = (env.mtftp k).bufsiz * 2 % 2 ^ 64 ∧
      ((env.mtftp k).bufsiz = c → 0 < c → c < 2 ^ 63 → c1 = 2 * c ∧ c < c1)) ∧
    (∀ res, FetchNetbootimage env fuel supplied bufsiz = some res →
      res.trace = FetchNetbootimage_events env fuel supplied bufsiz) ∧
    (FetchNetbootimage env fuel supplied bufsiz = none →
      (transfers (FetchNetbootimage_events env fuel supplied bufsiz)).length = fuel) ∧
    FetchNetbootimage_events env fuel supplied bufsiz <+:
      FetchNetbootimage_events env (fuel + 1) supplied bufsiz ∧
    ((∀ k, k < fuel → (env.mtftp k).status = EFI_BUFFER_TOO_SMALL) →
      (∀ k, env.alloc k = true) →
      FetchNetbootimage env fuel supplied bufsiz = none) := by
  have hdouble : ∀ (T : List (Buf × Nat)) k b c b1 c1, capacity_chain env T →
      T.get? k = some (b, c) → T.get? (k + 1) = some (b1, c1) →
      c1 = (env.mtftp k).bufsiz * 2 % 2 ^ 64 ∧
      ((env.mtftp k).bufsiz = c → 0 < c → c < 2 ^ 63 → c1 = 2 * c ∧ c < c1) := by
    intro T k b c b1 c1 hch hk hk1
    have e := hch k b c b1 c1 hk hk1
    refine ⟨e, fun heq hpos hlt => ?_⟩
    rw [e, heq, Nat.mod_eq_of_lt (by omega)]
    omega
  have hfirst : ∀ (nalloc : Nat) (buf : Buf) (c0 : Nat) (tr : List Event), transfers tr = [] →
      ∀ b c, (transfers (FetchNetbootimage_try_events env fuel 0 nalloc buf c0 tr)).get? 0 =
        some (b, c) → c = c0 := by
    intro nalloc buf c0 tr htr b c h0
    rcases fetch_events_first env fuel 0 nalloc buf c0 tr with h | ⟨L, h⟩
    · rw [h, htr] at h0
      simp at h0
    · rw [h, htr] at h0
      simp at h0
      exact h0.2.symm
  cases supplied with
  | true =>
    simp only [FetchNetbootimage_events, FetchNetbootimage, if_true]
    refine ⟨hfirst 0 Buf.caller bufsiz [] rfl,
      fun k b c b1 c1 => hdouble _ k b c b1 c1
        (fetch_events_chain env fuel 0 0 Buf.caller bufsiz [] rfl (capacity_chain_single env _)),
      fun res h => fetch_try_agree env fuel 0 0 Buf.caller bufsiz [] res h,
      fun h => ?_, fetch_events_step env fuel 0 0 Buf.caller bufsiz [],
      fun hs ha => fetch_try_running env fuel 0 0 Buf.caller bufsiz []
        (fun k hk => by simpa using hs k hk) ha⟩
    have := fetch_events_running env fuel 0 0 Buf.caller bufsiz [] h
    simpa [transfers] using this
  | false =>
    simp only [FetchNetbootimage_events, FetchNetbootimage, Bool.false_eq_true, if_false]
    by_cases ha0 : env.alloc 0 = true
    · simp only [ha0, if_true]
      refine ⟨hfirst 1 (Buf.pool 0) (4096 * 1024) _ rfl,
        fun k b c b1 c1 => hdouble _ k b c b1 c1
          (fetch_events_chain env fuel 0 1 (Buf.pool 0) (4096 * 1024) _ rfl
            (capacity_chain_single env _)),
        fun res h => fetch_try_agree env fuel 0 1 (Buf.pool 0) (4096 * 1024) _ res h,
        fun h => ?_, fetch_events_step env fuel 0 1 (Buf.pool 0) (4096 * 1024) _,
        fun hs ha => fetch_try_running env fuel 0 1 (Buf.pool 0) (4096 * 1024) _
          (fun k hk => by simpa using hs k hk) ha⟩
      have := fetch_events_running env fuel 0 1 (Buf.pool 0) (4096 * 1024) _ h
      simpa [transfers] using this
    · simp only [ha0, if_false]
      refine ⟨fun b c h0 => ?_, fun k b c b1 c1 hk => ?_, fun res h => ?_, fun h => ?_,
        List.prefix_refl _, fun _ ha => absurd (ha 0) ha0⟩
      · simp [transfers] at h0
      · simp [transfers] at hk
      · cases h
        rfl
      · cases h

/-- C11 (amended) at the default buffer: with two buffer-too-small answers that
leave the size unchanged and then success, the capacities are 4 MiB, 8 MiB,
16 MiB; with answers that are buffer-too-small for ever, leaving 4 MiB, the call
has not returned after three rounds and the capacities were 4 MiB, 8 MiB,
8 MiB. -/
theorem C11_retry_capacity_witness :
    transfers (FetchNetbootimage_events
        (envOfResponses [{ status := EFI_BUFFER_TOO_SMALL, bufsiz := 4194304 },
                         { status := EFI_BUFFER_TOO_SMALL, bufsiz := 8388608 },
                         { status := EFI_SUCCESS, bufsiz := 9000000 }]) 3 false 0) =
      [(Buf.pool 0, 4194304), (Buf.pool 1, 8388608), (Buf.pool 2, 16777216)] ∧
    4194304 = (if false = true then 0 else 4096 * 1024) ∧
    (16777216 = 8388608 * 2 % 2 ^ 64 ∧
      (8388608 = 8388608 → 0 < 8388608 → 8388608 < 2 ^ 63 →
        16777216 = 2 * 8388608 ∧ 8388608 < 16777216)) ∧
    (FetchResult.mk EFI_SUCCESS (some (Buf.pool 2)) 9000000
        [Event.alloc 4194304 true, Event.mtftp (Buf.pool 0) 4194304,
         Event.free (Buf.pool 0), Event.alloc 8388608 true,
         Event.mtftp (Buf.pool 1) 8388608,
         Event.free (Buf.pool 1), Event.alloc 16777216 true,
         Event.mtftp (Buf.pool 2) 16777216]).trace =
      FetchNetbootimage_events
        (envOfResponses [{ status := EFI_BUFFER_TOO_SMALL, bufsiz := 4194304 },
                         { status := EFI_BUFFER_TOO_SMALL, bufsiz := 8388608 },
                         { status := EFI_SUCCESS, bufsiz := 9000000 }]) 3 false 0 ∧
    FetchNetbootimage (fetchEnvTooSmall 4194304) 3 false 0 = none ∧
    (transfers (FetchNetbootimage_events (fetchEnvTooSmall 4194304) 3 false 0)).length = 3 ∧
    transfers (FetchNetbootimage_events (fetchEnvTooSmall 4194304) 3 false 0) =
      [(Buf.pool 0, 4194304), (Buf.pool 1, 8388608), (Buf.pool 2, 8388608)] :=
  ⟨by decide,
   (C11_retry_capacity
      (envOfResponses [{ status := EFI_BUFFER_TOO_SMALL, bufsiz := 4194304 },
                       { status := EFI_BUFFER_TOO_SMALL, bufsiz := 8388608 },
                       { status := EFI_SUCCESS, bufsiz := 9000000 }]) 3 false 0).1
      (Buf.pool 0) 4194304 (by decide),
   (C11_retry_capacity
      (envOfResponses [{ status := EFI_BUFFER_TOO_SMALL, bufsiz := 4194304 },
                       { status := EFI_BUFFER_TOO_SMALL, bufsiz := 8388608 },
                       { status := EFI_SUCCESS, bufsiz := 9000000 }]) 3 false 0).2.1
      1 (Buf.pool 1) 8388608 (Buf.pool 2) 16777216 (by decide) (by decide),
   (C11_retry_capacity
      (envOfResponses [{ status := EFI_BUFFER_TOO_SMALL, bufsiz := 4194304 },
                       { status := EFI_BUFFER_TOO_SMALL, bufsiz := 8388608 },
                       { status := EFI_SUCCESS, bufsiz := 9000000 }]) 3 false 0).2.2.1
      _ (by decide),
   (C11_retry_capacity (fetchEnvTooSmall 4194304) 3 false 0).2.2.2.2.2
      (fun _ _ => rfl) (fun _ => rfl),
   (C11_retry_capacity (fetchEnvTooSmall 4194304) 3 false 0).2.2.2.1 (by decide),
   by decide⟩

/-! ## Failures and releases in FetchNetbootimage -/

theorem get?_snoc_cases {α : Type} (L : List α) (x y : α) (k : Nat)
    (h : (L ++ [x]).get? k = some y) :
    (k < L.length ∧ L.get? k = some y) ∨ (k = L.length ∧ y = x) := by
  rcases Nat.lt_or_ge k L.length with hlt | hge
  · left
    refine ⟨hlt, ?_⟩
    simpa [List.getElem?_append_left hlt] using h
  · right
    rcases Nat.lt_or_ge L.length k with hgt | hle
    · rw [List.get?_eq_none.mpr (by simp; omega)] at h; cases h
    · have hk : k = L.length := by omega
      subst hk
      simp at h
      exact ⟨rfl, h.symm⟩

theorem EFI_OUT_OF_RESOURCES_ne_SUCCESS : EFI_OUT_OF_RESOURCES ≠ EFI_SUCCESS := by decide

/-- What a run from `try_again` on guarantees about its result, given what the
calls made before it established. -/
theorem fetch_try_release (env : FetchEnv) (fuel ncall nalloc : Nat) (buf : Buf) (bufsiz : Nat)
    (tr : List Event) (res : FetchResult)
    (h : FetchNetbootimage_try env fuel ncall nalloc buf bufsiz tr = some res)
    (hlen : (transfers tr).length = ncall)
    (hprev : ∀ k, k < ncall → (env.mtftp k).status = EFI_BUFFER_TOO_SMALL)
    (hnd : (frees tr).Nodup)
    (hbuf : buf ∉ frees tr)
    (hold : ∀ b ∈ frees tr, b = Buf.caller ∨ ∃ j, j < nalloc ∧ b = Buf.pool j)
    (hcur : buf = Buf.caller ∨ ∃ j, j < nalloc ∧ buf = Buf.pool j)
    (hok : ∀ sz, Event.alloc sz false ∉ tr) :
    ((∃ sz, Event.alloc sz false ∈ res.trace) → res.rc = EFI_OUT_OF_RESOURCES) ∧
    (frees res.trace).Nodup ∧
    (res.rc = EFI_SUCCESS → ∃ b, res.buffer = some b ∧ b ∉ frees res.trace) ∧
    (∀ k b c, (transfers res.trace).get? k = some (b, c) →
      (env.mtftp k).status ≠ EFI_SUCCESS → (env.mtftp k).status ≠ EFI_BUFFER_TOO_SMALL →
      res.rc = (env.mtftp k).status ∧ (frees res.trace).count b = 1) := by
  induction fuel generalizing ncall nalloc buf bufsiz tr with
  | zero => simp [FetchNetbootimage_try] at h
  | succ f ih =>
    rw [FetchNetbootimage_try] at h
    simp only [] at h
    have ht1 : transfers (tr ++ [Event.mtftp buf bufsiz]) = transfers tr ++ [(buf, bufsiz)] := by
      rw [transfers_append]; rfl
    have hf1 : frees (tr ++ [Event.mtftp buf bufsiz]) = frees tr := by
      rw [frees_append]; simp [frees]
    have hnd1 : (frees tr ++ [buf]).Nodup := by
      rw [List.nodup_append]
      refine ⟨hnd, List.nodup_singleton _, ?_⟩
      intro a ha hb
      simp at hb
      subst hb
      exact hbuf ha
    have hcount : (frees tr ++ [buf]).count buf = 1 := by
      rw [List.count_append, List.count_eq_zero_of_not_mem hbuf]
      simp
    by_cases hs : (env.mtftp ncall).status = EFI_BUFFER_TOO_SMALL
    · rw [if_pos hs] at h
      by_cases ha : env.alloc nalloc = true
      · rw [if_pos ha] at h
        have hf2 : frees (tr ++ [Event.mtftp buf bufsiz] ++
            [Event.free buf, Event.alloc ((env.mtftp ncall).bufsiz * 2 % 2 ^ 64) true]) =
            frees tr ++ [buf] := by
          rw [frees_append, hf1]; simp [frees]
        have ht2 : transfers (tr ++ [Event.mtftp buf bufsiz] ++
            [Event.free buf, Event.alloc ((env.mtftp ncall).bufsiz * 2 % 2 ^ 64) true]) =
            transfers tr ++ [(buf, bufsiz)] := by
          rw [transfers_append, ht1]; simp [transfers]
        apply ih (ncall + 1) (nalloc + 1) _ _ _ h
        · rw [ht2]; simp [hlen]
        · intro k hk
          rcases Nat.lt_or_ge k ncall with h1 | h1
          · exact hprev k h1
          · have : k = ncall := by omega
            rw [this]; exact hs
        · rw [hf2]; exact hnd1
        · rw [hf2]
          intro hmem
          rcases List.mem_append.mp hmem with h1 | h1
          · rcases hold _ h1 with h2 | ⟨j, hj, h2⟩
            · cases h2
            · cases h2; omega
          · simp at h1
            rcases hcur with h2 | ⟨j, hj, h2⟩
            · rw [h2] at h1; cases h1
            · rw [h2] at h1; cases h1; omega
        · rw [hf2]
          intro b hb
          rcases List.mem_append.mp hb with h1 | h1
          · rcases hold _ h1 with h2 | ⟨j, hj, h2⟩
            · exact Or.inl h2
            · exact Or.inr ⟨j, by omega, h2⟩
          · simp at h1
            rw [h1]
            rcases hcur with h2 | ⟨j, hj, h2⟩
            · exact Or.inl h2
            · exact Or.inr ⟨j, by omega, h2⟩
        · exact Or.inr ⟨nalloc, by omega, rfl⟩
        · intro sz hmem
          rcases List.mem_append.mp hmem with h1 | h1
          · rcases List.mem_append.mp h1 with h2 | h2
            · exact hok sz h2
            · simp at h2
          · simp at h1
      · rw [if_neg ha] at h
        cases h
        simp only []
        have hf2 : frees (tr ++ [Event.mtftp buf bufsiz] ++
            [Event.free buf, Event.alloc ((env.mtftp ncall).bufsiz * 2 % 2 ^ 64) false]) =
            frees tr ++ [buf] := by
          rw [frees_append, hf1]; simp [frees]
        have ht2 : transfers (tr ++ [Event.mtftp buf bufsiz] ++
            [Event.free buf, Event.alloc ((env.mtftp ncall).bufsiz * 2 % 2 ^ 64) false]) =
            transfers tr ++ [(buf, bufsiz)] := by
          rw [transfers_append, ht1]; simp [transfers]
        refine ⟨fun _ => trivial, by rw [hf2]; exact hnd1,
          fun hrc => absurd hrc EFI_OUT_OF_RESOURCES_ne_SUCCESS, ?_⟩
        intro k b c hk hne1 hne2
        rw [ht2] at hk
        rcases get?_snoc_cases _ _ _ _ hk with ⟨hlt, _⟩ | ⟨heq, _⟩
        · exact absurd (hprev k (by omega)) hne2
        · rw [heq, hlen] at hne2
          exact absurd hs hne2
    · rw [if_neg hs] at h
      by_cases hst : (env.mtftp ncall).status ≠ EFI_SUCCESS
      · rw [if_pos hst] at h
        cases h
        simp only []
        have hf2 : frees (tr ++ [Event.mtftp buf bufsiz] ++ [Event.free buf]) =
            frees tr ++ [buf] := by
          rw [frees_append, hf1]; simp [frees]
        have ht2 : transfers (tr ++ [Event.mtftp buf bufsiz] ++ [Event.free buf]) =
            transfers tr ++ [(buf, bufsiz)] := by
          rw [transfers_append, ht1]; simp [transfers]
        refine ⟨?_, by rw [hf2]; exact hnd1, fun hrc => absurd hrc hst, ?_⟩
        · rintro ⟨sz, hmem⟩
          exfalso
          rcases List.mem_append.mp hmem with h1 | h1
          · rcases List.mem_append.mp h1 with h2 | h2
            · exact hok sz h2
            · simp at h2
          · simp at h1
        · intro k b c hk hne1 hne2
          rw [ht2] at hk
          rcases get?_snoc_cases _ _ _ _ hk with ⟨hlt, _⟩ | ⟨heq, hval⟩
          · exact absurd (hprev k (by omega)) hne2
          · have hkn : k = ncall := by omega
            cases hval
            rw [hkn, hf2]
            exact ⟨rfl, hcount⟩
      · rw [if_neg hst] at h
        cases h
        simp only []
        have hsucc : (env.mtftp ncall).status = EFI_SUCCESS := by
          by_contra hc; exact hst hc
        refine ⟨?_, by rw [hf1]; exact hnd, fun _ => ⟨buf, rfl, by rw [hf1]; exact hbuf⟩, ?_⟩
        · rintro ⟨sz, hmem⟩
          exfalso
          rcases List.mem_append.mp hmem with h2 | h2
          · exact hok sz h2
          · simp at h2
        · intro k b c hk hne1 hne2
          rw [ht1] at hk
          rcases get?_snoc_cases _ _ _ _ hk with ⟨hlt, _⟩ | ⟨heq, _⟩
          · exact absurd (hprev k (by omega)) hne2
          · rw [heq, hlen] at hne1
            exact absurd hsucc hne1

/-- A run from `try_again` on returns once an answer is not buffer-too-small
or a reallocation fails within its fuel. -/
theorem fetch_try_returns (env : FetchEnv) (fuel ncall nalloc : Nat) (buf : Buf) (bufsiz : Nat)
    (tr : List Event) (k : Nat) (hk : ncall ≤ k) (hkf : k < ncall + fuel)
    (hend : (env.mtftp k).status ≠ EFI_BUFFER_TOO_SMALL ∨
      env.alloc (nalloc + (k - ncall)) = false) :
    (FetchNetbootimage_try env fuel ncall nalloc buf bufsiz tr).isSome = true := by
  induction fuel generalizing ncall nalloc buf bufsiz tr with
  | zero => omega
  | succ f ih =>
    rw [FetchNetbootimage_try]
    simp only []
    by_cases hs : (env.mtftp ncall).status = EFI_BUFFER_TOO_SMALL
    · rw [if_pos hs]
      by_cases ha : env.alloc nalloc = true
      · rw [if_pos ha]
        have hne : k ≠ ncall := by
          intro he
          subst he
          rcases hend with h1 | h1
          · exact h1 hs
          · simp at h1; rw [h1] at ha; cases ha
        apply ih (ncall + 1) (nalloc + 1) _ _ _ (by omega) (by omega)
        have e : nalloc + 1 + (k - (ncall + 1)) = nalloc + (k - ncall) := by omega
        rw [e]
        exact hend
      · rw [if_neg ha]; rfl
    · rw [if_neg hs]
      by_cases hst : (env.mtftp ncall).status ≠ EFI_SUCCESS
      · rw [if_pos hst]; rfl
      · rw [if_neg hst]; rfl

/-- C15: the call returns as soon as, within its fuel, a transfer answer is
not buffer-too-small or an allocation fails; and whenever it returns: a failed
allocation means the status is `EFI_OUT_OF_RESOURCES`; a transfer answer other
than success and buffer-too-small is the status returned, with the buffer of
that request released exactly once; no buffer is released twice; and on
success the buffer returned has not been released. -/
theorem C15_fetch_failures_and_releases (env : FetchEnv) (fuel : Nat) (supplied : Bool)
    (bufsiz : Nat) :
    (((∃ k, k < fuel ∧ ((env.mtftp k).status ≠ EFI_BUFFER_TOO_SMALL ∨
          env.alloc (k + (if supplied then 0 else 1)) = false)) ∨
        (supplied = false ∧ env.alloc 0 = false)) →
      (FetchNetbootimage env fuel supplied bufsiz).isSome = true) ∧
    (∀ res, FetchNetbootimage env fuel supplied bufsiz = some res →
      ((∃ sz, Event.alloc sz false ∈ res.trace) → res.rc = EFI_OUT_OF_RESOURCES) ∧
      (frees res.trace).Nodup ∧
      (res.rc = EFI_SUCCESS → ∃ b, res.buffer = some b ∧ b ∉ frees res.trace) ∧
      (∀ k b c, (transfers res.trace).get? k = some (b, c) →
        (env.mtftp k).status ≠ EFI_SUCCESS → (env.mtftp k).status ≠ EFI_BUFFER_TOO_SMALL →
        res.rc = (env.mtftp k).status ∧ (frees res.trace).count b = 1)) := by
  constructor
  · intro hret
    unfold FetchNetbootimage
    cases supplied with
    | true =>
      simp only [if_true]
      rcases hret with ⟨k, hk, hend⟩ | ⟨h1, _⟩
      · exact fetch_try_returns env fuel 0 0 _ _ _ k (by omega) (by omega) (by simpa using hend)
      · cases h1
    | false =>
      simp only [Bool.false_eq_true, if_false]
      by_cases ha : env.alloc 0 = true
      · rw [if_pos ha]
        rcases hret with ⟨k, hk, hend⟩ | ⟨_, h2⟩
        · refine fetch_try_returns env fuel 0 1 _ _ _ k (by omega) (by omega) ?_
          have e : 1 + (k - 0) = k + 1 := by omega
          rw [e]
          simpa using hend
        · rw [h2] at ha; cases ha
      · rw [if_neg ha]; rfl
  · intro res h
    unfold FetchNetbootimage at h
    cases supplied with
    | true =>
      simp only [if_true] at h
      exact fetch_try_release env fuel 0 0 Buf.caller bufsiz [] res h rfl
        (fun k hk => by omega) (by simp [frees]) (by simp [frees]) (by simp [frees])
        (Or.inl rfl) (by simp)
    | false =>
      simp only [Bool.false_eq_true, if_false] at h
      by_cases ha : env.alloc 0 = true
      · rw [if_pos ha] at h
        exact fetch_try_release env fuel 0 1 (Buf.pool 0) (4096 * 1024) _ res h rfl
          (fun k hk => by omega) (by simp [frees]) (by simp [frees]) (by simp [frees])
          (Or.inr ⟨0, by omega, rfl⟩) (by simp)
      · rw [if_neg ha] at h
        cases h
        refine ⟨fun _ => rfl, by simp [frees],
          fun hrc => absurd hrc EFI_OUT_OF_RESOURCES_ne_SUCCESS, ?_⟩
        intro k b c hk
        simp [transfers] at hk

/-- C15 at a first answer `EFI_NOT_FOUND` on the default buffer: the call
returns that status and the buffer is released once. -/
theorem C15_fetch_failures_and_releases_witness :
    (FetchNetbootimage (envOfResponses [{ status := EFI_NOT_FOUND, bufsiz := 0 }]) 1 false 0).isSome
      = true ∧
    FetchNetbootimage (envOfResponses [{ status := EFI_NOT_FOUND, bufsiz := 0 }]) 1 false 0 =
      some { rc := EFI_NOT_FOUND, buffer := some (Buf.pool 0), bufsiz := 0
             trace := [Event.alloc 4194304 true, Event.mtftp (Buf.pool 0) 4194304,
                       Event.free (Buf.pool 0)] } ∧
    (EFI_NOT_FOUND = EFI_NOT_FOUND ∧ [Buf.pool 0].count (Buf.pool 0) = 1) :=
  ⟨(C15_fetch_failures_and_releases (envOfResponses [{ status := EFI_NOT_FOUND, bufsiz := 0 }])
      1 false 0).1 (Or.inl ⟨0, by decide, Or.inl (by decide)⟩),
   by decide,
   ((C15_fetch_failures_and_releases (envOfResponses [{ status := EFI_NOT_FOUND, bufsiz := 0 }])
      1 false 0).2
      { rc := EFI_NOT_FOUND, buffer := some (Buf.pool 0), bufsiz := 0
        trace := [Event.alloc 4194304 true, Event.mtftp (Buf.pool 0) 4194304,
                  Event.free (Buf.pool 0)] }
      (by decide)).2.2.2 0 (Buf.pool 0) 4194304 rfl (by decide) (by decide)⟩

/-! ## The indices str2ip6 writes -/

theorem getD_append_add (pre l : List Nat) (k : Nat) :
    (pre ++ l).getD (pre.length + k) 0 = l.getD k 0 := by
  induction pre with
  | nil => simp
  | cons x pre ih =>
    have : (x :: pre).length + k = (pre.length + k) + 1 := by simp; omega
    rw [List.cons_append, this, List.getD_cons_succ, ih]

theorem getD_append_length (pre l : List Nat) :
    (pre ++ l).getD pre.length 0 = l.getD 0 0 := by
  simpa using getD_append_add pre l 0

theorem store_writes (s : Ip6) (p v : Nat) (h : ∀ w ∈ s.writes, w < 8) (hp : p < 8) :
    ∀ w ∈ (s.store p v).writes, w < 8 := by
  intro w hw
  simp only [Ip6.store, List.mem_append, List.mem_singleton] at hw
  rcases hw with h1 | h1
  · exact h w h1
  · omega

/-- The first loop over the rest `suf` of the text: where it stops, and that
its writes stay in range when the colons up to the stop are few enough. -/
theorem front_stop_writes (rest str : List Nat) (len : Nat) :
    ∀ (suf pre : List Nat) (p a : Nat) (s : Ip6),
      str = pre ++ (suf ++ 0 :: rest) → len = pre.length + suf.length →
      (str2ip6_front str len suf.length pre.length p a s).1 = pre.length + colon_stop suf ∧
      (p + (suf.take (colon_stop suf + 1)).count 58 ≤ 8 → (∀ w ∈ s.writes, w < 8) →
        ∀ w ∈ (str2ip6_front str len suf.length pre.length p a s).2.writes, w < 8) := by
  intro suf
  induction suf with
  | nil =>
    intro pre p a s _ _
    simp [str2ip6_front, colon_stop]
  | cons c suf ih =>
    intro pre p a s hstr hlen
    have hi : pre.length < len := by simp at hlen; omega
    have hc : str.getD pre.length 0 = c := by
      rw [hstr, getD_append_length]; rfl
    have hnext : str.getD (pre.length + 1) 0 = (suf ++ 0 :: rest).getD 0 0 := by
      rw [hstr, getD_append_add]; rfl
    have hstr2 : str = (pre ++ [c]) ++ (suf ++ 0 :: rest) := by rw [hstr]; simp
    have hlen2 : len = (pre ++ [c]).length + suf.length := by simp at hlen ⊢; omega
    have hpl : (pre ++ [c]).length = pre.length + 1 := by simp
    simp only [List.length_cons]
    rw [str2ip6_front, if_pos hi, hc]
    by_cases h58 : c = 58
    · have hnn : ¬ (c ≠ 58) := fun h => h h58
      rw [if_neg hnn]
      simp only []
      by_cases hd : suf.head? = some 58
      · have hbreak : str.getD (pre.length + 1) 0 = 58 := by
          rw [hnext]
          cases suf with
          | nil => simp at hd
          | cons d suf => simp at hd; simp [hd]
        rw [if_pos hbreak]
        have hcs : colon_stop (c :: suf) = 0 := by
          rw [colon_stop, if_pos ⟨h58, hd⟩]
        rw [hcs]
        refine ⟨rfl, fun hcount hw => ?_⟩
        apply store_writes _ _ _ hw
        simp [h58] at hcount
        omega
      · have hcont : ¬ str.getD (pre.length + 1) 0 = 58 := by
          rw [hnext]
          cases suf with
          | nil => simp
          | cons d suf => simpa using hd
        rw [if_neg hcont]
        have hcs : colon_stop (c :: suf) = colon_stop suf + 1 := by
          rw [colon_stop, if_neg (fun h => hd h.2)]
        have := ih (pre ++ [c]) ((p + 1) % 256) (pre.length + 1)
          (s.store p (str2ns (str.set pre.length 0) a)) hstr2 hlen2
        rw [hpl] at this
        rw [hcs]
        refine ⟨by rw [this.1]; omega, fun hcount hw => ?_⟩
        have hcnt : (List.take (colon_stop suf + 1 + 1) (c :: suf)).count 58 =
            (List.take (colon_stop suf + 1) suf).count 58 + 1 := by
          rw [List.take_succ_cons, h58, List.count_cons_self]
        rw [hcnt] at hcount
        have hp8 : p < 8 := by omega
        apply this.2
        · rw [Nat.mod_eq_of_lt (by omega)]; omega
        · exact store_writes _ _ _ hw hp8
    · rw [if_pos h58]
      have hcs : colon_stop (c :: suf) = colon_stop suf + 1 := by
        rw [colon_stop, if_neg (fun h => h58 h.1)]
      have := ih (pre ++ [c]) p a s hstr2 hlen2
      rw [hpl] at this
      rw [hcs]
      refine ⟨by rw [this.1]; omega, fun hcount hw => ?_⟩
      have hcnt : (List.take (colon_stop suf + 1 + 1) (c :: suf)).count 58 =
          (List.take (colon_stop suf + 1) suf).count 58 := by
        rw [List.take_succ_cons, List.count_cons_of_ne (fun h => h58 h.symm)]
      rw [hcnt] at hcount
      exact this.2 hcount hw

/-- The second loop standing at the last character of `Z`, the part of the
text it still has to pass: its writes stay in range when the colons of `Z`
are few enough. -/
theorem back_writes (str : List Nat) (i0 : Nat) :
    ∀ (Z X W : List Nat) (fuel p b : Nat) (s : Ip6),
      str = X ++ (Z ++ W) → X.length = i0 + 1 →
      (Z.count 58 = 0 ∨ (Z.count 58 ≤ p + 1 ∧ p < 8)) → (∀ w ∈ s.writes, w < 8) →
      ∀ w ∈ (str2ip6_back str i0 fuel (i0 + Z.length) p b s).writes, w < 8 := by
  intro Z
  induction Z using List.reverseRecOn with
  | nil =>
    intro X W fuel p b s _ _ _ hw
    cases fuel with
    | zero => simpa [str2ip6_back] using hw
    | succ f => simpa [str2ip6_back] using hw
  | append_singleton Z c ih =>
    intro X W fuel p b s hstr hX hcount hw
    cases fuel with
    | zero => simpa [str2ip6_back] using hw
    | succ f =>
      have hj : i0 + (Z ++ [c]).length > i0 := by simp
      have hjm : i0 + (Z ++ [c]).length - 1 = i0 + Z.length := by
        rw [List.length_append, List.length_singleton]; omega
      have hc : str.getD (i0 + (Z ++ [c]).length) 0 = c := by
        have e : str = (X ++ Z) ++ (c :: W) := by rw [hstr]; simp
        have e2 : i0 + (Z ++ [c]).length = (X ++ Z).length := by simp [hX]; omega
        rw [e, e2, getD_append_length]; rfl
      have hstr2 : str = X ++ (Z ++ (c :: W)) := by rw [hstr]; simp
      rw [str2ip6_back, if_pos hj, hc, hjm]
      by_cases h58 : c = 58
      · have hnn : ¬ (c ≠ 58) := fun h => h h58
        rw [if_neg hnn]
        simp only []
        have hcnt : (Z ++ [c]).count 58 = Z.count 58 + 1 := by
          rw [List.count_append, h58]; simp
        rw [hcnt] at hcount
        have hp8 : p < 8 := by omega
        apply ih X (c :: W) f _ _ _ hstr2 hX _ (store_writes _ _ _ hw hp8)
        rcases Nat.eq_zero_or_pos p with hp0 | hpos
        · left; omega
        · right
          have e : (p + 255) % 256 = p - 1 := by omega
          rw [e]; omega
      · rw [if_pos h58]
        have hcnt : (Z ++ [c]).count 58 = Z.count 58 := by
          have h0 : [c].count 58 = 0 :=
            List.count_eq_zero_of_not_mem (by simp; exact fun h => h58 h.symm)
          rw [List.count_append, h0]; rfl
        rw [hcnt] at hcount
        exact ih X (c :: W) f p b s hstr2 hX hcount hw

theorem front_ip_length (str : List Nat) (len : Nat) :
    ∀ (fuel i p a : Nat) (s : Ip6),
      (str2ip6_front str len fuel i p a s).2.ip.length = s.ip.length := by
  intro fuel
  induction fuel with
  | zero => intro i p a s; rfl
  | succ f ih =>
    intro i p a s
    rw [str2ip6_front]
    split
    · split
      · exact ih _ _ _ _
      · simp only []
        split
        · simp [Ip6.store]
        · rw [ih]; simp [Ip6.store]
    · rfl

theorem back_ip_length (str : List Nat) (i0 : Nat) :
    ∀ (fuel j p b : Nat) (s : Ip6),
      (str2ip6_back str i0 fuel j p b s).ip.length = s.ip.length := by
  intro fuel
  induction fuel with
  | zero => intro j p b s; rfl
  | succ f ih =>
    intro j p b s
    rw [str2ip6_back]
    split
    · split
      · exact ih _ _ _ _
      · simp only []
        rw [ih]; simp [Ip6.store]
    · rfl

theorem colon_stop_le (l : List Nat) : colon_stop l ≤ l.length := by
  induction l with
  | nil => simp [colon_stop]
  | cons c l ih =>
    rw [colon_stop]
    split
    · omega
    · simp; omega

/-- The writes of `str2ip6` on a text followed by its NUL, given bounds on the
colons before and after the place where the first loop stops. -/
theorem str2ip6_writes (text rest : List Nat) (htext : ∀ c ∈ text, c ≠ 0)
    (hfront : (text.take (colon_stop text + 1)).count 58 ≤ 8)
    (hback : (text.drop (colon_stop text + 1)).count 58 ≤ 8) :
    ∀ w ∈ (str2ip6 (text ++ 0 :: rest)).writes, w < 8 := by
  have hlen : (cstr (text ++ 0 :: rest) 0).length = text.length := by
    rw [cstr_string text rest htext]
  have hf := front_stop_writes rest (text ++ 0 :: rest) text.length text [] 0 0
    { ip := List.replicate 8 0, writes := [], fault := false } (by simp) (by simp)
  simp only [List.length_nil, Nat.zero_add] at hf
  have hfw := hf.2 (by omega) (by simp)
  unfold str2ip6
  simp only [hlen]
  rw [hf.1]
  generalize (str2ip6_front (text ++ 0 :: rest) text.length text.length 0 0 0
    { ip := List.replicate 8 0, writes := [], fault := false }).2 = s1 at hfw
  rcases Nat.lt_or_ge (colon_stop text) text.length with hlt | hge
  · obtain ⟨n, hn⟩ : ∃ n, text.length = n + 1 := ⟨text.length - 1, by omega⟩
    have hnul : (text ++ 0 :: rest).getD text.length 0 = 0 := by
      rw [getD_append_length]; rfl
    have hstep : str2ip6_back (text ++ 0 :: rest) (colon_stop text) text.length text.length 7
        text.length s1 =
        str2ip6_back (text ++ 0 :: rest) (colon_stop text) n (text.length - 1) 7
          text.length s1 := by
      conv_lhs => rw [hn, str2ip6_back]
      rw [← hn, if_pos hlt, hnul, if_pos (by norm_num)]
    rw [hstep]
    have hj : text.length - 1 = colon_stop text + (text.drop (colon_stop text + 1)).length := by
      rw [List.length_drop]; omega
    rw [hj]
    refine back_writes (text ++ 0 :: rest) (colon_stop text) (text.drop (colon_stop text + 1))
      (text.take (colon_stop text + 1)) (0 :: rest) n 7 text.length s1 ?_ ?_ ?_ hfw
    · rw [← List.append_assoc, List.take_append_drop]
    · rw [List.length_take]; omega
    · right; omega
  · have hback0 : str2ip6_back (text ++ 0 :: rest) (colon_stop text) text.length text.length 7
        text.length s1 = s1 := by
      cases hl : text.length with
      | zero => rfl
      | succ n =>
        rw [str2ip6_back, if_neg (by omega)]
    rw [hback0]
    exact hfw

/-- C17, counterexample: the 18-character text `:1:1:1:1:1:1:1:1:1` has nine
colons and no `::`, so the front index reaches 8 and `ip[8]` is written; the
19-character text `::1:1:1:1:1:1:1:1:1` has nine colons after the first one,
so the back index wraps below 0 and index 255 is written. -/
theorem C17_write_outside_array :
    (chars ":1:1:1:1:1:1:1:1:1").length ≤ 39 ∧
    (str2ip6 (ip6str (chars ":1:1:1:1:1:1:1:1:1"))).writes = [0, 1, 2, 3, 4, 5, 6, 7, 8] ∧
    (chars "::1:1:1:1:1:1:1:1:1").length ≤ 39 ∧
    (str2ip6 (ip6str (chars "::1:1:1:1:1:1:1:1:1"))).writes =
      [0, 7, 6, 5, 4, 3, 2, 1, 0, 255] := by
  decide

/-- C17 (amended): for a text followed by its NUL in which at most 8 colons
occur up to and including the first colon directly followed by another colon
(all its colons when there is no such pair) and at most 8 colons occur after
it, every write `str2ip6` makes to `ip` uses an index in 0..7; so for every
text with at most 8 colons.  The array keeps its 8 groups whatever the
text. -/
theorem C17_writes_in_range (text rest : List Nat) (htext : ∀ c ∈ text, c ≠ 0) :
    ((text.take (colon_stop text + 1)).count 58 ≤ 8 →
      (text.drop (colon_stop text + 1)).count 58 ≤ 8 →
      ∀ w ∈ (str2ip6 (text ++ 0 :: rest)).writes, w < 8) ∧
    (text.count 58 ≤ 8 → ∀ w ∈ (str2ip6 (text ++ 0 :: rest)).writes, w < 8) ∧
    (str2ip6 (text ++ 0 :: rest)).ip.length = 8 := by
  refine ⟨str2ip6_writes text rest htext, fun h => ?_, ?_⟩
  · apply str2ip6_writes text rest htext
    · exact le_trans ((List.take_sublist _ _).count_le 58) h
    · exact le_trans ((List.drop_sublist _ _).count_le 58) h
  · unfold str2ip6
    simp only []
    rw [back_ip_length, front_ip_length]
    simp

/-- C17 (amended) at `1:2::3`, whose three colons are written at indices 0, 1
and 7. -/
theorem C17_writes_in_range_witness :
    (∀ w ∈ (str2ip6 (chars "1:2::3" ++ 0 :: [])).writes, w < 8) ∧
    (str2ip6 (chars "1:2::3" ++ 0 :: [])).writes = [0, 1, 7] ∧
    (str2ip6 (chars "1:2::3" ++ 0 :: [])).ip.length = 8 :=
  ⟨(C17_writes_in_range (chars "1:2::3") [] (by decide)).2.1 (by decide), by decide,
   (C17_writes_in_range (chars "1:2::3") [] (by decide)).2.2⟩

/-! ## str2ip6 on a literal with one `::` -/

theorem str2ns_loop_stop (g X : List Nat) (r : Nat) (hg : ∀ c ∈ g, c ≠ 0) :
    str2ns_loop (g ++ 0 :: X) r = str2ns_loop (g ++ [0]) r := by
  induction g generalizing r with
  | nil => simp [str2ns_loop]
  | cons c g ih =>
    have hc := hg c (by simp)
    simp only [List.cons_append]
    rw [str2ns_loop, str2ns_loop, if_neg hc, if_neg hc, ih _ (fun x hx => hg x (by simp [hx]))]

/-- `str2ns` called on a group whose following character has been replaced by
a NUL returns the value of the group. -/
theorem str2ns_set_group (pre g T : List Nat) (c : Nat) (hg : ∀ x ∈ g, x ≠ 0) :
    str2ns ((pre ++ (g ++ c :: T)).set (pre.length + g.length) 0) pre.length = group_value g := by
  have e : (pre ++ (g ++ c :: T)).set (pre.length + g.length) 0 = pre ++ (g ++ 0 :: T) := by
    have e1 : pre ++ (g ++ c :: T) = (pre ++ g) ++ c :: T := by simp
    have e2 : pre.length + g.length = (pre ++ g).length := by simp
    rw [e1, e2, List.set_append_right _ _ (le_refl _)]
    simp
  rw [e]
  unfold group_value str2ns
  rw [List.drop_left, List.drop_zero, str2ns_loop_stop g T 0 hg]

/-- The first loop passes over characters that are not colons. -/
theorem front_skip (str : List Nat) (len : Nat) :
    ∀ (g pre T : List Nat) (fuel p a : Nat) (s : Ip6),
      str = pre ++ (g ++ T) → (∀ c ∈ g, c ≠ 58) → pre.length + g.length ≤ len →
      str2ip6_front str len (fuel + g.length) pre.length p a s =
        str2ip6_front str len fuel (pre.length + g.length) p a s := by
  intro g
  induction g with
  | nil => intro pre T fuel p a s _ _ _; rfl
  | cons c g ih =>
    intro pre T fuel p a s hstr hg hlen
    have hc : str.getD pre.length 0 = c := by
      rw [hstr, getD_append_length]; rfl
    have hi : pre.length < len := by simp at hlen; omega
    have hstr2 : str = (pre ++ [c]) ++ (g ++ T) := by rw [hstr]; simp
    have := ih (pre ++ [c]) T fuel p a s hstr2 (fun x hx => hg x (by simp [hx]))
      (by simp at hlen ⊢; omega)
    have e1 : fuel + (c :: g).length = (fuel + g.length) + 1 := by simp; omega
    have e2 : (pre ++ [c]).length = pre.length + 1 := by simp
    have e3 : pre.length + (c :: g).length = pre.length + 1 + g.length := by simp; omega
    rw [e1, str2ip6_front, if_pos hi, hc, if_pos (hg c (by simp)), e3]
    rw [e2] at this
    exact this

/-- The second loop passes backwards over characters that are not colons. -/
theorem back_skip (str : List Nat) (i0 : Nat) :
    ∀ (h X W : List Nat) (fuel x p b : Nat) (s : Ip6),
      str = X ++ (h ++ W) → (∀ c ∈ h, c ≠ 58) → X.length = x + 1 → i0 ≤ x →
      str2ip6_back str i0 (fuel + h.length) (x + h.length) p b s =
        str2ip6_back str i0 fuel x p b s := by
  intro h
  induction h using List.reverseRecOn with
  | nil => intro X W fuel x p b s _ _ _ _; rfl
  | append_singleton h c ih =>
    intro X W fuel x p b s hstr hh hX hx
    have hc : str.getD (x + (h ++ [c]).length) 0 = c := by
      have e : str = (X ++ h) ++ (c :: W) := by rw [hstr]; simp
      have e2 : x + (h ++ [c]).length = (X ++ h).length := by simp [hX]; omega
      rw [e, e2, getD_append_length]; rfl
    have hstr2 : str = X ++ (h ++ (c :: W)) := by rw [hstr]; simp
    have e1 : fuel + (h ++ [c]).length = (fuel + h.length) + 1 := by simp; omega
    have hj : x + (h ++ [c]).length > i0 := by simp; omega
    have hjm : x + (h ++ [c]).length - 1 = x + h.length := by
      rw [List.length_append, List.length_singleton]; omega
    rw [e1, str2ip6_back, if_pos hj, hc, if_pos (hh c (by simp)), hjm]
    exact ih X (c :: W) fuel x p b s hstr2 (fun y hy => hh y (by simp [hy])) hX hx

/-- The first loop on a run of groups each followed by a colon, the last of
these colons being followed by a second colon: it stores the values of the
groups at `p`, `p+1`, … and stops on that last colon. -/
theorem front_groups (str : List Nat) (len : Nat) (T : List Nat) (fuel : Nat) :
    ∀ (gs : List (List Nat)) (g pre : List Nat) (p : Nat) (s : Ip6),
      str = pre ++ (((g :: gs).flatMap (fun x => x ++ [58])) ++ 58 :: T) →
      (∀ x ∈ g :: gs, ∀ c ∈ x, c ≠ 0 ∧ c ≠ 58) →
      (∀ x ∈ gs, x ≠ []) →
      pre.length + ((g :: gs).flatMap (fun x => x ++ [58])).length < len →
      p + gs.length < 8 →
      str2ip6_front str len (fuel + ((g :: gs).flatMap (fun x => x ++ [58])).length)
          pre.length p pre.length s =
        (pre.length + ((g :: gs).flatMap (fun x => x ++ [58])).length - 1,
          s.storeUp p ((g :: gs).map group_value)) := by
  intro gs
  induction gs with
  | nil =>
    intro g pre p s hstr hall _ hlen _
    have hg := hall g (by simp)
    have hstr1 : str = pre ++ (g ++ 58 :: 58 :: T) := by rw [hstr]; simp
    have hF : ([g].flatMap (fun x => x ++ [58])).length = g.length + 1 := by simp
    rw [hF] at hlen ⊢
    have e1 : fuel + (g.length + 1) = (fuel + 1) + g.length := by omega
    rw [e1, front_skip str len g pre (58 :: 58 :: T) (fuel + 1) p pre.length s hstr1
      (fun c hc => (hg c hc).2) (by omega)]
    have hi : pre.length + g.length < len := by omega
    have hc : str.getD (pre.length + g.length) 0 = 58 := by
      rw [hstr1, getD_append_add, ← Nat.add_zero g.length, getD_append_add]; rfl
    have hn : str.getD (pre.length + g.length + 1) 0 = 58 := by
      rw [hstr1, Nat.add_assoc, getD_append_add, getD_append_add]; rfl
    have hv : str2ns (str.set (pre.length + g.length) 0) pre.length = group_value g := by
      rw [hstr1]; exact str2ns_set_group pre g (58 :: T) 58 (fun c hc => (hg c hc).1)
    rw [str2ip6_front, if_pos hi, hc, if_neg (by simp)]
    simp only []
    rw [if_pos hn, hv]
    simp [Ip6.storeUp]
  | cons g2 gs ih =>
    intro g pre p s hstr hall hne hlen hp
    have hg := hall g (by simp)
    have hg2 := hall g2 (by simp)
    obtain ⟨c2, g2t, hg2e⟩ : ∃ c2 g2t, g2 = c2 :: g2t := by
      cases g2 with
      | nil => exact absurd rfl (hne [] (by simp))
      | cons c2 g2t => exact ⟨c2, g2t, rfl⟩
    have hc2 : c2 ≠ 58 := (hg2 c2 (by rw [hg2e]; simp)).2
    have hFe : (g :: g2 :: gs).flatMap (fun x => x ++ [58]) =
        g ++ 58 :: (g2 :: gs).flatMap (fun x => x ++ [58]) := by
      simp
    have hstr1 : str = pre ++ (g ++ 58 :: ((g2 :: gs).flatMap (fun x => x ++ [58]) ++ 58 :: T)) := by
      rw [hstr, hFe]; simp
    have hF : ((g :: g2 :: gs).flatMap (fun x => x ++ [58])).length =
        g.length + 1 + ((g2 :: gs).flatMap (fun x => x ++ [58])).length := by
      rw [hFe]; simp; omega
    rw [hF] at hlen ⊢
    have e1 : fuel + (g.length + 1 + ((g2 :: gs).flatMap (fun x => x ++ [58])).length) =
        (fuel + ((g2 :: gs).flatMap (fun x => x ++ [58])).length + 1) + g.length := by omega
    rw [e1, front_skip str len g pre _ _ p pre.length s hstr1 (fun c hc => (hg c hc).2) (by omega)]
    have hi : pre.length + g.length < len := by omega
    have hc : str.getD (pre.length + g.length) 0 = 58 := by
      rw [hstr1, getD_append_add, ← Nat.add_zero g.length, getD_append_add]; rfl
    have hn : ¬ str.getD (pre.length + g.length + 1) 0 = 58 := by
      rw [hstr1, Nat.add_assoc, getD_append_add, getD_append_add, hg2e]
      simpa using hc2
    have hv : str2ns (str.set (pre.length + g.length) 0) pre.length = group_value g := by
      rw [hstr1]; exact str2ns_set_group pre g _ 58 (fun c hc => (hg c hc).1)
    rw [str2ip6_front, if_pos hi, hc, if_neg (by simp)]
    simp only []
    rw [if_neg hn, hv]
    have hstr2 : str = (pre ++ g ++ [58]) ++
        (((g2 :: gs).flatMap (fun x => x ++ [58])) ++ 58 :: T) := by
      rw [hstr1]; simp
    have hpl : (pre ++ g ++ [58]).length = pre.length + g.length + 1 := by simp; omega
    have := ih g2 (pre ++ g ++ [58]) ((p + 1) % 256) (s.store p (group_value g)) hstr2
      (fun x hx => hall x (by simp at hx ⊢; tauto))
      (fun x hx => hne x (by simp [hx]))
      (by rw [hpl]; omega)
      (by rw [Nat.mod_eq_of_lt (by omega)]; simp at hp; omega)
    rw [hpl] at this
    rw [this]
    refine Prod.ext ?_ ?_
    · simp only []; omega
    · simp [Ip6.storeUp]

/-- The second loop on a run of groups each preceded by a colon: it stores the
values of the groups, last group first, at `p`, `p-1`, … and ends below the
first of these colons. -/
theorem back_groups (str : List Nat) (i0 : Nat) :
    ∀ (hs : List (List Nat)) (X W : List Nat) (fuel p : Nat) (s : Ip6),
      str = X ++ (hs.flatMap (fun x => 58 :: x) ++ W) → X.length = i0 + 1 → W ≠ [] →
      (∀ x ∈ hs, ∀ c ∈ x, c ≠ 0 ∧ c ≠ 58) →
      str2ip6_back str i0 (fuel + (hs.flatMap (fun x => 58 :: x)).length)
          (i0 + (hs.flatMap (fun x => 58 :: x)).length) p
          (i0 + 1 + (hs.flatMap (fun x => 58 :: x)).length) s =
        s.storeDown p (hs.reverse.map group_value) := by
  intro hs
  induction hs using List.reverseRecOn with
  | nil =>
    intro X W fuel p s _ _ _ _
    cases fuel with
    | zero => rfl
    | succ f =>
      simp only [List.flatMap_nil, List.length_nil, Nat.add_zero]
      rw [str2ip6_back, if_neg (by omega)]
      rfl
  | append_singleton hs h ih =>
    intro X W fuel p s hstr hX hW hall
    have hh := hall h (by simp)
    obtain ⟨w, W1, hWe⟩ : ∃ w W1, W = w :: W1 := by
      cases W with
      | nil => exact absurd rfl hW
      | cons w W1 => exact ⟨w, W1, rfl⟩
    have hFe : (hs ++ [h]).flatMap (fun x => 58 :: x) =
        hs.flatMap (fun x => 58 :: x) ++ 58 :: h := by simp
    have hF : ((hs ++ [h]).flatMap (fun x => 58 :: x)).length =
        (hs.flatMap (fun x => 58 :: x)).length + 1 + h.length := by
      rw [hFe]; simp; omega
    have hstr1 : str = (X ++ hs.flatMap (fun x => 58 :: x) ++ [58]) ++ (h ++ w :: W1) := by
      rw [hstr, hFe, hWe]; simp
    have hX1 : (X ++ hs.flatMap (fun x => 58 :: x) ++ [58]).length =
        (i0 + (hs.flatMap (fun x => 58 :: x)).length + 1) + 1 := by
      simp [hX]; omega
    rw [hF]
    have e1 : fuel + ((hs.flatMap (fun x => 58 :: x)).length + 1 + h.length) =
        (fuel + (hs.flatMap (fun x => 58 :: x)).length + 1) + h.length := by omega
    have e2 : i0 + ((hs.flatMap (fun x => 58 :: x)).length + 1 + h.length) =
        (i0 + (hs.flatMap (fun x => 58 :: x)).length + 1) + h.length := by omega
    rw [e1, e2, back_skip str i0 h _ (w :: W1) _ _ p _ s hstr1 (fun c hc => (hh c hc).2) hX1
      (by omega)]
    have hj : i0 + (hs.flatMap (fun x => 58 :: x)).length + 1 > i0 := by omega
    have hc : str.getD (i0 + (hs.flatMap (fun x => 58 :: x)).length + 1) 0 = 58 := by
      have e : str = (X ++ hs.flatMap (fun x => 58 :: x)) ++ (58 :: (h ++ w :: W1)) := by
        rw [hstr1]; simp
      have e3 : i0 + (hs.flatMap (fun x => 58 :: x)).length + 1 =
          (X ++ hs.flatMap (fun x => 58 :: x)).length := by simp [hX]; omega
      rw [e, e3, getD_append_length]; rfl
    have hv : str2ns (str.set (i0 + 1 + ((hs.flatMap (fun x => 58 :: x)).length + 1 + h.length)) 0)
        (i0 + (hs.flatMap (fun x => 58 :: x)).length + 1 + 1) = group_value h := by
      have e4 : i0 + 1 + ((hs.flatMap (fun x => 58 :: x)).length + 1 + h.length) =
          (X ++ hs.flatMap (fun x => 58 :: x) ++ [58]).length + h.length := by rw [hX1]; omega
      rw [e4, ← hX1, hstr1]
      exact str2ns_set_group _ h W1 w (fun c hc => (hh c hc).1)
    rw [str2ip6_back, if_pos hj, hc, if_neg (by simp)]
    simp only []
    rw [hv]
    have hstr2 : str = X ++ (hs.flatMap (fun x => 58 :: x) ++ (58 :: (h ++ w :: W1))) := by
      rw [hstr1]; simp
    have := ih X (58 :: (h ++ w :: W1)) fuel ((p + 255) % 256) (s.store p (group_value h))
      hstr2 hX (by simp) (fun x hx => hall x (by simp [hx]))
    have e5 : i0 + (hs.flatMap (fun x => 58 :: x)).length + 1 - 1 =
        i0 + (hs.flatMap (fun x => 58 :: x)).length := by omega
    have e6 : i0 + (hs.flatMap (fun x => 58 :: x)).length + 1 =
        i0 + 1 + (hs.flatMap (fun x => 58 :: x)).length := by omega
    rw [e5]
    conv_lhs => rw [e6]
    rw [this]
    simp [Ip6.storeDown]

theorem storeUp_ip :
    ∀ (vs A olds B : List Nat) (p : Nat) (s : Ip6),
      s.ip = A ++ olds ++ B → A.length = p → olds.length = vs.length → p + vs.length ≤ 8 →
      (s.storeUp p vs).ip = A ++ vs ++ B := by
  intro vs
  induction vs with
  | nil =>
    intro A olds B p s hip _ hol _
    have : olds = [] := List.length_eq_zero.mp (by simpa using hol)
    simpa [Ip6.storeUp, this] using hip
  | cons v vs ih =>
    intro A olds B p s hip hA hol hp
    obtain ⟨o, olds1, rfl⟩ : ∃ o olds1, olds = o :: olds1 := by
      cases olds with
      | nil => simp at hol
      | cons o olds1 => exact ⟨o, olds1, rfl⟩
    have hset : (s.store p v).ip = (A ++ [v]) ++ olds1 ++ B := by
      have e : s.ip = A ++ (o :: (olds1 ++ B)) := by rw [hip]; simp
      simp only [Ip6.store]
      rw [e, ← hA, List.set_append_right _ _ (le_refl _)]
      simp
    have hmod : (p + 1) % 256 = p + 1 := Nat.mod_eq_of_lt (by simp at hp; omega)
    rw [Ip6.storeUp, hmod]
    rw [ih (A ++ [v]) olds1 B (p + 1) (s.store p v) hset (by simp [hA])
      (by simpa using hol) (by simp at hp ⊢; omega)]
    simp

theorem storeDown_ip :
    ∀ (vs A olds B : List Nat) (p : Nat) (s : Ip6),
      s.ip = A ++ olds ++ B → (vs ≠ [] → A.length + olds.length = p + 1) →
      olds.length = vs.length → p < 256 →
      (s.storeDown p vs).ip = A ++ vs.reverse ++ B := by
  intro vs
  induction vs with
  | nil =>
    intro A olds B p s hip _ hol _
    have : olds = [] := List.length_eq_zero.mp (by simpa using hol)
    simpa [Ip6.storeDown, this] using hip
  | cons v vs ih =>
    intro A olds B p s hip hAp hol hp
    have hAp1 := hAp (by simp)
    obtain ⟨olds1, o, rfl⟩ : ∃ olds1 o, olds = olds1 ++ [o] := by
      rcases List.eq_nil_or_concat olds with h | ⟨L, b, h⟩
      · rw [h] at hol; simp at hol
      · exact ⟨L, b, by rw [h, List.concat_eq_append]⟩
    have hol1 : olds1.length = vs.length := by simp at hol; omega
    have hidx : p = (A ++ olds1).length := by simp at hAp1 ⊢; omega
    have hset : (s.store p v).ip = A ++ olds1 ++ (v :: B) := by
      have e : s.ip = (A ++ olds1) ++ (o :: B) := by rw [hip]; simp
      simp only [Ip6.store]
      rw [e, hidx, List.set_append_right _ _ (le_refl _)]
      simp
    rw [Ip6.storeDown]
    rw [ih A olds1 (v :: B) ((p + 255) % 256) (s.store p v) hset
      (by
        intro hne
        have hpos : 0 < vs.length := List.length_pos.mpr hne
        simp at hAp1
        omega)
      hol1 (Nat.mod_lt _ (by norm_num))]
    simp

theorem join_colon_then_colon (g : List Nat) (gs : List (List Nat)) :
    join_colon (g :: gs) ++ [58] = (g :: gs).flatMap (fun x => x ++ [58]) := by
  induction gs generalizing g with
  | nil => simp [join_colon]
  | cons h gs ih =>
    have := ih h
    simp only [join_colon, List.flatMap_cons] at this ⊢
    rw [← this]
    simp

theorem colon_then_join_colon (g : List Nat) (gs : List (List Nat)) :
    58 :: join_colon (g :: gs) = (g :: gs).flatMap (fun x => 58 :: x) := by
  induction gs generalizing g with
  | nil => simp [join_colon]
  | cons h gs ih =>
    have := ih h
    simp only [join_colon, List.flatMap_cons] at this ⊢
    rw [← this]
    simp

theorem group_value_nil : group_value [] = 0 := by decide

/-- `str2ip6` on a text made of front groups each followed by a colon and back
groups each preceded by a colon. -/
theorem str2ip6_groups (g0 : List Nat) (gs0 hs : List (List Nat)) (rest : List Nat)
    (hfront : ∀ x ∈ g0 :: gs0, ∀ c ∈ x, c ≠ 0 ∧ c ≠ 58)
    (hne : ∀ x ∈ gs0, x ≠ [])
    (hback : ∀ x ∈ hs, ∀ c ∈ x, c ≠ 0 ∧ c ≠ 58)
    (hhs : hs ≠ [])
    (hkm : (gs0.length + 1) + hs.length ≤ 8) :
    (str2ip6 ((g0 :: gs0).flatMap (fun x => x ++ [58]) ++ hs.flatMap (fun x => 58 :: x)
        ++ 0 :: rest)).ip =
      (g0 :: gs0).map group_value ++ List.replicate (8 - (gs0.length + 1) - hs.length) 0
        ++ hs.map group_value := by
  obtain ⟨h1, hs1, rfl⟩ : ∃ h1 hs1, hs = h1 :: hs1 := by
    cases hs with
    | nil => exact absurd rfl hhs
    | cons h1 hs1 => exact ⟨h1, hs1, rfl⟩
  generalize hFp : (g0 :: gs0).flatMap (fun x => x ++ [58]) = Fp
  generalize hBp : (h1 :: hs1).flatMap (fun x => 58 :: x) = Bp
  have hFpos : 1 ≤ Fp.length := by rw [← hFp]; simp; omega
  have hBe : Bp = 58 :: (h1 ++ hs1.flatMap (fun x => 58 :: x)) := by rw [← hBp]; simp
  have hBpos : 1 ≤ Bp.length := by rw [hBe]; simp
  have htext : ∀ c ∈ Fp ++ Bp, c ≠ 0 := by
    intro c hc
    rcases List.mem_append.mp hc with h | h
    · rw [← hFp] at h
      obtain ⟨x, hx, hcx⟩ := List.mem_flatMap.mp h
      rcases List.mem_append.mp hcx with h2 | h2
      · exact (hfront x hx c h2).1
      · simp at h2; omega
    · rw [← hBp] at h
      obtain ⟨x, hx, hcx⟩ := List.mem_flatMap.mp h
      rcases List.mem_cons.mp hcx with h2 | h2
      · omega
      · exact (hback x hx c h2).1
  have hlen : (cstr (Fp ++ Bp ++ 0 :: rest) 0).length = Bp.length + Fp.length := by
    rw [cstr_string (Fp ++ Bp) rest htext]; simp; omega
  have hstr : Fp ++ Bp ++ 0 :: rest =
      [] ++ ((g0 :: gs0).flatMap (fun x => x ++ [58]) ++
        58 :: (h1 ++ hs1.flatMap (fun x => 58 :: x) ++ 0 :: rest)) := by
    rw [hFp, hBe]; simp
  have hf := front_groups (Fp ++ Bp ++ 0 :: rest) (Bp.length + Fp.length)
    (h1 ++ hs1.flatMap (fun x => 58 :: x) ++ 0 :: rest) Bp.length gs0 g0 [] 0
    { ip := List.replicate 8 0, writes := [], fault := false } hstr hfront hne
    (by rw [hFp]; simp; omega) (by simp at hkm ⊢; omega)
  rw [hFp] at hf
  simp only [List.length_nil, Nat.zero_add] at hf
  unfold str2ip6
  simp only [hlen]
  rw [hf]
  simp only []
  obtain ⟨i0, hi0⟩ : ∃ i0, Fp.length = i0 + 1 := ⟨Fp.length - 1, by omega⟩
  have hi0' : Fp.length - 1 = i0 := by omega
  rw [hi0']
  have hnul : (Fp ++ Bp ++ 0 :: rest).getD (Bp.length + Fp.length) 0 = 0 := by
    have e : Bp.length + Fp.length = (Fp ++ Bp).length := by simp; omega
    rw [e, getD_append_length]; rfl
  have hstep : str2ip6_back (Fp ++ Bp ++ 0 :: rest) i0 (Bp.length + Fp.length)
      (Bp.length + Fp.length) 7 (Bp.length + Fp.length)
      (Ip6.storeUp { ip := List.replicate 8 0, writes := [], fault := false } 0
        ((g0 :: gs0).map group_value)) =
      str2ip6_back (Fp ++ Bp ++ 0 :: rest) i0 (i0 + Bp.length) (i0 + Bp.length) 7
        (i0 + 1 + Bp.length)
        (Ip6.storeUp { ip := List.replicate 8 0, writes := [], fault := false } 0
          ((g0 :: gs0).map group_value)) := by
    have e : Bp.length + Fp.length = (i0 + Bp.length) + 1 := by omega
    conv_lhs => rw [e, str2ip6_back]
    rw [← e, if_pos (by omega), hnul, if_pos (by norm_num)]
    have e2 : Bp.length + Fp.length - 1 = i0 + Bp.length := by omega
    have e3 : Bp.length + Fp.length = i0 + 1 + Bp.length := by omega
    rw [e2, e3]
  rw [hstep]
  have hstr2 : Fp ++ Bp ++ 0 :: rest =
      Fp ++ ((h1 :: hs1).flatMap (fun x => 58 :: x) ++ 0 :: rest) := by
    rw [hBp]; simp
  have hb := back_groups (Fp ++ Bp ++ 0 :: rest) i0 (h1 :: hs1) Fp (0 :: rest) i0 7
    (Ip6.storeUp { ip := List.replicate 8 0, writes := [], fault := false } 0 ((g0 :: gs0).map group_value))
    hstr2 hi0 (by simp) hback
  rw [hBp] at hb
  rw [hb]
  have hup : (Ip6.storeUp { ip := List.replicate 8 0, writes := [], fault := false } 0
      ((g0 :: gs0).map group_value)).ip =
      (g0 :: gs0).map group_value ++
        (List.replicate (8 - (gs0.length + 1) - (h1 :: hs1).length) 0 ++
          List.replicate (h1 :: hs1).length 0) := by
    have := storeUp_ip ((g0 :: gs0).map group_value) [] (List.replicate (gs0.length + 1) 0)
      (List.replicate (8 - (gs0.length + 1)) 0) 0
      { ip := List.replicate 8 0, writes := [], fault := false }
      (by
        simp only [List.nil_append, List.append_replicate_replicate]
        congr 1
        simp at hkm
        omega)
      rfl (by simp) (by simp at hkm ⊢; omega)
    rw [this]
    simp only [List.nil_append, List.append_replicate_replicate]
    congr 2
    simp at hkm ⊢
    omega
  have hdown := storeDown_ip ((h1 :: hs1).reverse.map group_value)
    ((g0 :: gs0).map group_value ++ List.replicate (8 - (gs0.length + 1) - (h1 :: hs1).length) 0)
    (List.replicate (h1 :: hs1).length 0) [] 7
    (Ip6.storeUp { ip := List.replicate 8 0, writes := [], fault := false } 0 ((g0 :: gs0).map group_value))
    (by rw [hup]; simp)
    (by
      intro _
      simp at hkm ⊢
      omega)
    (by simp) (by norm_num)
  rw [hdown]
  simp

/-- C16: for a literal with the groups `front` before its `::` and `back`
after it (every group non-empty, without NUL or colon, as groups of 1-4 hex
digits are; at most 7 groups in all), followed by its NUL, `str2ip6` leaves in
`ip` the values of the front groups in order, then zeros, then the values of
the back groups in order in the last places. -/
theorem C16_compressed_literal (front back : List (List Nat)) (rest : List Nat)
    (hgroups : ∀ g ∈ front ++ back, g ≠ [] ∧ ∀ c ∈ g, c ≠ 0 ∧ c ≠ 58)
    (hkm : front.length + back.length ≤ 7) :
    (str2ip6 (compressed_literal front back ++ 0 :: rest)).ip =
      front.map group_value ++ List.replicate (8 - front.length - back.length) 0
        ++ back.map group_value := by
  have hnil : ∀ x ∈ [([] : List Nat)], ∀ c ∈ x, c ≠ 0 ∧ c ≠ 58 := by
    intro x hx c hc
    simp at hx
    rw [hx] at hc
    simp at hc
  cases front with
  | nil =>
    cases back with
    | nil =>
      have := str2ip6_groups [] [] [[]] rest hnil (by simp) hnil (by simp) (by simp)
      simpa [compressed_literal, join_colon, group_value_nil] using this
    | cons h hs =>
      have hb : ∀ x ∈ h :: hs, ∀ c ∈ x, c ≠ 0 ∧ c ≠ 58 :=
        fun x hx => (hgroups x (by simpa using hx)).2
      have := str2ip6_groups [] [] (h :: hs) rest hnil (by simp) hb (by simp)
        (by simp at hkm ⊢; omega)
      have e : compressed_literal [] (h :: hs) ++ 0 :: rest =
          [([] : List Nat)].flatMap (fun x => x ++ [58]) ++ (h :: hs).flatMap (fun x => 58 :: x)
            ++ 0 :: rest := by
        rw [← colon_then_join_colon]
        simp [compressed_literal, join_colon]
      rw [e, this]
      have e2 : 8 - (([] : List (List Nat)).length + 1) - (h :: hs).length + 1 =
          8 - ([] : List (List Nat)).length - (h :: hs).length := by
        simp at hkm ⊢; omega
      rw [← e2, List.replicate_succ]
      simp [group_value_nil]
  | cons g gs =>
    have hf : ∀ x ∈ g :: gs, ∀ c ∈ x, c ≠ 0 ∧ c ≠ 58 :=
      fun x hx => (hgroups x (List.mem_append_left _ hx)).2
    have hne : ∀ x ∈ gs, x ≠ [] :=
      fun x hx => (hgroups x (List.mem_append_left _ (List.mem_cons_of_mem _ hx))).1
    cases back with
    | nil =>
      have := str2ip6_groups g gs [[]] rest hf hne hnil (by simp) (by simp at hkm ⊢; omega)
      have e : compressed_literal (g :: gs) [] ++ 0 :: rest =
          (g :: gs).flatMap (fun x => x ++ [58]) ++ [([] : List Nat)].flatMap (fun x => 58 :: x)
            ++ 0 :: rest := by
        rw [← join_colon_then_colon]
        simp [compressed_literal, join_colon]
      rw [e, this]
      have e2 : 8 - (g :: gs).length - ([] : List (List Nat)).length =
          8 - (gs.length + 1) - [([] : List Nat)].length + 1 := by
        simp at hkm ⊢; omega
      rw [e2, List.replicate_succ']
      simp [group_value_nil]
    | cons h hs =>
      have hb : ∀ x ∈ h :: hs, ∀ c ∈ x, c ≠ 0 ∧ c ≠ 58 :=
        fun x hx => (hgroups x (List.mem_append_right _ hx)).2
      have := str2ip6_groups g gs (h :: hs) rest hf hne hb (by simp)
        (by simp at hkm ⊢; omega)
      have e : compressed_literal (g :: gs) (h :: hs) ++ 0 :: rest =
          (g :: gs).flatMap (fun x => x ++ [58]) ++ (h :: hs).flatMap (fun x => 58 :: x)
            ++ 0 :: rest := by
        rw [← join_colon_then_colon, ← colon_then_join_colon]
        simp [compressed_literal]
      rw [e, this]
      simp

/-- C16 at `2001:db8::1`: two front groups, one back group, five zero groups
between them. -/
theorem C16_compressed_literal_witness :
    compressed_literal [chars "2001", chars "db8"] [chars "1"] = chars "2001:db8::1" ∧
    (str2ip6 (compressed_literal [chars "2001", chars "db8"] [chars "1"] ++ 0 :: [])).ip =
      [chars "2001", chars "db8"].map group_value ++
        List.replicate (8 - [chars "2001", chars "db8"].length - [chars "1"].length) 0 ++
        [chars "1"].map group_value ∧
    ip6_groups (str2ip6 (chars "2001:db8::1" ++ 0 :: [])) = [8193, 3512, 0, 0, 0, 0, 0, 1] :=
  ⟨by decide,
   C16_compressed_literal [chars "2001", chars "db8"] [chars "1"] [] (by decide) (by decide),
   by decide⟩

end Netboot

